import Mathlib

/-!
# The repository-loading pipeline of `GitRepoLoader`

A shallow embedding of `src/git/GitRepoLoader.cpp`.  The loader is a state
machine over

* the guard flag `mLocked`,
* the working directory held by `mGitBase`,
* the revision cache `mRevCache`, and
* a trace: every observable effect (log line, external command, cache
  mutation, signal) is appended to it in program order.

The outside world (the process runner, the file system, the commit parser and
`Reference::configure`) is not part of `GitRepoLoader.cpp`; it is passed to
every operation as a `World`, so each theorem holds for every behaviour of
these collaborators.
-/

/-! ## Qt string helpers used by the loader -/

namespace Qt

/-- `QString::isEmpty`. -/
def isEmpty (s : String) : Bool := s.data.isEmpty

/-- `QChar::isSpace`: U+0020, U+0009..U+000D, U+0085, U+00A0 and the Unicode
separator categories Zs, Zl and Zp. -/
def isSpace (c : Char) : Bool :=
  let n := c.toNat
  n == 0x20 || (0x09 ≤ n && n ≤ 0x0d) || n == 0x85 || n == 0xa0 || n == 0x1680 ||
    (0x2000 ≤ n && n ≤ 0x200a) || n == 0x2028 || n == 0x2029 || n == 0x202f ||
    n == 0x205f || n == 0x3000

/-- `QString::trimmed`: whitespace removed from both ends. -/
def trimmed (s : String) : String :=
  ⟨((s.data.dropWhile isSpace).reverse.dropWhile isSpace).reverse⟩

/-- `QString::left(n)`: the first `n` characters (the whole string when it is shorter). -/
def left (s : String) (n : Nat) : String := ⟨s.data.take n⟩

/-- `QString::mid(pos)`: the characters from position `pos` on (empty when `pos` is past the end). -/
def mid (s : String) (pos : Nat) : String := ⟨s.data.drop pos⟩

/-- `QString::startsWith`. -/
def startsWith (s p : String) : Bool := p.data.isPrefixOf s.data

/-- `QString::endsWith`. -/
def endsWith (s p : String) : Bool := p.data.reverse.isPrefixOf s.data.reverse

/-- `s.remove(s.count() - 1, s.count())`: for a non-empty `s` the position is the last
index and the length reaches the end, so the last character is cut off; for an empty
`s` the position is out of range and nothing happens. -/
def removeLast (s : String) : String := ⟨s.data.dropLast⟩

/-- Splitting at every occurrence of a separator, empty parts kept
(`QByteArray::split`, `QString::split` with `KeepEmptyParts`): `n` separators give
`n + 1` parts, and the empty input gives one empty part. -/
def splitKeep {α : Type} [DecidableEq α] (sep : α) : List α → List (List α)
  | [] => [[]]
  | c :: cs =>
    if c = sep then [] :: splitKeep sep cs
    else
      match splitKeep sep cs with
      | [] => [[c]]
      | part :: parts => (c :: part) :: parts

/-- `QString::split(sep, QString::SkipEmptyParts)`. -/
def splitSkipEmpty (s : String) (sep : Char) : List String :=
  ((splitKeep sep s.data).filter (fun part => !part.isEmpty)).map String.mk

end Qt

namespace GitRepoLoader

/-! ## Data model -/

/-- A `QByteArray`: a sequence of byte values. -/
abbrev QByteArray := List Nat

/-- Modelled from the spec: the `Reference` record of `RevisionsCache.h`, which is not
among the sources.  It has a bitmask of kind flags (`type`), the names aggregated
into the record and the recorded id of the preceding reference line. -/
structure Reference where
  type : Nat := 0
  names : List String := []
  precedingId : String := ""
deriving DecidableEq, Repr

/-- Modelled from the spec: the `CommitInfo` class, which is not among the sources.  The
constructor `CommitInfo(record, orderIdx)` parses one raw log record and stores the
sequence index it is given; the parsed fields are functions of the raw record, which
is kept as it is, and `mIsValid` is the verdict of the commit parser on the record. -/
structure CommitInfo where
  record : QByteArray
  orderIdx : Nat
  mIsValid : Bool
deriving DecidableEq, Repr

/-- `CommitInfo::isValid`. -/
def CommitInfo.isValid (c : CommitInfo) : Bool := c.mIsValid

/-- Modelled from the spec: the working-tree pseudo-commit (the cache's slot for
uncommitted changes): its parent, the two diff payloads and the untracked-file list. -/
structure WipCommit where
  parentSha : String
  diffIndex : String
  diffIndexCached : String
  untrackedFiles : List String
deriving DecidableEq, Repr

/-- Modelled from the spec: the `RevisionsCache` class, which is not among the sources.
Commits are kept in insertion order, references are a map from commit id to
`Reference` (an association list with at most one entry per key), and there is a slot
for the working-tree pseudo-commit, the untracked-file list and the expected total. -/
structure RevisionsCache where
  commits : List CommitInfo := []
  references : List (String × Reference) := []
  wipCommit : Option WipCommit := none
  untrackedFiles : List String := []
  totalCommits : Nat := 0
deriving DecidableEq, Repr

namespace RevisionsCache

/-- Modelled from the spec: `RevisionsCache::clear`, the cache with nothing in it. -/
def clear (_ : RevisionsCache) : RevisionsCache := {}

/-- Modelled from the spec: `RevisionsCache::configure`, telling the cache the expected
total number of commits. -/
def configure (c : RevisionsCache) (n : Nat) : RevisionsCache := { c with totalCommits := n }

/-- Looking a key up in the reference map. -/
def findReference (c : RevisionsCache) (sha : String) : Option Reference :=
  (c.references.find? (fun kv => kv.1 == sha)).map Prod.snd

/-- Modelled from the spec: `RevisionsCache::getReference`, fetch-or-create: the record
stored under the id, or a fresh record when there is none. -/
def getReference (c : RevisionsCache) (sha : String) : Reference :=
  (c.findReference sha).getD {}

/-- Setting a key of an association list: the first entry with that key is replaced,
or the pair is added at the end. -/
def setKey (sha : String) (ref : Reference) : List (String × Reference) → List (String × Reference)
  | [] => [(sha, ref)]
  | kv :: rest => if kv.1 == sha then (sha, ref) :: rest else kv :: setKey sha ref rest

/-- Modelled from the spec: `RevisionsCache::insertReference`, storing the record under
the id (replacing the record stored there before). -/
def insertReference (c : RevisionsCache) (sha : String) (ref : Reference) : RevisionsCache :=
  { c with references := setKey sha ref c.references }

/-- Modelled from the spec: `RevisionsCache::removeReference`, removing the record stored
under the id. -/
def removeReference (c : RevisionsCache) (sha : String) : RevisionsCache :=
  { c with references := c.references.filter (fun kv => !(kv.1 == sha)) }

/-- Modelled from the spec: `RevisionsCache::insertCommitInfo`, adding the commit after
the ones already stored. -/
def insertCommitInfo (c : RevisionsCache) (rev : CommitInfo) : RevisionsCache :=
  { c with commits := c.commits ++ [rev] }

/-- Modelled from the spec: `RevisionsCache::setUntrackedFilesList`. -/
def setUntrackedFilesList (c : RevisionsCache) (files : List String) : RevisionsCache :=
  { c with untrackedFiles := files }

/-- Modelled from the spec: `RevisionsCache::updateWipCommit`, writing the pseudo-commit
with the given parent and diff payloads and the cache's untracked-file list. -/
def updateWipCommit (c : RevisionsCache) (parentSha diffIndex diffIndexCached : String) :
    RevisionsCache :=
  { c with wipCommit := some ⟨parentSha, diffIndex, diffIndexCached, c.untrackedFiles⟩ }

end RevisionsCache

/-- The collaborators of the loader that are not in `GitRepoLoader.cpp`. -/
structure World where
  /-- `GitBase::run`: the blocking process runner, from the working directory and the
  command line to the success flag and the captured output. -/
  run : String → String → Bool × String
  /-- `QFile::exists`. -/
  fileExists : String → Bool
  /-- `QDir(path).absolutePath()`. -/
  absolutePath : String → String
  /-- `Reference::configure(refName, isCurrentBranch, prevRefSha)`. -/
  configure : Reference → String → Bool → String → Reference
  /-- The verdict of the commit parser on a raw record (`CommitInfo::isValid` after
  `CommitInfo(record, orderIdx)`). -/
  validRecord : QByteArray → Bool
  /-- The `CUR_BRANCH` bit mask of the reference kinds. -/
  CUR_BRANCH : Nat

/-- The observable effects of the loader, in the order the code performs them. -/
inductive Event where
  | logWarning (msg : String)
  | logError (msg : String)
  | logInfo (msg : String)
  | run (workingDir cmd : String)
  | setWorkingDir (dir : String)
  | setLocked (b : Bool)
  | cacheClear
  | cacheConfigure (totalCommits : Nat)
  | insertReference (sha : String) (ref : Reference)
  | removeReference (sha : String)
  | setUntrackedFilesList (files : List String)
  | updateWipCommit (parentSha diffIndex diffIndexCached : String)
  | insertCommitInfo (rev : CommitInfo)
  | requestorRun (workingDir cmd : String)
  | signalLoadingStarted
  | signalLoadingFinished
  | cancelAllProcesses
deriving DecidableEq, Repr

/-- The state of a `GitRepoLoader` together with the objects it shares: the guard
`mLocked`, the working directory of `mGitBase`, the cache `mRevCache` and the trace of
effects so far. -/
structure Loader where
  mLocked : Bool := false
  workingDir : String
  mRevCache : RevisionsCache := {}
  trace : List Event := []
deriving DecidableEq, Repr

namespace Loader

/-- Appending one effect to the trace. -/
def emit (s : Loader) (e : Event) : Loader := { s with trace := s.trace ++ [e] }

/-- `mGitBase->run(cmd)`: the command runs in the current working directory. -/
def run (w : World) (s : Loader) (cmd : String) : (Bool × String) × Loader :=
  (w.run s.workingDir cmd, s.emit (Event.run s.workingDir cmd))

/-- `mGitBase->setWorkingDir(dir)`. -/
def setWorkingDir (s : Loader) (dir : String) : Loader :=
  { s with workingDir := dir, trace := s.trace ++ [Event.setWorkingDir dir] }

/-- `mLocked = b`. -/
def setLocked (s : Loader) (b : Bool) : Loader :=
  { s with mLocked := b, trace := s.trace ++ [Event.setLocked b] }

/-- `mRevCache->clear()`. -/
def cacheClear (s : Loader) : Loader :=
  { s with mRevCache := s.mRevCache.clear, trace := s.trace ++ [Event.cacheClear] }

/-- `mRevCache->configure(n)`. -/
def cacheConfigure (s : Loader) (n : Nat) : Loader :=
  { s with mRevCache := s.mRevCache.configure n, trace := s.trace ++ [Event.cacheConfigure n] }

/-- `mRevCache->insertReference(sha, ref)`. -/
def insertReference (s : Loader) (sha : String) (ref : Reference) : Loader :=
  { s with mRevCache := s.mRevCache.insertReference sha ref,
           trace := s.trace ++ [Event.insertReference sha ref] }

/-- `mRevCache->removeReference(sha)`. -/
def removeReference (s : Loader) (sha : String) : Loader :=
  { s with mRevCache := s.mRevCache.removeReference sha,
           trace := s.trace ++ [Event.removeReference sha] }

/-- `mRevCache->insertCommitInfo(rev)`. -/
def insertCommitInfo (s : Loader) (rev : CommitInfo) : Loader :=
  { s with mRevCache := s.mRevCache.insertCommitInfo rev,
           trace := s.trace ++ [Event.insertCommitInfo rev] }

/-- `mRevCache->setUntrackedFilesList(files)`. -/
def setUntrackedFilesList (s : Loader) (files : List String) : Loader :=
  { s with mRevCache := s.mRevCache.setUntrackedFilesList files,
           trace := s.trace ++ [Event.setUntrackedFilesList files] }

/-- `mRevCache->updateWipCommit(parentSha, diffIndex, diffIndexCached)`. -/
def updateWipCommit (s : Loader) (parentSha diffIndex diffIndexCached : String) : Loader :=
  { s with mRevCache := s.mRevCache.updateWipCommit parentSha diffIndex diffIndexCached,
           trace := s.trace ++ [Event.updateWipCommit parentSha diffIndex diffIndexCached] }

end Loader

/-! ## The operations of `GitRepoLoader.cpp` -/

/-- The constant `GIT_LOG_FORMAT`. -/
def GIT_LOG_FORMAT : String := "%m%HX%P%n%cn<%ce>%n%an<%ae>%n%at%n%s%n%b"

/-- `GitRepoLoader::configureRepoDirectory`. -/
def configureRepoDirectory (w : World) (s : Loader) : Bool × Loader :=
  let (ret, s1) := s.run w "git rev-parse --show-cdup"
  if ret.1 then
    let d := w.absolutePath (s1.workingDir ++ "/" ++ Qt.trimmed ret.2)
    (true, s1.setWorkingDir d)
  else
    (false, s1)

/-- The body of the `for` loop of `GitRepoLoader::loadReferences`, run over the
remaining reference lines; `prevRefSha` is the loop-carried variable. -/
def loadReferencesLoop (w : World) (curBranchSHA : String) :
    List String → String → Loader → Loader
  | [], _, s => s
  | reference :: rest, prevRefSha, s =>
    let revSha := Qt.left reference 40
    let refName := Qt.mid reference 41
    let cur := s.mRevCache.getReference revSha
    let cur := w.configure cur refName (decide (curBranchSHA = revSha)) prevRefSha
    let s1 := s.insertReference revSha cur
    let s2 :=
      if Qt.startsWith refName "refs/tags/" && Qt.endsWith refName "^\x7b\x7d"
          && !Qt.isEmpty prevRefSha then
        s1.removeReference prevRefSha
      else s1
    loadReferencesLoop w curBranchSHA rest revSha s2

/-- `GitRepoLoader::loadReferences`. -/
def loadReferences (w : World) (s : Loader) : Loader :=
  let (ret3, s1) := s.run w "git show-ref -d"
  if ret3.1 then
    let (ret, s2) := s1.run w "git rev-parse HEAD"
    let curBranchSHA := if ret.1 then Qt.removeLast ret.2 else ret.2
    let referencesList := Qt.splitSkipEmpty ret3.2 '\n'
    let s3 := loadReferencesLoop w curBranchSHA referencesList "" s2
    let cur := s3.mRevCache.getReference curBranchSHA
    let cur := { cur with type := cur.type ||| w.CUR_BRANCH }
    s3.insertReference curBranchSHA cur
  else
    s1

/-- `GitRepoLoader::requestRevisions`: the history request is handed to a new
`GitRequestorProcess` for the current working directory; its output arrives later,
through `processRevision`. -/
def requestRevisions (s : Loader) : Loader :=
  let baseCmd :=
    "git log --date-order --no-color --log-size --parents --boundary -z --pretty=format:"
      ++ GIT_LOG_FORMAT ++ " --all"
  s.emit (Event.requestorRun s.workingDir baseCmd)

/-- `GitRepoLoader::loadRepository`. -/
def loadRepository (w : World) (s : Loader) : Bool × Loader :=
  if s.mLocked then
    (false, s.emit (Event.logWarning "Git is currently loading data."))
  else if Qt.isEmpty s.workingDir then
    (false, s.emit (Event.logError "No working directory set."))
  else
    let s1 := s.emit (Event.logInfo "Initializing Git...")
    let s2 := s1.cacheClear
    let s3 := s2.setLocked true
    let (ok, s4) := configureRepoDirectory w s3
    if ok then
      let s5 := loadReferences w s4
      let s6 := requestRevisions s5
      (true, s6.emit (Event.logInfo "... Git init finished"))
    else
      (false, s4.emit (Event.logError "The working directory is not a Git repository."))

/-- `GitRepoLoader::getUntrackedFiles`. -/
def getUntrackedFiles (w : World) (s : Loader) : List String × Loader :=
  let runCmd := "git ls-files --others"
  let exFile := ".git/info/exclude"
  let path := s.workingDir ++ "/" ++ exFile
  let runCmd :=
    if w.fileExists path then runCmd ++ (" --exclude-from=$" ++ exFile ++ "$") else runCmd
  let runCmd := runCmd ++ (" --exclude-per-directory=$" ++ ".gitignore" ++ "$")
  let (ret, s1) := s.run w runCmd
  (Qt.splitSkipEmpty ret.2 '\n', s1)

/-- `GitRepoLoader::updateWipRevision`. -/
def updateWipRevision (w : World) (s : Loader) : Loader :=
  let (files, s1) := getUntrackedFiles w s
  let s2 := s1.setUntrackedFilesList files
  let (ret, s3) := s2.run w "git rev-parse --revs-only HEAD"
  if ret.1 then
    let parentSha := Qt.trimmed ret.2
    let (ret3, s4) := s3.run w ("git diff-index " ++ parentSha)
    let diffIndex := if ret3.1 then ret3.2 else ""
    let (ret4, s5) := s4.run w ("git diff-index --cached " ++ parentSha)
    let diffIndexCached := if ret4.1 then ret4.2 else ""
    s5.updateWipCommit parentSha diffIndex diffIndexCached
  else
    s3

/-- The `for` loop of `GitRepoLoader::processRevision` over the remaining records;
`count` is the loop-carried counter (`count++` hands the current value to the
constructor).  The counter is a natural number: a `QByteArray` has fewer than `2^31`
bytes, so a run of non-empty valid records never takes the `int` near its limit. -/
def processRevisionLoop (w : World) : List QByteArray → Nat → Loader → Loader
  | [], _, s => s
  | commitInfo :: rest, count, s =>
    let revision : CommitInfo := ⟨commitInfo, count, w.validRecord commitInfo⟩
    if revision.isValid then
      processRevisionLoop w rest (count + 1) (s.insertCommitInfo revision)
    else
      s

/-- The part of `GitRepoLoader::processRevision` before its `for` loop: the expected
total, the loading-started signal and the working-tree pseudo-commit. -/
def processRevisionBegin (w : World) (s : Loader) (ba : QByteArray) : Loader :=
  let commits := Qt.splitKeep 0 ba
  let totalCommits := commits.length
  let s1 := s.cacheConfigure totalCommits
  let s2 := s1.emit Event.signalLoadingStarted
  updateWipRevision w s2

/-- `GitRepoLoader::processRevision`. -/
def processRevision (w : World) (s : Loader) (ba : QByteArray) : Loader :=
  let commits := Qt.splitKeep 0 ba
  let s3 := processRevisionBegin w s ba
  let s4 := processRevisionLoop w commits 1 s3
  let s5 := s4.setLocked false
  s5.emit Event.signalLoadingFinished

/-- `GitRepoLoader::cancelAll`. -/
def cancelAll (s : Loader) : Loader := s.emit Event.cancelAllProcesses

end GitRepoLoader

/-! ## Vocabulary for traces -/

namespace GitRepoLoader

/-- The events a step appended: the trace of `s'` beyond the length of the trace of `s`. -/
def newEvents (s s' : Loader) : List Event := s'.trace.drop s.trace.length

/-- A history stream handed to a `GitRequestorProcess`. -/
def Event.isRequestorRun : Event → Bool
  | Event.requestorRun _ _ => true
  | _ => false

/-- The number of history streams dispatched in a trace. -/
def dispatched (t : List Event) : Nat := t.countP Event.isRequestorRun

/-- A blocking command of the process runner. -/
def Event.isRun : Event → Bool
  | Event.run _ _ => true
  | _ => false

/-- A write to the reference map of the cache. -/
def Event.isReferenceMutation : Event → Bool
  | Event.insertReference _ _ => true
  | Event.removeReference _ => true
  | _ => false

/-- The events of `loadReferences`: runner queries and writes to the reference map. -/
def Event.isQueryOrReference (e : Event) : Bool := e.isRun || e.isReferenceMutation

/-- The events of `configureRepoDirectory`. -/
def Event.isRootDiscovery : Event → Bool
  | Event.run _ _ => true
  | Event.setWorkingDir _ => true
  | _ => false

/-- A call of `RevisionsCache::insertCommitInfo`. -/
def Event.isInsertCommitInfo : Event → Bool
  | Event.insertCommitInfo _ => true
  | _ => false

/-- Any event but a commit insert. -/
def Event.notCommitInsert (e : Event) : Bool := !e.isInsertCommitInfo

/-- A call of one of the mutators of the cache. -/
def Event.isCacheMutation : Event → Bool
  | Event.cacheClear => true
  | Event.cacheConfigure _ => true
  | Event.insertReference _ _ => true
  | Event.removeReference _ => true
  | Event.setUntrackedFilesList _ => true
  | Event.updateWipCommit _ _ _ => true
  | Event.insertCommitInfo _ => true
  | _ => false

/-- The events of `processRevision` before its loop. -/
def Event.isBeginEvent : Event → Bool
  | Event.cacheConfigure _ => true
  | Event.signalLoadingStarted => true
  | Event.run _ _ => true
  | Event.setUntrackedFilesList _ => true
  | Event.updateWipCommit _ _ _ => true
  | _ => false

/-- The commit an event inserts, if it is a commit insert. -/
def Event.commitInserted : Event → Option CommitInfo
  | Event.insertCommitInfo rev => some rev
  | _ => none

/-- The commits handed to `insertCommitInfo` in a trace, in order. -/
def insertedCommits (t : List Event) : List CommitInfo := t.filterMap Event.commitInserted

/-- The commits a batch yields, in the words of the specification: the records of the
longest all-valid run at the start of the batch, in batch order, numbered from `first`. -/
def ingested (w : World) (records : List QByteArray) (first : Nat) : List CommitInfo :=
  (List.enumFrom first (records.takeWhile w.validRecord)).map
    (fun p => ({ record := p.2, orderIdx := p.1, mIsValid := true } : CommitInfo))

/-- The value `loadReferences` computes for `curBranchSHA` in a working directory: the
output of `git rev-parse HEAD`, its last character cut off when the command succeeded. -/
def headSha (w : World) (workingDir : String) : String :=
  if (w.run workingDir "git rev-parse HEAD").1 then
    Qt.removeLast (w.run workingDir "git rev-parse HEAD").2
  else (w.run workingDir "git rev-parse HEAD").2

/-- The trace of `s'` is the trace of `s` followed by events that all satisfy `P`. -/
def Appends (P : Event → Bool) (s s' : Loader) : Prop :=
  ∃ evs : List Event, s'.trace = s.trace ++ evs ∧ ∀ e ∈ evs, P e = true

/-- The fields of the loader that reference loading never writes. -/
def sameButReferences (s s' : Loader) : Prop :=
  s'.mLocked = s.mLocked ∧ s'.workingDir = s.workingDir ∧
    s'.mRevCache.commits = s.mRevCache.commits ∧
    s'.mRevCache.wipCommit = s.mRevCache.wipCommit ∧
    s'.mRevCache.untrackedFiles = s.mRevCache.untrackedFiles ∧
    s'.mRevCache.totalCommits = s.mRevCache.totalCommits

/-! ## Sample inputs -/

/-- A repository with a branch, an annotated tag and its dereferenced line, and a
detached HEAD; the sample commit parser accepts records of at least three bytes. -/
def sampleWorld : World where
  run := fun _ cmd =>
    if cmd = "git rev-parse --show-cdup" then (true, "\n")
    else if cmd = "git show-ref -d" then
      (true, "aaaaaaaaaaaaaaaaaaaaaaaaaaaaaaaaaaaaaaaa refs/heads/main\n" ++
        "bbbbbbbbbbbbbbbbbbbbbbbbbbbbbbbbbbbbbbbb refs/tags/v1\n" ++
        "cccccccccccccccccccccccccccccccccccccccc refs/tags/v1^\x7b\x7d\n")
    else if cmd = "git rev-parse HEAD" then
      (true, "dddddddddddddddddddddddddddddddddddddddd\n")
    else (false, "")
  fileExists := fun _ => false
  absolutePath := fun p => p
  configure := fun r refName isCurrent prevRefSha =>
    { type := if isCurrent then r.type ||| 8 else r.type,
      names := r.names ++ [refName],
      precedingId := prevRefSha }
  validRecord := fun r => decide (3 ≤ r.length)
  CUR_BRANCH := 8

/-- A directory that is not a repository: every command fails with no output. -/
def notARepoWorld : World :=
  { sampleWorld with run := fun _ _ => (false, "") }

/-- An idle loader with a working directory and an empty cache. -/
def idleLoader : Loader := { workingDir := "/home/user/project" }

/-- A loader whose lock is held, with a commit in its cache. -/
def busyLoader : Loader :=
  { mLocked := true, workingDir := "/home/user/project",
    mRevCache := { commits := [{ record := [1, 2, 3], orderIdx := 1, mIsValid := true }] } }

/-- An idle loader with no working directory, with a commit in its cache. -/
def unsetLoader : Loader :=
  { workingDir := "",
    mRevCache := { commits := [{ record := [1, 2, 3], orderIdx := 1, mIsValid := true }] } }

/-! ## Vocabulary for the working tree, the load cycle and the step sequences -/

/-- The command line `getUntrackedFiles` builds in a working directory. -/
def untrackedFilesCmd (w : World) (workingDir : String) : String :=
  let runCmd := "git ls-files --others"
  let exFile := ".git/info/exclude"
  let path := workingDir ++ "/" ++ exFile
  let runCmd :=
    if w.fileExists path then runCmd ++ (" --exclude-from=$" ++ exFile ++ "$") else runCmd
  runCmd ++ (" --exclude-per-directory=$" ++ ".gitignore" ++ "$")

/-- The keys of the reference map, in the order of the association list. -/
def RevisionsCache.referenceIds (c : RevisionsCache) : List String := c.references.map Prod.fst

/-- The number of completion notifications handled in a trace: `processRevision` emits
the loading-finished signal once, at its end. -/
def completed (t : List Event) : Nat := t.count Event.signalLoadingFinished

/-- The number of dispatched history streams still awaiting their completion. -/
def pending (s : Loader) : Nat := dispatched s.trace - completed s.trace

/-- One step of a client of the loader or of the process runner. -/
inductive Step where
  | loadRepository (w : World)
  | cancelAll
  | updateWipRevision (w : World)
  | completion (w : World) (ba : QByteArray)

/-- The effect of a step; a completion answers a dispatched stream, so it cannot happen
when no stream is awaiting completion. -/
def Step.apply : Step → Loader → Option Loader
  | Step.loadRepository w, s => some (GitRepoLoader.loadRepository w s).2
  | Step.cancelAll, s => some (GitRepoLoader.cancelAll s)
  | Step.updateWipRevision w, s => some (GitRepoLoader.updateWipRevision w s)
  | Step.completion w ba, s =>
    if 0 < pending s then some (GitRepoLoader.processRevision w s ba) else none

/-- Running a sequence of steps. -/
def runSteps : List Step → Loader → Option Loader
  | [], s => some s
  | st :: rest, s =>
    match st.apply s with
    | none => none
    | some s' => runSteps rest s'

/-- One complete load cycle: `loadRepository`, then the completion notification of the
stream it dispatched, delivering the batch `ba`. -/
def loadCycle (w : World) (ba : QByteArray) (s : Loader) : Loader :=
  processRevision w (loadRepository w s).2 ba

/-- The reference list of two lines with the same id: a branch and a dereferenced tag;
HEAD is that id. -/
def tagPairWorld : World :=
  { sampleWorld with
    run := fun _ cmd =>
      if cmd = "git show-ref -d" then
        (true, "aaaaaaaaaaaaaaaaaaaaaaaaaaaaaaaaaaaaaaaa refs/heads/main\n" ++
          "aaaaaaaaaaaaaaaaaaaaaaaaaaaaaaaaaaaaaaaa refs/tags/v1^\x7b\x7d\n")
      else if cmd = "git rev-parse HEAD" then
        (true, "aaaaaaaaaaaaaaaaaaaaaaaaaaaaaaaaaaaaaaaa\n")
      else (false, "") }

/-- A working tree with two untracked files and no staged or unstaged change. -/
def untrackedWorld : World :=
  { sampleWorld with
    run := fun _ cmd =>
      if cmd = "git ls-files --others --exclude-per-directory=$.gitignore$" then
        (true, "a.txt\nb/c.txt\n")
      else if cmd = "git rev-parse --revs-only HEAD" then
        (true, "dddddddddddddddddddddddddddddddddddddddd\n")
      else (true, "") }

/-- A working tree whose unstaged diff probe fails with some output, while the staged
probe succeeds. -/
def failedProbeWorld : World :=
  { sampleWorld with
    run := fun _ cmd =>
      if cmd = "git rev-parse --revs-only HEAD" then
        (true, "dddddddddddddddddddddddddddddddddddddddd\n")
      else if cmd = "git diff-index dddddddddddddddddddddddddddddddddddddddd" then
        (false, "fatal: unable to read the index")
      else if cmd = "git diff-index --cached dddddddddddddddddddddddddddddddddddddddd" then
        (true, ":100644 100644 M\tREADME.md\n")
      else (true, "") }

/-- A working tree in which HEAD resolution fails while every other command succeeds. -/
def noHeadWorld : World :=
  { sampleWorld with
    run := fun _ cmd =>
      if cmd = "git rev-parse --revs-only HEAD" then (false, "")
      else if cmd = "git ls-files --others --exclude-per-directory=$.gitignore$" then
        (true, "a.txt\n")
      else (true, "") }

/-- A repository without commits: HEAD resolution succeeds with no output, and the
diff probes against the empty id fail. -/
def emptyRepoWorld : World :=
  { sampleWorld with
    run := fun _ cmd =>
      if cmd = "git rev-parse --revs-only HEAD" then (true, "")
      else if cmd = "git ls-files --others --exclude-per-directory=$.gitignore$" then
        (true, "a.txt\n")
      else (false, "usage: git diff-index") }

/-- The events `loadRepository` can produce; the only write to the lock among them
sets it. -/
def Event.isLoadRepositoryEvent : Event → Bool
  | Event.logWarning _ => true
  | Event.logError _ => true
  | Event.logInfo _ => true
  | Event.run _ _ => true
  | Event.setWorkingDir _ => true
  | Event.setLocked b => b
  | Event.cacheClear => true
  | Event.insertReference _ _ => true
  | Event.removeReference _ => true
  | Event.requestorRun _ _ => true
  | _ => false

/-- The events `updateWipRevision` can produce. -/
def Event.isWipEvent : Event → Bool
  | Event.run _ _ => true
  | Event.setUntrackedFilesList _ => true
  | Event.updateWipCommit _ _ _ => true
  | _ => false

/-- At most one dispatched stream awaits its completion, and the lock is held while
one does. -/
def atMostOneAwaited (s : Loader) : Prop :=
  completed s.trace ≤ dispatched s.trace ∧ pending s ≤ 1 ∧ (0 < pending s → s.mLocked = true)


end GitRepoLoader

/-! ## More Qt string helpers -/

namespace Qt

/-- `QString::contains(str)`: `str` occurs somewhere in the string (case-sensitive). -/
def contains (s p : String) : Bool := s.data.tails.any (fun t => p.data.isPrefixOf t)

end Qt

namespace GitRepoLoader

/-! ## Vocabulary for the lines of the reference list -/

/-- The test of `loadReferences` for a dereferenced-tag line: the name starts with
`refs/tags/` and ends with the three characters that mark a dereferenced tag. -/
def isDereferencedTag (refName : String) : Bool :=
  Qt.startsWith refName "refs/tags/" && Qt.endsWith refName "^\x7b\x7d"

/-- The value of `prevRefSha` after the loop of `loadReferences` has gone through
`lines`, having started with `prev`: the id of the last line, or `prev` for no line. -/
def lastSha (prev : String) : List String → String
  | [] => prev
  | line :: rest => lastSha (Qt.left line 40) rest

/-- No line of `lines` removes the record of `sha`: none of them is a dereferenced-tag
line that directly follows a line with id `sha` (`prev` is the id of the line before
the first one). -/
def keepsRecord (sha : String) : String → List String → Bool
  | _, [] => true
  | prev, line :: rest =>
    !(isDereferencedTag (Qt.mid line 41) && !Qt.isEmpty prev && decide (prev = sha)) &&
      keepsRecord sha (Qt.left line 40) rest

/-- The record the loop of `loadReferences` stores for a line: the record the cache of
`s` has for the id of the line (a fresh one if it has none), configured with the name
of the line, with the comparison of the id with the HEAD id, and with `prevRefSha`. -/
def lineRecord (w : World) (head : String) (s : Loader) (line prev : String) : Reference :=
  w.configure (s.mRevCache.getReference (Qt.left line 40)) (Qt.mid line 41)
    (decide (head = Qt.left line 40)) prev

/-- The loader state in which the loop of `loadReferences` starts: the two queries have
been run. -/
def afterQueries (s : Loader) : Loader :=
  (s.emit (Event.run s.workingDir "git show-ref -d")).emit
    (Event.run s.workingDir "git rev-parse HEAD")

/-- A reference list in which a dereferenced-tag line is directly followed by another
dereferenced-tag line. -/
def doubleDerefWorld : World :=
  { sampleWorld with
    run := fun _ cmd =>
      if cmd = "git show-ref -d" then
        (true, "bbbbbbbbbbbbbbbbbbbbbbbbbbbbbbbbbbbbbbbb refs/tags/v1\n" ++
          "cccccccccccccccccccccccccccccccccccccccc refs/tags/v1^\x7b\x7d\n" ++
          "eeeeeeeeeeeeeeeeeeeeeeeeeeeeeeeeeeeeeeee refs/tags/v2^\x7b\x7d\n")
      else if cmd = "git rev-parse HEAD" then
        (true, "dddddddddddddddddddddddddddddddddddddddd\n")
      else (false, "") }

/-- A reference list in which two branch lines with the same id are separated by a
dereferenced-tag line. -/
def splitNamesWorld : World :=
  { sampleWorld with
    run := fun _ cmd =>
      if cmd = "git show-ref -d" then
        (true, "aaaaaaaaaaaaaaaaaaaaaaaaaaaaaaaaaaaaaaaa refs/heads/main\n" ++
          "cccccccccccccccccccccccccccccccccccccccc refs/tags/v1^\x7b\x7d\n" ++
          "aaaaaaaaaaaaaaaaaaaaaaaaaaaaaaaaaaaaaaaa refs/remotes/origin/main\n")
      else if cmd = "git rev-parse HEAD" then
        (true, "dddddddddddddddddddddddddddddddddddddddd\n")
      else (false, "") }

/-- A working tree whose untracked-file listing fails after printing two paths, and in
which the local exclude file exists. -/
def failedListingWorld : World :=
  { sampleWorld with
    run := fun _ cmd =>
      if cmd = "git ls-files --others --exclude-from=$.git/info/exclude$" ++
          " --exclude-per-directory=$.gitignore$" then
        (false, "a.txt\n\nb/c.txt\n")
      else (false, "")
    fileExists := fun path => decide (path = "/home/user/project/.git/info/exclude") }


end GitRepoLoader

/-! ## A repository without listed references -/

namespace GitRepoLoader

/-- A repository in which `git show-ref -d` finds no reference and fails with no output,
while HEAD resolves to a commit. -/
def noListingWorld : World :=
  { sampleWorld with
    run := fun _ cmd =>
      if cmd = "git rev-parse HEAD" then
        (true, "dddddddddddddddddddddddddddddddddddddddd\n")
      else (false, "") }

end GitRepoLoader

/-! ## Qt helpers for the Link header -/

namespace Qt

/-- `QString::split(sep)` for a one-character separator: empty parts are kept. -/
def split (s : String) (sep : Char) : List String := (splitKeep sep s.data).map String.mk

/-- `QString::remove(str)` for a one-character `str`: every occurrence is removed. -/
def removeChar (s : String) (c : Char) : String := ⟨s.data.filter (fun x => x != c)⟩

/-- The scan of `QString::split(sep)` for a separator string: `skip` characters of a
separator just found are still to be passed over, `acc` holds the current part in
reverse.  The search for the next separator resumes after the one found. -/
def splitStrAux (sep : List Char) : List Char → Nat → List Char → List (List Char)
  | [], _, acc => [acc.reverse]
  | _ :: cs, skip + 1, acc => splitStrAux sep cs skip acc
  | c :: cs, 0, acc =>
    if sep.isPrefixOf (c :: cs) then acc.reverse :: splitStrAux sep cs (sep.length - 1) []
    else splitStrAux sep cs 0 (c :: acc)

/-- `QString::split(sep)` for a non-empty separator string, empty parts kept. -/
def splitStr (s sep : String) : List String := (splitStrAux sep.data s.data 0 []).map String.mk

/-- Reading a run of ASCII digits as a decimal number; `none` when another character is
met. -/
def parseDigits : List Char → Nat → Option Nat
  | [], acc => some acc
  | c :: cs, acc =>
    if c.isDigit then parseDigits cs (10 * acc + (c.toNat - 48)) else none

/-- `QString::toInt()`: surrounding whitespace is ignored, then an optional sign and at
least one decimal digit are read; the result is 0 when the text is not of this form
or the value does not fit a 32-bit `int`. -/
def toInt (s : String) : Int :=
  let t := (trimmed s).data
  let signed : Bool × List Char :=
    match t with
    | '-' :: ds => (true, ds)
    | '+' :: ds => (false, ds)
    | ds => (false, ds)
  match signed.2 with
  | [] => 0
  | d :: ds =>
    match parseDigits (d :: ds) 0 with
    | none => 0
    | some n =>
      let v : Int := if signed.1 then -(n : Int) else (n : Int)
      if -2147483648 ≤ v ∧ v ≤ 2147483647 then v else 0

end Qt

/-! ## The arithmetic of `int` -/

namespace Cpp

/-- The 32-bit `int` a mathematical integer is stored as: the value from `-2^31` to
`2^31 - 1` that differs from it by a multiple of `2^32`.  A value in that range is
stored unchanged. -/
def wrapInt (x : Int) : Int := (x + 2147483648) % 4294967296 - 2147483648

/-- The sum `a + b` of two `int`. -/
def intAdd (a b : Int) : Int := wrapInt (a + b)

/-- The difference `a - b` of two `int`. -/
def intSub (a b : Int) : Int := wrapInt (a - b)

/-- The product `a * b` of two `int`. -/
def intMul (a b : Int) : Int := wrapInt (a * b)

end Cpp

/-! ## The pagination of `GitHubRestApi` -/

namespace GitHubRestApi

/-- The local variables `current`, `next` and `total` of the handlers. -/
structure Pagination where
  current : Int := 0
  next : Int := 0
  total : Int := 0
deriving DecidableEq, Repr

/-- The list `values` of the loop body:
`page.trimmed().remove("<").remove(">").split(";")`. -/
def linkValues (page : String) : List String :=
  Qt.split (Qt.removeChar (Qt.removeChar (Qt.trimmed page) '<') '>') ';'

/-- The expression `values.first().split("page=").last().toInt()`. -/
def pageNumber (values : List String) : Int :=
  Qt.toInt ((Qt.splitStr (values.headD "") "page=").getLastD "")

/-- The body of the `for` loop over the parts of the Link header.  The subtraction is the
one of `int`: it overflows only for `next` equal to the least `int`. -/
def pageStep (p : Pagination) (page : String) : Pagination :=
  let values := linkValues page
  if Qt.contains (values.getLastD "") "next" then
    let next := pageNumber values
    { p with next := next, current := Cpp.intSub next 1 }
  else if Qt.contains (values.getLastD "") "last" then
    { p with total := pageNumber values }
  else
    p

/-- The arguments of the `paginationPresent` signal that `onIssuesReceived` and
`onPullRequestReceived` emit, from the text of the `Link` header of the reply (empty
when the reply has no such header). -/
def paginationPresent (pagination : String) : Int × Int × Int :=
  if !Qt.isEmpty pagination then
    let pages := Qt.split pagination ','
    let r := pages.foldl pageStep { current := 0, next := 0, total := 0 }
    (r.current, r.next, r.total)
  else
    (0, 0, 0)

/-- `GitHubRestApi::onIssuesReceived`, as far as the `paginationPresent` signal goes. -/
def onIssuesReceived (linkHeader : String) : Int × Int × Int := paginationPresent linkHeader

/-- `GitHubRestApi::onPullRequestReceived`, as far as the `paginationPresent` signal
goes: the same text as in `onIssuesReceived`. -/
def onPullRequestReceived (linkHeader : String) : Int × Int × Int :=
  paginationPresent linkHeader

/-- A part of the header that the loop treats as the next page. -/
def isNextPart (page : String) : Bool := Qt.contains ((linkValues page).getLastD "") "next"

/-- A part of the header that the loop treats as the last page. -/
def isLastPart (page : String) : Bool :=
  !isNextPart page && Qt.contains ((linkValues page).getLastD "") "last"

/-- A Link header as GitHub sends it for the first page of a listing requested with
`per_page=100`. -/
def sampleLinkHeader : String :=
  "<https://api.github.com/repositories/1/issues?page=2&per_page=100>; rel=\"next\", " ++
  "<https://api.github.com/repositories/1/issues?page=7&per_page=100>; rel=\"last\""

/-- A Link header whose next part carries the least `int` as page number. -/
def leastPageHeader : String :=
  "<https://api.github.com/repositories/1/issues?page=-2147483648>; rel=\"next\""

end GitHubRestApi

/-! ## The line-number area of `FileDiffView` -/

namespace FileDiffView

/-- The loop `while (max >= 10) { max /= 10; ++digits; }` of `lineNumberAreaWidth`.  The
division is only done on a positive `max`, where every rounding convention agrees, and
`digits` grows by one at most once per decimal digit of `max`.  The recursion is well
founded: `max` gets smaller at every round. -/
def digitLoop (max digits : Int) : Int :=
  if 10 ≤ max then digitLoop (max / 10) (digits + 1) else digits
termination_by max.toNat
decreasing_by omega

/-- The value of `digits` at the end of `lineNumberAreaWidth`; the sum of the block
count and the starting line is the sum of two `int`. -/
def lineNumberDigits (blockCount mStartingLine : Int) : Int :=
  let digits := 6
  let max := Max.max 1 (Cpp.intAdd blockCount mStartingLine)
  digitLoop max digits

/-- `FileDiffView::lineNumberAreaWidth`; `width` is the advance of the character `9` in
the font of the view, and the product is the product of two `int`. -/
def lineNumberAreaWidth (blockCount mStartingLine width : Int) : Int :=
  Cpp.intMul width (lineNumberDigits blockCount mStartingLine)

/-- A block of the document as the paint event sees it: its text, whether it is
visible, and the height of its bounding rectangle.  `R` stands for `qreal`. -/
structure Block (R : Type) where
  text : String
  isVisible : Bool
  height : R

/-- What `lineNumberAreaPaintEvent` reads: the blocks of the document (the block number
of a block is its index), the number of the first visible block and the top of its
geometry after translation, the top and bottom of the rectangle to repaint, the
addition and the comparison of `qreal`, and the members `mStartingLine` and
`mUnified`. -/
structure PaintInput (R : Type) where
  blocks : List (Block R)
  firstVisibleBlock : Nat
  firstTop : R
  rectTop : R
  rectBottom : R
  add : R → R → R
  le : R → R → Bool
  mStartingLine : Int
  mUnified : Bool

/-- One call of `painter.drawText`: the block it is for, the number drawn and the
vertical position. -/
structure Painted (R : Type) where
  blockIndex : Nat
  number : Int
  top : R
deriving DecidableEq, Repr

/-- The `while` loop of `lineNumberAreaPaintEvent` over the blocks from the current one
on (no block left: the block is not valid); `bottom` is `top` plus the height of the
current block.  `blockNumber`, `lineCorrection` and `number` are `int`, and so are the
sums that give them.  The icon drawn when `mRow` equals the number is left out. -/
def paintLoop {R : Type} (inp : PaintInput R) :
    List (Block R) → Nat → Int → R → Int → List (Painted R)
  | [], _, _, _, _ => []
  | block :: rest, index, blockNumber, top, lineCorrection =>
    if inp.le top inp.rectBottom then
      let bottom := inp.add top block.height
      if block.isVisible && inp.le inp.rectTop bottom then
        let skipDeletion :=
          inp.mUnified && !Qt.startsWith block.text "-" && !Qt.startsWith block.text "@"
        if !inp.mUnified || skipDeletion then
          let number := Cpp.intAdd (Cpp.intAdd blockNumber 1) lineCorrection
          { blockIndex := index, number := number, top := top } ::
            paintLoop inp rest (index + 1) (Cpp.intAdd blockNumber 1) bottom lineCorrection
        else
          paintLoop inp rest (index + 1) (Cpp.intAdd blockNumber 1) bottom
            (Cpp.intSub lineCorrection 1)
      else
        paintLoop inp rest (index + 1) (Cpp.intAdd blockNumber 1) bottom lineCorrection
    else
      []

/-- `FileDiffView::lineNumberAreaPaintEvent`: the numbers drawn, in order. -/
def lineNumberAreaPaintEvent {R : Type} (inp : PaintInput R) : List (Painted R) :=
  paintLoop inp (inp.blocks.drop inp.firstVisibleBlock) inp.firstVisibleBlock
    (Cpp.intAdd (inp.firstVisibleBlock : Int) inp.mStartingLine) inp.firstTop 0

/-- The blocks from the current one on, each with the `top` the loop has for it. -/
def withTops {R : Type} (add : R → R → R) : R → List (Block R) → List (Block R × R)
  | _, [] => []
  | top, block :: rest => (block, top) :: withTops add (add top block.height) rest

/-- A block the loop skips while counting it in `lineCorrection`: in unified mode, a
visible block that reaches the top of the rectangle and whose text starts with `-` or
`@`. -/
def isSkipped {R : Type} (inp : PaintInput R) (bt : Block R × R) : Bool :=
  inp.mUnified && bt.1.isVisible && inp.le inp.rectTop (inp.add bt.2 bt.1.height) &&
    (Qt.startsWith bt.1.text "-" || Qt.startsWith bt.1.text "@")

/-- The number of skipped blocks among the first `k` blocks from the first visible
one. -/
def skippedBefore {R : Type} (inp : PaintInput R) (k : Nat) : Nat :=
  ((withTops inp.add inp.firstTop (inp.blocks.drop inp.firstVisibleBlock)).take k).countP
    (isSkipped inp)

/-- The starting line, the blocks of the document and the numbers painted for them all
fit an `int`, whatever is skipped. -/
def numbersFit {R : Type} (inp : PaintInput R) : Prop :=
  -2147483648 ≤ inp.mStartingLine - (inp.blocks.length : Int) ∧
    inp.mStartingLine + (inp.blocks.length : Int) ≤ 2147483647

/-- A unified diff of three lines, each 10 units high, seen from its first block. -/
def sampleView : PaintInput Int :=
  { blocks := [⟨"@@ -1,2 +1,2 @@", true, 10⟩, ⟨"-old", true, 10⟩, ⟨"+new", true, 10⟩],
    firstVisibleBlock := 0, firstTop := 0, rectTop := 0, rectBottom := 100,
    add := fun a b => a + b, le := fun a b => decide (a ≤ b),
    mStartingLine := 0, mUnified := true }

/-- The three lines of the sample, outside unified mode, in a view whose starting line
is the greatest `int`. -/
def greatestStartView : PaintInput Int :=
  { sampleView with mStartingLine := 2147483647, mUnified := false }

end FileDiffView

/-! ## Lemmas -/

namespace GitRepoLoader

theorem Appends.refl (P : Event → Bool) (s : Loader) : Appends P s s :=
  ⟨[], by simp, by simp⟩

theorem Appends.trans {P : Event → Bool} {a b c : Loader}
    (h1 : Appends P a b) (h2 : Appends P b c) : Appends P a c := by
  obtain ⟨e1, ht1, hp1⟩ := h1
  obtain ⟨e2, ht2, hp2⟩ := h2
  refine ⟨e1 ++ e2, by rw [ht2, ht1, List.append_assoc], ?_⟩
  intro e he
  rcases List.mem_append.mp he with h | h
  · exact hp1 e h
  · exact hp2 e h

theorem Appends.mono {P Q : Event → Bool} {a b : Loader}
    (hPQ : ∀ e, P e = true → Q e = true) (h : Appends P a b) : Appends Q a b := by
  obtain ⟨evs, ht, hp⟩ := h
  exact ⟨evs, ht, fun e he => hPQ e (hp e he)⟩

theorem Appends.one {P : Event → Bool} {s s' : Loader} (e : Event)
    (ht : s'.trace = s.trace ++ [e]) (hp : P e = true) : Appends P s s' :=
  ⟨[e], ht, by simpa using hp⟩

theorem Appends.spec {P : Event → Bool} {s s' : Loader} (h : Appends P s s') :
    s'.trace = s.trace ++ newEvents s s' ∧ ∀ e ∈ newEvents s s', P e = true := by
  obtain ⟨evs, ht, hp⟩ := h
  have : newEvents s s' = evs := by simp [GitRepoLoader.newEvents, ht]
  rw [this]; exact ⟨ht, hp⟩

theorem Appends.emit {P : Event → Bool} {s t : Loader} (h : Appends P s t) (e : Event)
    (hp : P e = true) : Appends P s (t.emit e) :=
  Appends.trans h (Appends.one e rfl hp)

theorem Appends.insertReference {P : Event → Bool} {s t : Loader} (h : Appends P s t)
    (sha : String) (r : Reference) (hp : P (Event.insertReference sha r) = true) :
    Appends P s (t.insertReference sha r) :=
  Appends.trans h (Appends.one _ rfl hp)

theorem Appends.removeReference {P : Event → Bool} {s t : Loader} (h : Appends P s t)
    (sha : String) (hp : P (Event.removeReference sha) = true) :
    Appends P s (t.removeReference sha) :=
  Appends.trans h (Appends.one _ rfl hp)

theorem loadReferencesLoop_appends (w : World) (head : String) :
    ∀ (refs : List String) (prev : String) (s : Loader),
      Appends Event.isReferenceMutation s (loadReferencesLoop w head refs prev s) := by
  intro refs
  induction refs with
  | nil => intro prev s; exact Appends.refl _ s
  | cons r rest ih =>
    intro prev s
    simp only [loadReferencesLoop]
    refine Appends.trans ?_ (ih _ _)
    split
    · exact ((Appends.refl _ s).insertReference _ _ rfl).removeReference _ rfl
    · exact (Appends.refl _ s).insertReference _ _ rfl

theorem loadReferencesLoop_same (w : World) (head : String) :
    ∀ (refs : List String) (prev : String) (s : Loader),
      sameButReferences s (loadReferencesLoop w head refs prev s) := by
  intro refs
  induction refs with
  | nil => intro prev s; simp [sameButReferences, loadReferencesLoop]
  | cons r rest ih =>
    intro prev s
    simp only [loadReferencesLoop]
    split
    · have h := ih (Qt.left r 40) ((s.insertReference (Qt.left r 40)
        (w.configure (s.mRevCache.getReference (Qt.left r 40)) (Qt.mid r 41)
          (decide (head = Qt.left r 40)) prev)).removeReference prev)
      simpa [sameButReferences, Loader.insertReference, Loader.removeReference,
        RevisionsCache.insertReference, RevisionsCache.removeReference] using h
    · have h := ih (Qt.left r 40) (s.insertReference (Qt.left r 40)
        (w.configure (s.mRevCache.getReference (Qt.left r 40)) (Qt.mid r 41)
          (decide (head = Qt.left r 40)) prev))
      simpa [sameButReferences, Loader.insertReference,
        RevisionsCache.insertReference] using h

theorem loadReferences_appends (w : World) (s : Loader) :
    Appends Event.isQueryOrReference s (loadReferences w s) := by
  unfold loadReferences
  simp only [Loader.run]
  split
  · refine Appends.insertReference ?_ _ _ rfl
    refine Appends.trans ?_ (Appends.mono ?_ (loadReferencesLoop_appends w _ _ _ _))
    · exact ((Appends.refl _ s).emit _ rfl).emit _ rfl
    · intro e he; simp [Event.isQueryOrReference, he]
  · exact (Appends.refl _ s).emit _ rfl

theorem loadReferences_same (w : World) (s : Loader) :
    sameButReferences s (loadReferences w s) := by
  unfold loadReferences
  simp only [Loader.run]
  split
  · have h := loadReferencesLoop_same w
      (if (w.run (s.emit (Event.run s.workingDir "git show-ref -d")).workingDir "git rev-parse HEAD").1 = true
        then Qt.removeLast (w.run (s.emit (Event.run s.workingDir "git show-ref -d")).workingDir "git rev-parse HEAD").2
        else (w.run (s.emit (Event.run s.workingDir "git show-ref -d")).workingDir "git rev-parse HEAD").2)
      (Qt.splitSkipEmpty (w.run s.workingDir "git show-ref -d").2 '\n') ""
      ((s.emit (Event.run s.workingDir "git show-ref -d")).emit
        (Event.run (s.emit (Event.run s.workingDir "git show-ref -d")).workingDir "git rev-parse HEAD"))
    simpa [sameButReferences, Loader.insertReference, Loader.emit,
        RevisionsCache.insertReference] using h
  · simp [sameButReferences, Loader.emit]

theorem dispatched_of_appends {P : Event → Bool} {s s' : Loader} (h : Appends P s s')
    (hP : ∀ e, P e = true → e.isRequestorRun = false) :
    dispatched s'.trace = dispatched s.trace := by
  obtain ⟨evs, ht, hp⟩ := h
  have h0 : List.countP Event.isRequestorRun evs = 0 := by
    rw [List.countP_eq_zero]
    intro e he
    simp [hP e (hp e he)]
  simp [dispatched, ht, List.countP_append, h0]

theorem isQueryOrReference_not_requestorRun (e : Event)
    (h : e.isQueryOrReference = true) : e.isRequestorRun = false := by
  cases e <;> simp_all [Event.isQueryOrReference, Event.isRun, Event.isReferenceMutation,
    Event.isRequestorRun]

theorem configureRepoDirectory_fst (w : World) (s : Loader) :
    (configureRepoDirectory w s).1 = (w.run s.workingDir "git rev-parse --show-cdup").1 := by
  unfold configureRepoDirectory
  cases hr : (w.run s.workingDir "git rev-parse --show-cdup").1 <;> simp [Loader.run, hr]

theorem configureRepoDirectory_mLocked (w : World) (s : Loader) :
    (configureRepoDirectory w s).2.mLocked = s.mLocked := by
  unfold configureRepoDirectory
  cases hr : (w.run s.workingDir "git rev-parse --show-cdup").1 <;>
    simp [Loader.run, hr, Loader.emit, Loader.setWorkingDir]

theorem configureRepoDirectory_mRevCache (w : World) (s : Loader) :
    (configureRepoDirectory w s).2.mRevCache = s.mRevCache := by
  unfold configureRepoDirectory
  cases hr : (w.run s.workingDir "git rev-parse --show-cdup").1 <;>
    simp [Loader.run, hr, Loader.emit, Loader.setWorkingDir]

theorem configureRepoDirectory_appends (w : World) (s : Loader) :
    Appends Event.isRootDiscovery s (configureRepoDirectory w s).2 := by
  unfold configureRepoDirectory
  cases hr : (w.run s.workingDir "git rev-parse --show-cdup").1
  · simpa [Loader.run, hr] using (Appends.refl _ s).emit _ rfl
  · simpa [Loader.run, hr] using
      Appends.trans ((Appends.refl _ s).emit _ rfl) (Appends.one _ rfl rfl)

/-- The result of `loadRepository` on its success path. -/
theorem loadRepository_accepted (w : World) (s : Loader)
    (hl : s.mLocked = false) (he : Qt.isEmpty s.workingDir = false)
    (hr : (w.run s.workingDir "git rev-parse --show-cdup").1 = true) :
    loadRepository w s =
      (true, (requestRevisions (loadReferences w (configureRepoDirectory w
        (((s.emit (Event.logInfo "Initializing Git...")).cacheClear).setLocked true)).2)).emit
          (Event.logInfo "... Git init finished")) := by
  have h1 : (configureRepoDirectory w
      (((s.emit (Event.logInfo "Initializing Git...")).cacheClear).setLocked true)).1 = true := by
    rw [configureRepoDirectory_fst]; exact hr
  unfold loadRepository
  simp only [hl, he, Bool.false_eq_true, if_false]
  rw [if_pos h1]

theorem Appends.setUntrackedFilesList {P : Event → Bool} {s t : Loader} (h : Appends P s t)
    (files : List String) (hp : P (Event.setUntrackedFilesList files) = true) :
    Appends P s (t.setUntrackedFilesList files) :=
  Appends.trans h (Appends.one _ rfl hp)

theorem Appends.updateWipCommit {P : Event → Bool} {s t : Loader} (h : Appends P s t)
    (a b c : String) (hp : P (Event.updateWipCommit a b c) = true) :
    Appends P s (t.updateWipCommit a b c) :=
  Appends.trans h (Appends.one _ rfl hp)

theorem Appends.cacheConfigure {P : Event → Bool} {s t : Loader} (h : Appends P s t)
    (n : Nat) (hp : P (Event.cacheConfigure n) = true) :
    Appends P s (t.cacheConfigure n) :=
  Appends.trans h (Appends.one _ rfl hp)

theorem getUntrackedFiles_snd (w : World) (s : Loader) :
    ∃ cmd : String, (getUntrackedFiles w s).2 = s.emit (Event.run s.workingDir cmd) := by
  unfold getUntrackedFiles
  exact ⟨_, rfl⟩

theorem updateWipRevision_appends (w : World) (s : Loader) :
    Appends Event.isBeginEvent s (updateWipRevision w s) := by
  obtain ⟨cmd, hcmd⟩ := getUntrackedFiles_snd w s
  unfold updateWipRevision
  simp only [Loader.run]
  rw [hcmd]
  split
  · exact (((((Appends.refl _ s).emit _ rfl).setUntrackedFilesList _ rfl).emit _ rfl).emit _
      rfl).emit _ rfl |>.updateWipCommit _ _ _ rfl
  · exact (((Appends.refl _ s).emit _ rfl).setUntrackedFilesList _ rfl).emit _ rfl

theorem updateWipRevision_same (w : World) (s : Loader) :
    (updateWipRevision w s).mLocked = s.mLocked ∧
    (updateWipRevision w s).workingDir = s.workingDir ∧
    (updateWipRevision w s).mRevCache.commits = s.mRevCache.commits ∧
    (updateWipRevision w s).mRevCache.references = s.mRevCache.references := by
  obtain ⟨cmd, hcmd⟩ := getUntrackedFiles_snd w s
  unfold updateWipRevision
  simp only [Loader.run]
  rw [hcmd]
  split <;> simp [Loader.emit, Loader.setUntrackedFilesList, Loader.updateWipCommit,
    RevisionsCache.setUntrackedFilesList, RevisionsCache.updateWipCommit]

theorem processRevisionBegin_appends (w : World) (s : Loader) (ba : QByteArray) :
    Appends Event.isBeginEvent s (processRevisionBegin w s ba) := by
  unfold processRevisionBegin
  refine Appends.trans ?_ (updateWipRevision_appends w _)
  exact ((Appends.refl _ s).cacheConfigure _ rfl).emit _ rfl

theorem processRevisionBegin_same (w : World) (s : Loader) (ba : QByteArray) :
    (processRevisionBegin w s ba).mLocked = s.mLocked ∧
    (processRevisionBegin w s ba).workingDir = s.workingDir ∧
    (processRevisionBegin w s ba).mRevCache.commits = s.mRevCache.commits ∧
    (processRevisionBegin w s ba).mRevCache.references = s.mRevCache.references := by
  unfold processRevisionBegin
  obtain ⟨h1, h2, h3, h4⟩ := updateWipRevision_same w
    ((s.cacheConfigure (Qt.splitKeep 0 ba).length).emit Event.signalLoadingStarted)
  exact ⟨h1, h2, h3, h4⟩

theorem processRevisionLoop_eq (w : World) :
    ∀ (records : List QByteArray) (count : Nat) (s : Loader),
      processRevisionLoop w records count s =
        { s with
          mRevCache := { s.mRevCache with
            commits := s.mRevCache.commits ++ ingested w records count }
          trace := s.trace ++ (ingested w records count).map Event.insertCommitInfo } := by
  intro records
  induction records with
  | nil => intro count s; simp [processRevisionLoop, ingested]
  | cons r rest ih =>
    intro count s
    unfold processRevisionLoop
    cases hv : w.validRecord r
    · simp [CommitInfo.isValid, hv, ingested]
    · simp only [CommitInfo.isValid, hv, if_true]
      rw [ih]
      simp [ingested, hv, Loader.insertCommitInfo, RevisionsCache.insertCommitInfo,
        List.enumFrom_cons]

theorem newEvents_of_trace {s s' : Loader} {evs : List Event}
    (h : s'.trace = s.trace ++ evs) : newEvents s s' = evs := by
  simp [newEvents, h]

theorem splitKeep_ne_nil {α : Type} [DecidableEq α] (sep : α) (l : List α) :
    Qt.splitKeep sep l ≠ [] := by
  cases l with
  | nil => simp [Qt.splitKeep]
  | cons c cs =>
    unfold Qt.splitKeep
    split
    · simp
    · split <;> simp

theorem splitKeep_length {α : Type} [DecidableEq α] (sep : α) (l : List α) :
    (Qt.splitKeep sep l).length = l.count sep + 1 := by
  induction l with
  | nil => simp [Qt.splitKeep]
  | cons c cs ih =>
    unfold Qt.splitKeep
    by_cases h : c = sep
    · subst h; simp [ih]
    · have hne := splitKeep_ne_nil sep cs
      rw [if_neg h]
      cases hs : Qt.splitKeep sep cs with
      | nil => exact absurd hs hne
      | cons p ps =>
        rw [hs] at ih
        simp only [List.length_cons] at ih ⊢
        rw [List.count_cons_of_ne (Ne.symm h)]
        exact ih

theorem splitKeep_of_not_mem {α : Type} [DecidableEq α] (sep : α) (l : List α)
    (h : sep ∉ l) : Qt.splitKeep sep l = [l] := by
  induction l with
  | nil => simp [Qt.splitKeep]
  | cons c cs ih =>
    have hc : c ≠ sep := fun e => h (by simp [e])
    have hcs : sep ∉ cs := fun e => h (by simp [e])
    unfold Qt.splitKeep
    rw [if_neg hc, ih hcs]

theorem splitKeep_append_sep {α : Type} [DecidableEq α] (sep : α) (l r : List α)
    (h : sep ∉ l) : Qt.splitKeep sep (l ++ sep :: r) = l :: Qt.splitKeep sep r := by
  induction l with
  | nil => simp [Qt.splitKeep]
  | cons c cs ih =>
    have hc : c ≠ sep := fun e => h (by simp [e])
    have hcs : sep ∉ cs := fun e => h (by simp [e])
    rw [List.cons_append, Qt.splitKeep, if_neg hc, ih hcs]

theorem insertedCommits_map (l : List CommitInfo) :
    insertedCommits (l.map Event.insertCommitInfo) = l := by
  induction l with
  | nil => rfl
  | cons c cs ih =>
    simp only [insertedCommits, List.map_cons, List.filterMap_cons, Event.commitInserted] at ih ⊢
    rw [ih]

theorem insertedCommits_of_begin (evs : List Event)
    (h : ∀ e ∈ evs, e.isBeginEvent = true) : insertedCommits evs = [] := by
  unfold insertedCommits
  rw [List.filterMap_eq_nil_iff]
  intro e he
  have := h e he
  cases e <;> simp_all [Event.isBeginEvent, Event.commitInserted]

theorem processRevision_trace (w : World) (s : Loader) (ba : QByteArray) :
    newEvents s (processRevision w s ba) =
      newEvents s (processRevisionBegin w s ba) ++
        (ingested w (Qt.splitKeep 0 ba) 1).map Event.insertCommitInfo ++
        [Event.setLocked false, Event.signalLoadingFinished] := by
  apply newEvents_of_trace
  unfold processRevision
  simp only [processRevisionLoop_eq, Loader.setLocked, Loader.emit]
  rw [(processRevisionBegin_appends w s ba).spec.1]
  simp

theorem processRevision_inserted (w : World) (s : Loader) (ba : QByteArray) :
    insertedCommits (newEvents s (processRevision w s ba)) =
      ingested w (Qt.splitKeep 0 ba) 1 := by
  rw [processRevision_trace]
  unfold insertedCommits
  rw [List.filterMap_append, List.filterMap_append]
  have h1 := insertedCommits_of_begin _ (processRevisionBegin_appends w s ba).spec.2
  have h2 := insertedCommits_map (ingested w (Qt.splitKeep 0 ba) 1)
  unfold insertedCommits at h1 h2
  rw [h1, h2]
  simp [Event.commitInserted]

theorem processRevision_commits (w : World) (s : Loader) (ba : QByteArray) :
    (processRevision w s ba).mRevCache.commits =
      s.mRevCache.commits ++ ingested w (Qt.splitKeep 0 ba) 1 := by
  unfold processRevision
  simp only [processRevisionLoop_eq, Loader.setLocked, Loader.emit]
  rw [(processRevisionBegin_same w s ba).2.2.1]

theorem ingested_orderIdx (w : World) (records : List QByteArray) (first : Nat) :
    (ingested w records first).map CommitInfo.orderIdx =
      List.range' first (ingested w records first).length := by
  unfold ingested
  generalize records.takeWhile w.validRecord = l
  induction l generalizing first with
  | nil => simp
  | cons r rs ih =>
    simp only [List.enumFrom_cons, List.map_cons, List.length_cons, List.range'_succ]
    rw [ih]

theorem ingested_record (w : World) (records : List QByteArray) (first : Nat) :
    (ingested w records first).map CommitInfo.record = records.takeWhile w.validRecord := by
  unfold ingested
  generalize records.takeWhile w.validRecord = l
  induction l generalizing first with
  | nil => simp
  | cons r rs ih =>
    simp only [List.enumFrom_cons, List.map_cons]
    rw [ih]

theorem ingested_length (w : World) (records : List QByteArray) (first : Nat) :
    (ingested w records first).length = (records.takeWhile w.validRecord).length := by
  simp [ingested]

theorem ingested_valid (w : World) (records : List QByteArray) (first : Nat) :
    ∀ c ∈ ingested w records first, c.isValid = true ∧ w.validRecord c.record = true := by
  intro c hc
  simp only [ingested, List.mem_map] at hc
  obtain ⟨p, hp, rfl⟩ := hc
  refine ⟨rfl, ?_⟩
  have h2 : p.2 ∈ records.takeWhile w.validRecord := by
    have := List.mem_map_of_mem Prod.snd hp
    simpa using this
  exact List.mem_takeWhile_imp h2

theorem insertedCommits_of_notCommitInsert (evs : List Event)
    (h : ∀ e ∈ evs, e.notCommitInsert = true) : insertedCommits evs = [] := by
  unfold insertedCommits
  rw [List.filterMap_eq_nil_iff]
  intro e he
  have := h e he
  cases e <;> simp_all [Event.notCommitInsert, Event.isInsertCommitInfo, Event.commitInserted]

theorem loadRepository_cache_irrelevant (w : World) (s : Loader) (c : RevisionsCache)
    (hl : s.mLocked = false) (he : Qt.isEmpty s.workingDir = false) :
    loadRepository w { s with mRevCache := c } = loadRepository w s := by
  unfold loadRepository
  simp only [hl, he, Bool.false_eq_true, if_false]
  rfl

theorem loadRepository_tail (w : World) (s : Loader)
    (hl : s.mLocked = false) (he : Qt.isEmpty s.workingDir = false) :
    Appends Event.notCommitInsert
      (((s.emit (Event.logInfo "Initializing Git...")).cacheClear).setLocked true)
      (loadRepository w s).2 ∧
    (loadRepository w s).2.mRevCache.commits = [] ∧
    (loadRepository w s).2.mRevCache.wipCommit = none := by
  cases hr : (w.run s.workingDir "git rev-parse --show-cdup").1
  · have h1 : (configureRepoDirectory w
        (((s.emit (Event.logInfo "Initializing Git...")).cacheClear).setLocked true)).1 = false := by
      rw [configureRepoDirectory_fst]; exact hr
    unfold loadRepository
    simp only [hl, he, Bool.false_eq_true, if_false]
    rw [if_neg (by simp [h1])]
    constructor
    · refine Appends.emit (Appends.mono ?_ (configureRepoDirectory_appends w _)) _ rfl
      intro e he; cases e <;> simp_all [Event.isRootDiscovery, Event.notCommitInsert,
        Event.isInsertCommitInfo]
    · show (configureRepoDirectory w _).2.mRevCache.commits = [] ∧
        (configureRepoDirectory w _).2.mRevCache.wipCommit = none
      rw [configureRepoDirectory_mRevCache]; exact ⟨rfl, rfl⟩
  · rw [loadRepository_accepted w s hl he hr]
    constructor
    · refine Appends.emit (Appends.emit (Appends.trans
        (Appends.mono ?_ (configureRepoDirectory_appends w _))
        (Appends.mono ?_ (loadReferences_appends w _))) _ rfl) _ rfl
      · intro e he; cases e <;> simp_all [Event.isRootDiscovery, Event.notCommitInsert,
          Event.isInsertCommitInfo]
      · intro e he; cases e <;> simp_all [Event.isQueryOrReference, Event.isRun,
          Event.isReferenceMutation, Event.notCommitInsert, Event.isInsertCommitInfo]
    · show (loadReferences w _).mRevCache.commits = [] ∧
        (loadReferences w _).mRevCache.wipCommit = none
      rw [(loadReferences_same w _).2.2.1, (loadReferences_same w _).2.2.2.1,
        configureRepoDirectory_mRevCache]
      exact ⟨rfl, rfl⟩

theorem takeWhile_of_split {α : Type} (p : α → Bool) (pre : List α) (bad : α) (rest : List α)
    (hpre : ∀ r ∈ pre, p r = true) (hbad : p bad = false) :
    (pre ++ bad :: rest).takeWhile p = pre := by
  induction pre with
  | nil => simp [List.takeWhile, hbad]
  | cons a as ih =>
    have ha : p a = true := hpre a (by simp)
    have has : ∀ r ∈ as, p r = true := fun r hr => hpre r (by simp [hr])
    simp [List.takeWhile, ha, ih has]

theorem find_setKey (sha : String) (ref : Reference) (l : List (String × Reference)) :
    (RevisionsCache.setKey sha ref l).find? (fun kv => kv.1 == sha) = some (sha, ref) := by
  induction l with
  | nil => simp [RevisionsCache.setKey]
  | cons kv rest ih =>
    unfold RevisionsCache.setKey
    by_cases h : (kv.1 == sha) = true
    · rw [if_pos h]; simp
    · rw [if_neg h]
      have hskip := List.find?_cons_of_neg (p := fun kv : String × Reference => kv.1 == sha)
        (a := kv) (RevisionsCache.setKey sha ref rest) h
      rw [hskip]
      exact ih

theorem findReference_insertReference (c : RevisionsCache) (sha : String) (ref : Reference) :
    (c.insertReference sha ref).findReference sha = some ref := by
  simp [RevisionsCache.findReference, RevisionsCache.insertReference, find_setKey]

theorem or_and_mask (t m : Nat) : (t ||| m) &&& m = m := by
  apply Nat.eq_of_testBit_eq
  intro i
  rw [Nat.testBit_and, Nat.testBit_or]
  cases Nat.testBit t i <;> cases Nat.testBit m i <;> rfl

/-! ## The claims -/

/-- C1: when the lock is held, `loadRepository` returns false and changes nothing: the
cache, the lock and the working directory are as before, and the only effect is the
warning in the log (no cache clear, no external command, no stream dispatched). -/
theorem loadRepository_locked (w : World) (s : Loader) (h : s.mLocked = true) :
    (loadRepository w s).1 = false ∧
    (loadRepository w s).2.mRevCache = s.mRevCache ∧
    (loadRepository w s).2.mLocked = true ∧
    (loadRepository w s).2.workingDir = s.workingDir ∧
    (loadRepository w s).2.trace =
      s.trace ++ [Event.logWarning "Git is currently loading data."] := by
  simp [loadRepository, h, Loader.emit]

/-- C1 at a concrete input: a busy loader with a commit in its cache. -/
theorem loadRepository_locked_witness :
    busyLoader.mLocked = true ∧
    (loadRepository sampleWorld busyLoader).1 = false ∧
    (loadRepository sampleWorld busyLoader).2.mRevCache = busyLoader.mRevCache ∧
    (loadRepository sampleWorld busyLoader).2.mLocked = true ∧
    (loadRepository sampleWorld busyLoader).2.workingDir = busyLoader.workingDir ∧
    (loadRepository sampleWorld busyLoader).2.trace =
      busyLoader.trace ++ [Event.logWarning "Git is currently loading data."] :=
  ⟨rfl, loadRepository_locked sampleWorld busyLoader rfl⟩

/-- C2 (what the code does): when root discovery fails in an accepted call,
`loadRepository` returns false with the lock still held, and every following
`loadRepository` call is rejected. -/
theorem loadRepository_rootFailure_stays_locked (w : World) (s : Loader)
    (h1 : s.mLocked = false) (h2 : Qt.isEmpty s.workingDir = false)
    (h3 : (w.run s.workingDir "git rev-parse --show-cdup").1 = false) :
    (loadRepository w s).1 = false ∧ (loadRepository w s).2.mLocked = true ∧
    ∀ w' : World,
      (loadRepository w' (loadRepository w s).2).1 = false ∧
      (loadRepository w' (loadRepository w s).2).2.trace =
        (loadRepository w s).2.trace ++ [Event.logWarning "Git is currently loading data."] := by
  simp [loadRepository, h1, h2, h3, Loader.emit, configureRepoDirectory, Loader.run,
    Loader.cacheClear, Loader.setLocked]

/-- C2 at a concrete input: an idle loader pointed at a directory that is not a
repository stays locked, and the next call, on a real repository, is rejected. -/
theorem loadRepository_rootFailure_stays_locked_witness :
    idleLoader.mLocked = false ∧ Qt.isEmpty idleLoader.workingDir = false ∧
    (notARepoWorld.run idleLoader.workingDir "git rev-parse --show-cdup").1 = false ∧
    (loadRepository notARepoWorld idleLoader).1 = false ∧
    (loadRepository notARepoWorld idleLoader).2.mLocked = true ∧
    (loadRepository sampleWorld (loadRepository notARepoWorld idleLoader).2).1 = false :=
  ⟨rfl, rfl, rfl,
    (loadRepository_rootFailure_stays_locked notARepoWorld idleLoader rfl rfl rfl).1,
    (loadRepository_rootFailure_stays_locked notARepoWorld idleLoader rfl rfl rfl).2.1,
    ((loadRepository_rootFailure_stays_locked notARepoWorld idleLoader rfl rfl rfl).2.2
      sampleWorld).1⟩

/-- C3: when root discovery fails in an accepted call, `loadRepository` returns false,
the cache is the cleared cache, the working directory is unchanged, and the effects
are the log line, the clear, the lock, the one root-discovery command and the error
line: no reference or commit insert, no pseudo-commit update, no stream dispatched. -/
theorem loadRepository_notARepository (w : World) (s : Loader)
    (h1 : s.mLocked = false) (h2 : Qt.isEmpty s.workingDir = false)
    (h3 : (w.run s.workingDir "git rev-parse --show-cdup").1 = false) :
    (loadRepository w s).1 = false ∧
    (loadRepository w s).2.mRevCache = s.mRevCache.clear ∧
    (loadRepository w s).2.workingDir = s.workingDir ∧
    (loadRepository w s).2.trace = s.trace ++
      [Event.logInfo "Initializing Git...", Event.cacheClear, Event.setLocked true,
       Event.run s.workingDir "git rev-parse --show-cdup",
       Event.logError "The working directory is not a Git repository."] ∧
    dispatched (loadRepository w s).2.trace = dispatched s.trace := by
  simp [loadRepository, h1, h2, h3, Loader.emit, configureRepoDirectory, Loader.run,
    Loader.cacheClear, Loader.setLocked, dispatched, Event.isRequestorRun]

/-- C3 at a concrete input: a loader with a commit in its cache, pointed at a
directory that is not a repository, ends with the empty cache. -/
theorem loadRepository_notARepository_witness :
    ({ unsetLoader with workingDir := "/tmp" } : Loader).mLocked = false ∧
    Qt.isEmpty ({ unsetLoader with workingDir := "/tmp" } : Loader).workingDir = false ∧
    (notARepoWorld.run "/tmp" "git rev-parse --show-cdup").1 = false ∧
    (loadRepository notARepoWorld { unsetLoader with workingDir := "/tmp" }).1 = false ∧
    (loadRepository notARepoWorld { unsetLoader with workingDir := "/tmp" }).2.mRevCache = {} ∧
    (loadRepository notARepoWorld { unsetLoader with workingDir := "/tmp" }).2.workingDir
      = "/tmp" :=
  ⟨rfl, rfl, rfl,
    (loadRepository_notARepository notARepoWorld { unsetLoader with workingDir := "/tmp" }
      rfl rfl rfl).1,
    (loadRepository_notARepository notARepoWorld { unsetLoader with workingDir := "/tmp" }
      rfl rfl rfl).2.1,
    (loadRepository_notARepository notARepoWorld { unsetLoader with workingDir := "/tmp" }
      rfl rfl rfl).2.2.1⟩

/-- C4: when the loader is unlocked and the working directory is empty,
`loadRepository` returns false, the cache is as before (not cleared), the lock is not
taken, and the only effect is the error in the log (no external command). -/
theorem loadRepository_noWorkingDir (w : World) (s : Loader)
    (h1 : s.mLocked = false) (h2 : Qt.isEmpty s.workingDir = true) :
    (loadRepository w s).1 = false ∧
    (loadRepository w s).2.mRevCache = s.mRevCache ∧
    (loadRepository w s).2.mLocked = false ∧
    (loadRepository w s).2.workingDir = s.workingDir ∧
    (loadRepository w s).2.trace = s.trace ++ [Event.logError "No working directory set."] := by
  simp [loadRepository, h1, h2, Loader.emit]

/-- C4 at a concrete input: an idle loader with no working directory and a commit in
its cache. -/
theorem loadRepository_noWorkingDir_witness :
    unsetLoader.mLocked = false ∧ Qt.isEmpty unsetLoader.workingDir = true ∧
    (loadRepository sampleWorld unsetLoader).1 = false ∧
    (loadRepository sampleWorld unsetLoader).2.mRevCache = unsetLoader.mRevCache ∧
    (loadRepository sampleWorld unsetLoader).2.mLocked = false ∧
    (loadRepository sampleWorld unsetLoader).2.workingDir = unsetLoader.workingDir ∧
    (loadRepository sampleWorld unsetLoader).2.trace =
      unsetLoader.trace ++ [Event.logError "No working directory set."] :=
  ⟨rfl, rfl, loadRepository_noWorkingDir sampleWorld unsetLoader rfl rfl⟩

/-- C5: `loadRepository` returns true exactly when the loader was unlocked, the working
directory was non-empty and root discovery succeeded; two runners that agree on root
discovery give the same result, whatever they answer to the reference listing and to
HEAD resolution; and when the result is true the lock is held and the call has
dispatched exactly one history stream. -/
theorem loadRepository_true_iff (w : World) (s : Loader) :
    ((loadRepository w s).1 = true ↔
      (s.mLocked = false ∧ Qt.isEmpty s.workingDir = false ∧
        (w.run s.workingDir "git rev-parse --show-cdup").1 = true)) ∧
    (∀ w' : World,
      (w'.run s.workingDir "git rev-parse --show-cdup").1 =
        (w.run s.workingDir "git rev-parse --show-cdup").1 →
      (loadRepository w' s).1 = (loadRepository w s).1) ∧
    ((loadRepository w s).1 = true →
      (loadRepository w s).2.mLocked = true ∧
      dispatched (loadRepository w s).2.trace = dispatched s.trace + 1) := by
  have key : ∀ v : World, (loadRepository v s).1 =
      (!s.mLocked && !Qt.isEmpty s.workingDir &&
        (v.run s.workingDir "git rev-parse --show-cdup").1) := by
    intro v
    unfold loadRepository
    cases hl : s.mLocked
    · cases he : Qt.isEmpty s.workingDir
      · cases hr : (v.run s.workingDir "git rev-parse --show-cdup").1 <;>
          simp [configureRepoDirectory, Loader.run, Loader.emit, Loader.cacheClear,
            Loader.setLocked, hr]
      · simp
    · simp
  refine ⟨?_, ?_, ?_⟩
  · rw [key w]; simp [and_assoc]
  · intro w' hw; rw [key w, key w', hw]
  · intro ht
    rw [key w] at ht
    simp only [Bool.and_eq_true, Bool.not_eq_true', and_assoc] at ht
    obtain ⟨hl, he, hr⟩ := ht
    rw [loadRepository_accepted w s hl he hr]
    constructor
    · show (loadReferences w _).mLocked = true
      rw [(loadReferences_same w _).1, configureRepoDirectory_mLocked]
      rfl
    · have h1 := dispatched_of_appends (configureRepoDirectory_appends w
        (((s.emit (Event.logInfo "Initializing Git...")).cacheClear).setLocked true))
        (fun e he => by cases e <;> simp_all [Event.isRootDiscovery, Event.isRequestorRun])
      have h2 := dispatched_of_appends (loadReferences_appends w (configureRepoDirectory w
        (((s.emit (Event.logInfo "Initializing Git...")).cacheClear).setLocked true)).2)
        isQueryOrReference_not_requestorRun
      have h3 : dispatched (((s.emit (Event.logInfo "Initializing Git...")).cacheClear).setLocked true).trace
          = dispatched s.trace := by
        simp [dispatched, Loader.emit, Loader.cacheClear, Loader.setLocked, Event.isRequestorRun,
          List.countP_append]
      simp only [requestRevisions, Loader.emit, dispatched, List.countP_append] at h1 h2 h3 ⊢
      simp [Event.isRequestorRun]
      omega

/-- C5 at a concrete input: an idle loader on the sample repository. -/
theorem loadRepository_true_iff_witness :
    (loadRepository sampleWorld idleLoader).1 = true ∧
    (loadRepository sampleWorld idleLoader).2.mLocked = true ∧
    dispatched (loadRepository sampleWorld idleLoader).2.trace =
      dispatched idleLoader.trace + 1 ∧
    (loadRepository notARepoWorld idleLoader).1 = false :=
  ⟨(loadRepository_true_iff sampleWorld idleLoader).1.mpr ⟨rfl, rfl, rfl⟩,
    ((loadRepository_true_iff sampleWorld idleLoader).2.2
      ((loadRepository_true_iff sampleWorld idleLoader).1.mpr ⟨rfl, rfl, rfl⟩)).1,
    ((loadRepository_true_iff sampleWorld idleLoader).2.2
      ((loadRepository_true_iff sampleWorld idleLoader).1.mpr ⟨rfl, rfl, rfl⟩)).2,
    Bool.eq_false_iff.mpr (fun h =>
      Bool.false_ne_true (((loadRepository_true_iff notARepoWorld idleLoader).1.mp h).2.2))⟩

/-- C6: in an accepted `loadRepository` call (unlocked, non-empty working directory) the
first cache mutation is the clear; the resulting cache does not depend on what the
cache held before; the call inserts no commit and ends with a cache that holds no
commit and no pseudo-commit; and in a following `processRevision` no commit is
inserted, and the cache holds none, up to the start of the insertion loop. -/
theorem loadRepository_clears_first (w : World) (s : Loader)
    (hl : s.mLocked = false) (he : Qt.isEmpty s.workingDir = false) :
    (newEvents s (loadRepository w s).2).find? Event.isCacheMutation = some Event.cacheClear ∧
    (∀ c : RevisionsCache,
      (loadRepository w { s with mRevCache := c }).2.mRevCache =
        (loadRepository w s).2.mRevCache) ∧
    insertedCommits (newEvents s (loadRepository w s).2) = [] ∧
    (loadRepository w s).2.mRevCache.commits = [] ∧
    (loadRepository w s).2.mRevCache.wipCommit = none ∧
    ∀ (w' : World) (ba : QByteArray),
      insertedCommits (newEvents (loadRepository w s).2
        (processRevisionBegin w' (loadRepository w s).2 ba)) = [] ∧
      (processRevisionBegin w' (loadRepository w s).2 ba).mRevCache.commits = [] := by
  obtain ⟨⟨evs, ht, hp⟩, hc, hwip⟩ := loadRepository_tail w s hl he
  have hn : newEvents s (loadRepository w s).2 =
      Event.logInfo "Initializing Git..." :: Event.cacheClear :: Event.setLocked true :: evs := by
    apply newEvents_of_trace
    rw [ht]
    simp [Loader.emit, Loader.cacheClear, Loader.setLocked]
  refine ⟨?_, ?_, ?_, hc, hwip, ?_⟩
  · rw [hn]; rfl
  · intro c; rw [loadRepository_cache_irrelevant w s c hl he]
  · rw [hn]
    apply insertedCommits_of_notCommitInsert
    intro e he
    simp only [List.mem_cons] at he
    rcases he with rfl | rfl | rfl | he
    · rfl
    · rfl
    · rfl
    · exact hp e he
  · intro w' ba
    constructor
    · exact insertedCommits_of_begin _ (processRevisionBegin_appends w' _ ba).spec.2
    · rw [(processRevisionBegin_same w' _ ba).2.2.1]; exact hc

/-- C6 at a concrete input: an idle loader with a commit in its cache, on the sample
repository. -/
theorem loadRepository_clears_first_witness :
    ({ unsetLoader with workingDir := "/tmp" } : Loader).mLocked = false ∧
    Qt.isEmpty ({ unsetLoader with workingDir := "/tmp" } : Loader).workingDir = false ∧
    (newEvents { unsetLoader with workingDir := "/tmp" }
      (loadRepository sampleWorld { unsetLoader with workingDir := "/tmp" }).2).find?
        Event.isCacheMutation = some Event.cacheClear ∧
    (loadRepository sampleWorld { unsetLoader with workingDir := "/tmp" }).2.mRevCache.commits
      = [] :=
  ⟨rfl, rfl,
    (loadRepository_clears_first sampleWorld { unsetLoader with workingDir := "/tmp" }
      rfl rfl).1,
    (loadRepository_clears_first sampleWorld { unsetLoader with workingDir := "/tmp" }
      rfl rfl).2.2.2.1⟩

/-- C7: for every batch, the records of the batch are one more than its NUL bytes, the
commits `processRevision` inserts are at most as many as the records and exactly as
many as the records before the first invalid one, and their sequence indices are
1, 2, 3, ... in order: the k-th inserted commit (counting from 0) has index k + 1. -/
theorem processRevision_sequence_indices (w : World) (s : Loader) (ba : QByteArray) :
    (Qt.splitKeep 0 ba).length = ba.count 0 + 1 ∧
    (insertedCommits (newEvents s (processRevision w s ba))).length ≤
      (Qt.splitKeep 0 ba).length ∧
    (insertedCommits (newEvents s (processRevision w s ba))).length =
      ((Qt.splitKeep 0 ba).takeWhile w.validRecord).length ∧
    (insertedCommits (newEvents s (processRevision w s ba))).map CommitInfo.orderIdx =
      List.range' 1 (insertedCommits (newEvents s (processRevision w s ba))).length ∧
    ∀ (k : Nat) (hk : k < (insertedCommits (newEvents s (processRevision w s ba))).length),
      ((insertedCommits (newEvents s (processRevision w s ba))).get ⟨k, hk⟩).orderIdx = k + 1 := by
  rw [processRevision_inserted]
  have hidx := ingested_orderIdx w (Qt.splitKeep 0 ba) 1
  refine ⟨splitKeep_length 0 ba, ?_, ingested_length w _ 1, hidx, ?_⟩
  · rw [ingested_length]
    exact (List.takeWhile_sublist w.validRecord).length_le
  · intro k hk
    have h1 : ((ingested w (Qt.splitKeep 0 ba) 1).map CommitInfo.orderIdx)[k]? =
        (List.range' 1 (ingested w (Qt.splitKeep 0 ba) 1).length)[k]? := by rw [hidx]
    rw [List.getElem?_map, List.getElem?_range' _ _ hk, List.getElem?_eq_getElem hk] at h1
    simp only [Option.map_some', Option.some.injEq] at h1
    simp only [List.get_eq_getElem]
    omega

/-- C8: the commits `processRevision` inserts are the records of the longest all-valid
run at the start of the batch, in batch order, numbered from 1; whatever follows the
first invalid record is not inserted, valid or not; a batch of valid records only is
inserted whole; the commits are added after the ones the cache held; and a batch of one
valid record followed by one malformed record inserts exactly one commit, with
sequence index 1. -/
theorem processRevision_stops_at_first_invalid (w : World) (s : Loader) (ba : QByteArray) :
    insertedCommits (newEvents s (processRevision w s ba)) =
      ingested w (Qt.splitKeep 0 ba) 1 ∧
    (insertedCommits (newEvents s (processRevision w s ba))).map CommitInfo.record =
      (Qt.splitKeep 0 ba).takeWhile w.validRecord ∧
    (∀ (pre : List QByteArray) (bad : QByteArray) (rest : List QByteArray),
      Qt.splitKeep 0 ba = pre ++ bad :: rest →
      (∀ r ∈ pre, w.validRecord r = true) → w.validRecord bad = false →
      (insertedCommits (newEvents s (processRevision w s ba))).map CommitInfo.record = pre) ∧
    ((∀ r ∈ Qt.splitKeep 0 ba, w.validRecord r = true) →
      (insertedCommits (newEvents s (processRevision w s ba))).map CommitInfo.record =
        Qt.splitKeep 0 ba) ∧
    (processRevision w s ba).mRevCache.commits =
      s.mRevCache.commits ++ insertedCommits (newEvents s (processRevision w s ba)) ∧
    ∀ r1 r2 : QByteArray, 0 ∉ r1 → 0 ∉ r2 →
      w.validRecord r1 = true → w.validRecord r2 = false →
      insertedCommits (newEvents s (processRevision w s (r1 ++ 0 :: r2))) =
        [{ record := r1, orderIdx := 1, mIsValid := true }] := by
  refine ⟨processRevision_inserted w s ba, ?_, ?_, ?_, ?_, ?_⟩
  · rw [processRevision_inserted, ingested_record]
  · intro pre bad rest hsplit hpre hbad
    rw [processRevision_inserted, ingested_record, hsplit]
    exact takeWhile_of_split _ pre bad rest hpre hbad
  · intro hall
    rw [processRevision_inserted, ingested_record]
    exact List.takeWhile_eq_self_iff.mpr (by simpa using hall)
  · rw [processRevision_inserted, processRevision_commits]
  · intro r1 r2 h1 h2 hv1 hv2
    rw [processRevision_inserted, splitKeep_append_sep 0 r1 r2 h1, splitKeep_of_not_mem 0 r2 h2]
    simp [ingested, List.takeWhile, hv1, hv2]

/-- C8 at a concrete input: the valid record 1 2 3 followed by the malformed record 4,
and the batch 1 2 3, 4, 5 6 7 8 whose third record is valid and not inserted. -/
theorem processRevision_stops_at_first_invalid_witness :
    (0 : Nat) ∉ [1, 2, 3] ∧ (0 : Nat) ∉ [4] ∧
    sampleWorld.validRecord [1, 2, 3] = true ∧ sampleWorld.validRecord [4] = false ∧
    insertedCommits (newEvents idleLoader
      (processRevision sampleWorld idleLoader ([1, 2, 3] ++ 0 :: [4]))) =
        [{ record := [1, 2, 3], orderIdx := 1, mIsValid := true }] ∧
    (insertedCommits (newEvents idleLoader
      (processRevision sampleWorld idleLoader [1, 2, 3, 0, 4, 0, 5, 6, 7, 8]))).map
        CommitInfo.record = [[1, 2, 3]] :=
  ⟨by decide, by decide, rfl, rfl,
    (processRevision_stops_at_first_invalid sampleWorld idleLoader []).2.2.2.2.2
      [1, 2, 3] [4] (by decide) (by decide) rfl rfl,
    (processRevision_stops_at_first_invalid sampleWorld idleLoader
      [1, 2, 3, 0, 4, 0, 5, 6, 7, 8]).2.2.1 [[1, 2, 3]] [4] [[5, 6, 7, 8]]
      (by decide) (by decide) rfl⟩

/-- C9: for every batch `processRevision` ends with the lock released, and the events
of the call are some events, none of them a lock release or the loading-finished
signal, followed by the release of the lock and then the loading-finished signal; every
commit insert is among the earlier events, the signal occurs exactly once and it is
the last event. -/
theorem processRevision_finishes_once (w : World) (s : Loader) (ba : QByteArray) :
    (processRevision w s ba).mLocked = false ∧
    (∃ pre : List Event,
      newEvents s (processRevision w s ba) =
        pre ++ [Event.setLocked false, Event.signalLoadingFinished] ∧
      Event.signalLoadingFinished ∉ pre ∧ Event.setLocked false ∉ pre ∧
      insertedCommits pre = insertedCommits (newEvents s (processRevision w s ba))) ∧
    (newEvents s (processRevision w s ba)).count Event.signalLoadingFinished = 1 ∧
    (newEvents s (processRevision w s ba)).getLast? = some Event.signalLoadingFinished := by
  have hb := (processRevisionBegin_appends w s ba).spec.2
  have hpre : ∀ e ∈ newEvents s (processRevisionBegin w s ba) ++
      (ingested w (Qt.splitKeep 0 ba) 1).map Event.insertCommitInfo,
      e ≠ Event.signalLoadingFinished ∧ e ≠ Event.setLocked false := by
    intro e he
    rcases List.mem_append.mp he with h | h
    · have := hb e h
      cases e <;> simp_all [Event.isBeginEvent]
    · obtain ⟨c, _, rfl⟩ := List.mem_map.mp h
      simp
  refine ⟨rfl, ⟨_, processRevision_trace w s ba, ?_, ?_, ?_⟩, ?_, ?_⟩
  · intro h; exact (hpre _ h).1 rfl
  · intro h; exact (hpre _ h).2 rfl
  · rw [processRevision_trace]
    simp [insertedCommits, List.filterMap_append, Event.commitInserted]
  · rw [processRevision_trace, List.count_append]
    have h0 : List.count Event.signalLoadingFinished
        (newEvents s (processRevisionBegin w s ba) ++
          (ingested w (Qt.splitKeep 0 ba) 1).map Event.insertCommitInfo) = 0 := by
      rw [List.count_eq_zero]
      intro h; exact (hpre _ h).1 rfl
    rw [h0]
    decide
  · rw [processRevision_trace]
    simp

/-! ## Reference loading, the working tree, the load cycle and step sequences -/

theorem left_line (A name : String) (h : A.length = 40) :
    Qt.left (A ++ " " ++ name) 40 = A := by
  have h' : A.data.length = 40 := h
  simp [Qt.left, String.data_append, List.append_assoc, List.take_left' h']

theorem mid_line (A name : String) (h : A.length = 40) :
    Qt.mid (A ++ " " ++ name) 41 = name := by
  have h' : A.data.length = 40 := h
  have h2 : (A.data ++ [' ']).length = 41 := by simp [h']
  have h3 : (A ++ " " ++ name).data = (A.data ++ [' ']) ++ name.data := by
    simp [String.data_append]
  simp only [Qt.mid, h3, List.drop_left' h2]

theorem loadReferences_listed (w : World) (s : Loader)
    (h : (w.run s.workingDir "git show-ref -d").1 = true) :
    loadReferences w s =
      (loadReferencesLoop w (headSha w s.workingDir)
        (Qt.splitSkipEmpty (w.run s.workingDir "git show-ref -d").2 '\n') ""
        ((s.emit (Event.run s.workingDir "git show-ref -d")).emit
          (Event.run s.workingDir "git rev-parse HEAD"))).insertReference
        (headSha w s.workingDir)
        { (loadReferencesLoop w (headSha w s.workingDir)
            (Qt.splitSkipEmpty (w.run s.workingDir "git show-ref -d").2 '\n') ""
            ((s.emit (Event.run s.workingDir "git show-ref -d")).emit
              (Event.run s.workingDir "git rev-parse HEAD"))).mRevCache.getReference
              (headSha w s.workingDir) with
          type := ((loadReferencesLoop w (headSha w s.workingDir)
            (Qt.splitSkipEmpty (w.run s.workingDir "git show-ref -d").2 '\n') ""
            ((s.emit (Event.run s.workingDir "git show-ref -d")).emit
              (Event.run s.workingDir "git rev-parse HEAD"))).mRevCache.getReference
              (headSha w s.workingDir)).type ||| w.CUR_BRANCH } := by
  unfold loadReferences
  simp only [Loader.run, h, if_true]
  rfl

/-- C11 (as amended): for a reference list of two lines with the same 40-character id
`A`, a branch line followed by a dereferenced-tag line, and HEAD equal to `A`,
`loadReferences` on a cache without references leaves exactly one reference record,
stored under `A`: the fresh record with the current-branch flag and no name. -/
theorem loadReferences_same_id_tag_line (w : World) (s : Loader) (A : String)
    (hA : A.length = 40)
    (hs : s.mRevCache.references = [])
    (hok : (w.run s.workingDir "git show-ref -d").1 = true)
    (hsplit : Qt.splitSkipEmpty (w.run s.workingDir "git show-ref -d").2 '\n' =
      [A ++ " " ++ "refs/heads/main", A ++ " " ++ "refs/tags/v1^\x7b\x7d"])
    (hhead : headSha w s.workingDir = A) :
    (loadReferences w s).mRevCache.references =
      [(A, { type := w.CUR_BRANCH, names := [], precedingId := "" })] := by
  have hne : Qt.isEmpty A = false := by
    cases hd : A.data with
    | nil => rw [String.length, hd] at hA; simp at hA
    | cons c cs => simp [Qt.isEmpty, hd]
  have e1 : Qt.startsWith "refs/heads/main" "refs/tags/" = false := by decide
  have e2 : Qt.startsWith "refs/tags/v1^\x7b\x7d" "refs/tags/" = true := by decide
  have e3 : Qt.endsWith "refs/tags/v1^\x7b\x7d" "^\x7b\x7d" = true := by decide
  rw [loadReferences_listed w s hok, hsplit, hhead]
  simp [loadReferencesLoop, left_line _ _ hA, mid_line _ _ hA, e1, e2, e3, hne,
    Loader.insertReference, Loader.removeReference, Loader.emit,
    RevisionsCache.insertReference, RevisionsCache.removeReference,
    RevisionsCache.getReference, RevisionsCache.findReference, RevisionsCache.setKey, hs]


/-- C11 at its concrete input: the two lines of the scenario, HEAD equal to their id. -/
theorem loadReferences_same_id_tag_line_witness :
    ("aaaaaaaaaaaaaaaaaaaaaaaaaaaaaaaaaaaaaaaa" : String).length = 40 ∧
    idleLoader.mRevCache.references = [] ∧
    (tagPairWorld.run idleLoader.workingDir "git show-ref -d").1 = true ∧
    headSha tagPairWorld idleLoader.workingDir = "aaaaaaaaaaaaaaaaaaaaaaaaaaaaaaaaaaaaaaaa" ∧
    (loadReferences tagPairWorld idleLoader).mRevCache.references =
      [("aaaaaaaaaaaaaaaaaaaaaaaaaaaaaaaaaaaaaaaa",
        { type := tagPairWorld.CUR_BRANCH, names := [], precedingId := "" })] :=
  ⟨rfl, rfl, rfl, rfl,
    loadReferences_same_id_tag_line tagPairWorld idleLoader
      "aaaaaaaaaaaaaaaaaaaaaaaaaaaaaaaaaaaaaaaa" rfl rfl rfl rfl rfl⟩

/-- C11 as stated fails: at the two lines of the scenario, with a `configure` that adds
each name to the record, the cache does not end with a single record under the id that
carries both names and the current-branch flag. -/
theorem loadReferences_same_id_tag_line_drops_names :
    ¬ ∃ r : Reference,
      (loadReferences tagPairWorld idleLoader).mRevCache.references =
        [("aaaaaaaaaaaaaaaaaaaaaaaaaaaaaaaaaaaaaaaa", r)] ∧
      "refs/heads/main" ∈ r.names ∧ "refs/tags/v1^\x7b\x7d" ∈ r.names ∧
      r.type &&& tagPairWorld.CUR_BRANCH = tagPairWorld.CUR_BRANCH := by
  rintro ⟨r, hr, hmain, -, -⟩
  have hrefs : (loadReferences tagPairWorld idleLoader).mRevCache.references =
      [("aaaaaaaaaaaaaaaaaaaaaaaaaaaaaaaaaaaaaaaa", { type := 8 })] := rfl
  rw [hrefs] at hr
  simp only [List.cons.injEq, Prod.mk.injEq, true_and, and_true] at hr
  rw [← hr] at hmain
  simp at hmain

theorem setKey_ids (sha : String) (ref : Reference) (l : List (String × Reference)) :
    (RevisionsCache.setKey sha ref l).map Prod.fst =
      if sha ∈ l.map Prod.fst then l.map Prod.fst else l.map Prod.fst ++ [sha] := by
  induction l with
  | nil => simp [RevisionsCache.setKey]
  | cons kv rest ih =>
    unfold RevisionsCache.setKey
    by_cases h : kv.1 = sha
    · simp [h]
    · have h' : ¬ sha = kv.1 := fun e => h e.symm
      simp only [beq_iff_eq, h, if_false, List.map_cons, ih, List.mem_cons, h', false_or]
      split <;> simp

theorem setKey_nodup (sha : String) (ref : Reference) (l : List (String × Reference))
    (h : (l.map Prod.fst).Nodup) : ((RevisionsCache.setKey sha ref l).map Prod.fst).Nodup := by
  rw [setKey_ids]
  split
  · exact h
  · rename_i hn
    exact List.Nodup.append h (List.nodup_singleton sha) (by simpa using hn)

theorem insertReference_nodup (c : RevisionsCache) (sha : String) (ref : Reference)
    (h : c.referenceIds.Nodup) : (c.insertReference sha ref).referenceIds.Nodup :=
  setKey_nodup sha ref c.references h

theorem removeReference_nodup (c : RevisionsCache) (sha : String)
    (h : c.referenceIds.Nodup) : (c.removeReference sha).referenceIds.Nodup :=
  List.Nodup.sublist (List.Sublist.map Prod.fst (List.filter_sublist c.references)) h

theorem loadReferencesLoop_nodup (w : World) (head : String) :
    ∀ (refs : List String) (prev : String) (s : Loader),
      s.mRevCache.referenceIds.Nodup →
      (loadReferencesLoop w head refs prev s).mRevCache.referenceIds.Nodup := by
  intro refs
  induction refs with
  | nil => intro prev s h; exact h
  | cons r rest ih =>
    intro prev s h
    simp only [loadReferencesLoop]
    apply ih
    split
    · exact removeReference_nodup _ _ (insertReference_nodup _ _ _ h)
    · exact insertReference_nodup _ _ _ h

theorem loadReferences_nodup (w : World) (s : Loader) (h : s.mRevCache.referenceIds.Nodup) :
    (loadReferences w s).mRevCache.referenceIds.Nodup := by
  cases hok : (w.run s.workingDir "git show-ref -d").1
  · unfold loadReferences
    simp only [Loader.run, hok]
    exact h
  · rw [loadReferences_listed w s hok]
    exact insertReference_nodup _ _ _ (loadReferencesLoop_nodup w _ _ _ _ h)

/-- C12: when the reference map has at most one record per id before `loadReferences`
(as the cleared cache has), it has at most one record per id after it, whatever the
reference list is; and every `loadRepository` call that is not rejected ends with a
reference map of at most one record per id. -/
theorem loadReferences_one_record_per_id (w : World) (s : Loader)
    (h : s.mRevCache.referenceIds.Nodup) :
    (loadReferences w s).mRevCache.referenceIds.Nodup ∧
    (∀ sha : String, (loadReferences w s).mRevCache.referenceIds.count sha ≤ 1) ∧
    ∀ t : Loader, t.mLocked = false → Qt.isEmpty t.workingDir = false →
      (loadRepository w t).2.mRevCache.referenceIds.Nodup ∧
      ∀ sha : String, (loadRepository w t).2.mRevCache.referenceIds.count sha ≤ 1 := by
  have hcycle : ∀ t : Loader, t.mLocked = false → Qt.isEmpty t.workingDir = false →
      (loadRepository w t).2.mRevCache.referenceIds.Nodup := by
    intro t hl he
    cases hr : (w.run t.workingDir "git rev-parse --show-cdup").1
    · have h3 : (loadRepository w t).2.mRevCache = t.mRevCache.clear := by
        simp [loadRepository, hl, he, hr, Loader.emit, configureRepoDirectory, Loader.run,
          Loader.cacheClear, Loader.setLocked]
      rw [h3]
      exact List.nodup_nil
    · rw [loadRepository_accepted w t hl he hr]
      show (loadReferences w _).mRevCache.referenceIds.Nodup
      apply loadReferences_nodup
      rw [configureRepoDirectory_mRevCache]
      exact List.nodup_nil
  refine ⟨loadReferences_nodup w s h, ?_, ?_⟩
  · intro sha
    exact List.nodup_iff_count_le_one.mp (loadReferences_nodup w s h) sha
  · intro t hl he
    exact ⟨hcycle t hl he, fun sha => List.nodup_iff_count_le_one.mp (hcycle t hl he) sha⟩

/-- C12 at a concrete input: the sample reference list, in which the tag object line is
followed by its dereferenced line. -/
theorem loadReferences_one_record_per_id_witness :
    idleLoader.mRevCache.referenceIds.Nodup ∧
    (loadReferences sampleWorld idleLoader).mRevCache.referenceIds.Nodup ∧
    (loadReferences sampleWorld idleLoader).mRevCache.referenceIds =
      ["aaaaaaaaaaaaaaaaaaaaaaaaaaaaaaaaaaaaaaaa", "cccccccccccccccccccccccccccccccccccccccc",
       "dddddddddddddddddddddddddddddddddddddddd"] :=
  ⟨List.nodup_nil, (loadReferences_one_record_per_id sampleWorld idleLoader List.nodup_nil).1,
    rfl⟩

theorem getUntrackedFiles_eq (w : World) (s : Loader) :
    getUntrackedFiles w s =
      (Qt.splitSkipEmpty (w.run s.workingDir (untrackedFilesCmd w s.workingDir)).2 '\n',
        s.emit (Event.run s.workingDir (untrackedFilesCmd w s.workingDir))) := by
  unfold getUntrackedFiles untrackedFilesCmd
  rfl

theorem updateWipRevision_resolved (w : World) (s : Loader)
    (h : (w.run s.workingDir "git rev-parse --revs-only HEAD").1 = true) :
    updateWipRevision w s =
      (((((s.emit (Event.run s.workingDir (untrackedFilesCmd w s.workingDir))).setUntrackedFilesList
        (Qt.splitSkipEmpty (w.run s.workingDir (untrackedFilesCmd w s.workingDir)).2 '\n')).emit
        (Event.run s.workingDir "git rev-parse --revs-only HEAD")).emit
        (Event.run s.workingDir ("git diff-index " ++
          Qt.trimmed (w.run s.workingDir "git rev-parse --revs-only HEAD").2))).emit
        (Event.run s.workingDir ("git diff-index --cached " ++
          Qt.trimmed (w.run s.workingDir "git rev-parse --revs-only HEAD").2))).updateWipCommit
        (Qt.trimmed (w.run s.workingDir "git rev-parse --revs-only HEAD").2)
        (if (w.run s.workingDir ("git diff-index " ++
            Qt.trimmed (w.run s.workingDir "git rev-parse --revs-only HEAD").2)).1
          then (w.run s.workingDir ("git diff-index " ++
            Qt.trimmed (w.run s.workingDir "git rev-parse --revs-only HEAD").2)).2 else "")
        (if (w.run s.workingDir ("git diff-index --cached " ++
            Qt.trimmed (w.run s.workingDir "git rev-parse --revs-only HEAD").2)).1
          then (w.run s.workingDir ("git diff-index --cached " ++
            Qt.trimmed (w.run s.workingDir "git rev-parse --revs-only HEAD").2)).2 else "") := by
  unfold updateWipRevision
  rw [getUntrackedFiles_eq]
  simp only [Loader.run]
  have h' : (w.run ((s.emit (Event.run s.workingDir
      (untrackedFilesCmd w s.workingDir))).setUntrackedFilesList
      (Qt.splitSkipEmpty (w.run s.workingDir (untrackedFilesCmd w s.workingDir)).2
        '\n')).workingDir "git rev-parse --revs-only HEAD").1 = true := h
  rw [if_pos h']
  rfl

theorem updateWipRevision_unresolved (w : World) (s : Loader)
    (h : (w.run s.workingDir "git rev-parse --revs-only HEAD").1 = false) :
    updateWipRevision w s =
      ((s.emit (Event.run s.workingDir (untrackedFilesCmd w s.workingDir))).setUntrackedFilesList
        (Qt.splitSkipEmpty (w.run s.workingDir (untrackedFilesCmd w s.workingDir)).2 '\n')).emit
        (Event.run s.workingDir "git rev-parse --revs-only HEAD") := by
  unfold updateWipRevision
  rw [getUntrackedFiles_eq]
  simp only [Loader.run]
  have h' : ¬ (w.run ((s.emit (Event.run s.workingDir
      (untrackedFilesCmd w s.workingDir))).setUntrackedFilesList
      (Qt.splitSkipEmpty (w.run s.workingDir (untrackedFilesCmd w s.workingDir)).2
        '\n')).workingDir "git rev-parse --revs-only HEAD").1 = true := by
    intro h1
    have h2 : (w.run s.workingDir "git rev-parse --revs-only HEAD").1 = true := h1
    rw [h] at h2
    exact Bool.false_ne_true h2
  rw [if_neg h']
  rfl

/-- C13 (as amended): when HEAD resolution succeeds, `updateWipRevision` sets the
untracked-file list to the non-empty lines of the untracked probe's output, in order,
and writes the pseudo-commit with parent equal to the trimmed HEAD output, with that
untracked list, and with each diff payload equal to the output of its probe when the
probe succeeds and empty when it fails.  With an untracked probe listing `a.txt` and
`b/c.txt` and both diff outputs empty, the pseudo-commit has the HEAD id as parent,
empty diff payloads and an untracked list of length 2. -/
theorem updateWipRevision_head_resolved (w : World) (s : Loader)
    (h : (w.run s.workingDir "git rev-parse --revs-only HEAD").1 = true) :
    (updateWipRevision w s).mRevCache.untrackedFiles =
      Qt.splitSkipEmpty (w.run s.workingDir (untrackedFilesCmd w s.workingDir)).2 '\n' ∧
    (updateWipRevision w s).mRevCache.wipCommit = some
      { parentSha := Qt.trimmed (w.run s.workingDir "git rev-parse --revs-only HEAD").2,
        diffIndex :=
          if (w.run s.workingDir ("git diff-index " ++
              Qt.trimmed (w.run s.workingDir "git rev-parse --revs-only HEAD").2)).1
          then (w.run s.workingDir ("git diff-index " ++
              Qt.trimmed (w.run s.workingDir "git rev-parse --revs-only HEAD").2)).2
          else "",
        diffIndexCached :=
          if (w.run s.workingDir ("git diff-index --cached " ++
              Qt.trimmed (w.run s.workingDir "git rev-parse --revs-only HEAD").2)).1
          then (w.run s.workingDir ("git diff-index --cached " ++
              Qt.trimmed (w.run s.workingDir "git rev-parse --revs-only HEAD").2)).2
          else "",
        untrackedFiles :=
          Qt.splitSkipEmpty (w.run s.workingDir (untrackedFilesCmd w s.workingDir)).2 '\n' } ∧
    ((w.run s.workingDir (untrackedFilesCmd w s.workingDir)).2 = "a.txt\nb/c.txt\n" →
      (w.run s.workingDir ("git diff-index " ++
        Qt.trimmed (w.run s.workingDir "git rev-parse --revs-only HEAD").2)).2 = "" →
      (w.run s.workingDir ("git diff-index --cached " ++
        Qt.trimmed (w.run s.workingDir "git rev-parse --revs-only HEAD").2)).2 = "" →
      (updateWipRevision w s).mRevCache.wipCommit = some
        { parentSha := Qt.trimmed (w.run s.workingDir "git rev-parse --revs-only HEAD").2,
          diffIndex := "", diffIndexCached := "", untrackedFiles := ["a.txt", "b/c.txt"] } ∧
      (updateWipRevision w s).mRevCache.untrackedFiles.length = 2) := by
  rw [updateWipRevision_resolved w s h]
  refine ⟨rfl, rfl, ?_⟩
  intro hu h1 h2
  have hsplit : Qt.splitSkipEmpty "a.txt\nb/c.txt\n" '\n' = ["a.txt", "b/c.txt"] := by decide
  simp only [Loader.updateWipCommit, Loader.emit, Loader.setUntrackedFilesList,
    RevisionsCache.updateWipCommit, RevisionsCache.setUntrackedFilesList, hu, h1, h2, hsplit,
    ite_self]
  simp

/-- C13 at a concrete input: two untracked files, both diffs empty. -/
theorem updateWipRevision_head_resolved_witness :
    (untrackedWorld.run idleLoader.workingDir "git rev-parse --revs-only HEAD").1 = true ∧
    (updateWipRevision untrackedWorld idleLoader).mRevCache.wipCommit = some
      { parentSha := "dddddddddddddddddddddddddddddddddddddddd",
        diffIndex := "", diffIndexCached := "", untrackedFiles := ["a.txt", "b/c.txt"] } ∧
    (updateWipRevision untrackedWorld idleLoader).mRevCache.untrackedFiles.length = 2 :=
  ⟨rfl, (updateWipRevision_head_resolved untrackedWorld idleLoader rfl).2.2 rfl rfl rfl⟩

/-- C13 as stated fails: with a successful HEAD resolution and an unstaged diff probe
that fails with some output, the unstaged payload of the pseudo-commit is not that
output. -/
theorem updateWipRevision_failed_probe_output_dropped :
    (failedProbeWorld.run idleLoader.workingDir "git rev-parse --revs-only HEAD").1 = true ∧
    ¬ (updateWipRevision failedProbeWorld idleLoader).mRevCache.wipCommit = some
      { parentSha :=
          Qt.trimmed (failedProbeWorld.run idleLoader.workingDir
            "git rev-parse --revs-only HEAD").2,
        diffIndex := (failedProbeWorld.run idleLoader.workingDir
          "git diff-index dddddddddddddddddddddddddddddddddddddddd").2,
        diffIndexCached := (failedProbeWorld.run idleLoader.workingDir
          "git diff-index --cached dddddddddddddddddddddddddddddddddddddddd").2,
        untrackedFiles := (updateWipRevision failedProbeWorld idleLoader).mRevCache.untrackedFiles } := by
  refine ⟨rfl, ?_⟩
  decide

/-- C14 (as amended): when HEAD resolution fails, `updateWipRevision` stores the
untracked-file list and nothing else: it runs no diff probe and leaves the
pseudo-commit as it was.  The pseudo-commit with an empty parent is written when HEAD
resolution succeeds with an output that trims to the empty string. -/
theorem updateWipRevision_head_unresolved (w : World) (s : Loader) :
    ((w.run s.workingDir "git rev-parse --revs-only HEAD").1 = false →
      (updateWipRevision w s).mRevCache.wipCommit = s.mRevCache.wipCommit ∧
      (updateWipRevision w s).mRevCache.untrackedFiles =
        Qt.splitSkipEmpty (w.run s.workingDir (untrackedFilesCmd w s.workingDir)).2 '\n' ∧
      newEvents s (updateWipRevision w s) =
        [Event.run s.workingDir (untrackedFilesCmd w s.workingDir),
         Event.setUntrackedFilesList
           (Qt.splitSkipEmpty (w.run s.workingDir (untrackedFilesCmd w s.workingDir)).2 '\n'),
         Event.run s.workingDir "git rev-parse --revs-only HEAD"]) ∧
    ((w.run s.workingDir "git rev-parse --revs-only HEAD").1 = true →
      Qt.trimmed (w.run s.workingDir "git rev-parse --revs-only HEAD").2 = "" →
      ∃ wip : WipCommit, (updateWipRevision w s).mRevCache.wipCommit = some wip ∧
        wip.parentSha = "" ∧
        wip.untrackedFiles =
          Qt.splitSkipEmpty (w.run s.workingDir (untrackedFilesCmd w s.workingDir)).2 '\n') := by
  constructor
  · intro h
    rw [updateWipRevision_unresolved w s h]
    refine ⟨rfl, rfl, ?_⟩
    apply newEvents_of_trace
    simp [Loader.emit, Loader.setUntrackedFilesList]
  · intro h hempty
    rw [updateWipRevision_resolved w s h]
    exact ⟨_, rfl, hempty, rfl⟩

/-- C14 at concrete inputs: a failing HEAD resolution leaves the empty pseudo-commit
slot empty, and a repository without commits gets a pseudo-commit with an empty
parent. -/
theorem updateWipRevision_head_unresolved_witness :
    (noHeadWorld.run idleLoader.workingDir "git rev-parse --revs-only HEAD").1 = false ∧
    (updateWipRevision noHeadWorld idleLoader).mRevCache.wipCommit = none ∧
    (updateWipRevision noHeadWorld idleLoader).mRevCache.untrackedFiles = ["a.txt"] ∧
    (emptyRepoWorld.run idleLoader.workingDir "git rev-parse --revs-only HEAD").1 = true ∧
    ∃ wip : WipCommit,
      (updateWipRevision emptyRepoWorld idleLoader).mRevCache.wipCommit = some wip ∧
      wip.parentSha = "" ∧ wip.untrackedFiles = ["a.txt"] :=
  ⟨rfl, ((updateWipRevision_head_unresolved noHeadWorld idleLoader).1 rfl).1,
    ((updateWipRevision_head_unresolved noHeadWorld idleLoader).1 rfl).2.1, rfl,
    (updateWipRevision_head_unresolved emptyRepoWorld idleLoader).2 rfl rfl⟩

/-- C14 as stated fails: with a failing HEAD resolution no pseudo-commit with an empty
parent is written to the cache, and the call is not an update of the pseudo-commit. -/
theorem updateWipRevision_head_unresolved_skips :
    (noHeadWorld.run idleLoader.workingDir "git rev-parse --revs-only HEAD").1 = false ∧
    (¬ ∃ wip : WipCommit,
      (updateWipRevision noHeadWorld idleLoader).mRevCache.wipCommit = some wip ∧
      wip.parentSha = "") ∧
    ∀ a b c : String,
      Event.updateWipCommit a b c ∉ newEvents idleLoader (updateWipRevision noHeadWorld idleLoader) := by
  have hw : (updateWipRevision noHeadWorld idleLoader).mRevCache.wipCommit = none := rfl
  have he : newEvents idleLoader (updateWipRevision noHeadWorld idleLoader) =
      [Event.run "/home/user/project"
          "git ls-files --others --exclude-per-directory=$.gitignore$",
        Event.setUntrackedFilesList ["a.txt"],
        Event.run "/home/user/project" "git rev-parse --revs-only HEAD"] := rfl
  refine ⟨rfl, ?_, ?_⟩
  · rintro ⟨wip, h1, -⟩
    rw [hw] at h1
    exact Option.noConfusion h1
  · intro a b c
    rw [he]
    simp

theorem getLast_newEvents_updateWipCommit {P : Event → Bool} {s t : Loader}
    (h : Appends P s t) (a b c : String) :
    (newEvents s (t.updateWipCommit a b c)).getLast? = some (Event.updateWipCommit a b c) := by
  obtain ⟨evs, ht, -⟩ := h
  have hn : newEvents s (t.updateWipCommit a b c) = evs ++ [Event.updateWipCommit a b c] := by
    apply newEvents_of_trace
    simp [Loader.updateWipCommit, ht]
  rw [hn]
  exact List.getLast?_concat _

/-- C15: in `updateWipRevision` with a successful HEAD resolution the pseudo-commit is
updated, as the last effect of the call; a diff probe that fails contributes the
empty string whatever it printed, and a probe that succeeds contributes its output,
whatever the other probe did. -/
theorem updateWipRevision_failing_probe (w : World) (s : Loader)
    (h : (w.run s.workingDir "git rev-parse --revs-only HEAD").1 = true) :
    ∃ wip : WipCommit,
      (updateWipRevision w s).mRevCache.wipCommit = some wip ∧
      (newEvents s (updateWipRevision w s)).getLast? =
        some (Event.updateWipCommit wip.parentSha wip.diffIndex wip.diffIndexCached) ∧
      wip.parentSha = Qt.trimmed (w.run s.workingDir "git rev-parse --revs-only HEAD").2 ∧
      ((w.run s.workingDir ("git diff-index " ++ wip.parentSha)).1 = false →
        wip.diffIndex = "") ∧
      ((w.run s.workingDir ("git diff-index " ++ wip.parentSha)).1 = true →
        wip.diffIndex = (w.run s.workingDir ("git diff-index " ++ wip.parentSha)).2) ∧
      ((w.run s.workingDir ("git diff-index --cached " ++ wip.parentSha)).1 = false →
        wip.diffIndexCached = "") ∧
      ((w.run s.workingDir ("git diff-index --cached " ++ wip.parentSha)).1 = true →
        wip.diffIndexCached =
          (w.run s.workingDir ("git diff-index --cached " ++ wip.parentSha)).2) := by
  rw [updateWipRevision_resolved w s h]
  refine ⟨_, rfl, ?_, rfl, ?_, ?_, ?_, ?_⟩
  · exact getLast_newEvents_updateWipCommit (P := fun _ => true)
      ((((((Appends.refl _ s).emit _ rfl).setUntrackedFilesList _ rfl).emit _ rfl).emit _
        rfl).emit _ rfl) _ _ _
  · intro hf
    simp only [Loader.updateWipCommit, RevisionsCache.updateWipCommit] at hf ⊢
    simp [hf]
  · intro hf
    simp only [Loader.updateWipCommit, RevisionsCache.updateWipCommit] at hf ⊢
    simp [hf]
  · intro hf
    simp only [Loader.updateWipCommit, RevisionsCache.updateWipCommit] at hf ⊢
    simp [hf]
  · intro hf
    simp only [Loader.updateWipCommit, RevisionsCache.updateWipCommit] at hf ⊢
    simp [hf]

/-- C15 at a concrete input: the unstaged probe fails with output, the staged probe
succeeds. -/
theorem updateWipRevision_failing_probe_witness :
    (failedProbeWorld.run idleLoader.workingDir "git rev-parse --revs-only HEAD").1 = true ∧
    (failedProbeWorld.run idleLoader.workingDir
      "git diff-index dddddddddddddddddddddddddddddddddddddddd") =
        (false, "fatal: unable to read the index") ∧
    (updateWipRevision failedProbeWorld idleLoader).mRevCache.wipCommit = some
      { parentSha := "dddddddddddddddddddddddddddddddddddddddd",
        diffIndex := "", diffIndexCached := ":100644 100644 M\tREADME.md\n",
        untrackedFiles := [] } ∧
    ∃ wip : WipCommit,
      (updateWipRevision failedProbeWorld idleLoader).mRevCache.wipCommit = some wip :=
  ⟨rfl, rfl, rfl,
    (updateWipRevision_failing_probe failedProbeWorld idleLoader rfl).imp (fun _ hw => hw.1)⟩

theorem newEvents_insertReference {s t : Loader} {evs : List Event}
    (ht : t.trace = s.trace ++ evs) (sha : String) (r : Reference) :
    newEvents s (t.insertReference sha r) = evs ++ [Event.insertReference sha r] := by
  apply newEvents_of_trace
  simp [Loader.insertReference, ht]

theorem loadReferencesLoop_cache_congr (w : World) (head : String) :
    ∀ (refs : List String) (prev : String) (s t : Loader),
      s.mRevCache = t.mRevCache →
      (loadReferencesLoop w head refs prev s).mRevCache =
        (loadReferencesLoop w head refs prev t).mRevCache := by
  intro refs
  induction refs with
  | nil => intro prev s t h; exact h
  | cons r rest ih =>
    intro prev s t h
    simp only [loadReferencesLoop]
    apply ih
    split <;> simp [Loader.insertReference, Loader.removeReference, h]

theorem loadReferences_cache_congr (w : World) (s t : Loader)
    (hrun : ∀ c : String, w.run s.workingDir c = w.run t.workingDir c)
    (hc : s.mRevCache = t.mRevCache) :
    (loadReferences w s).mRevCache = (loadReferences w t).mRevCache := by
  have hhead : headSha w s.workingDir = headSha w t.workingDir := by
    simp [headSha, hrun]
  cases hok : (w.run s.workingDir "git show-ref -d").1
  · have hok' : (w.run t.workingDir "git show-ref -d").1 = false := by rw [← hrun]; exact hok
    unfold loadReferences
    simp only [Loader.run, hok, hok']
    exact hc
  · have hok' : (w.run t.workingDir "git show-ref -d").1 = true := by rw [← hrun]; exact hok
    rw [loadReferences_listed w s hok, loadReferences_listed w t hok', ← hhead,
      ← hrun "git show-ref -d"]
    have hloop := loadReferencesLoop_cache_congr w (headSha w s.workingDir)
      (Qt.splitSkipEmpty (w.run s.workingDir "git show-ref -d").2 '\n') ""
      ((s.emit (Event.run s.workingDir "git show-ref -d")).emit
        (Event.run s.workingDir "git rev-parse HEAD"))
      ((t.emit (Event.run t.workingDir "git show-ref -d")).emit
        (Event.run t.workingDir "git rev-parse HEAD")) hc
    simp only [Loader.insertReference, hloop]

theorem loadRepository_fst (w : World) (s : Loader) :
    (loadRepository w s).1 =
      (!s.mLocked && !Qt.isEmpty s.workingDir &&
        (w.run s.workingDir "git rev-parse --show-cdup").1) := by
  unfold loadRepository
  cases hl : s.mLocked
  · cases he : Qt.isEmpty s.workingDir
    · cases hr : (w.run s.workingDir "git rev-parse --show-cdup").1 <;>
        simp [configureRepoDirectory, Loader.run, Loader.emit, Loader.cacheClear,
          Loader.setLocked, hr]
    · simp
  · simp

theorem loadRepository_true_cases (w : World) (s : Loader) (h : (loadRepository w s).1 = true) :
    s.mLocked = false ∧ Qt.isEmpty s.workingDir = false ∧
      (w.run s.workingDir "git rev-parse --show-cdup").1 = true := by
  rw [loadRepository_fst] at h
  simpa [and_assoc] using h

theorem loadRepository_accepted_cache (w : World) (s : Loader)
    (hl : s.mLocked = false) (he : Qt.isEmpty s.workingDir = false)
    (hr : (w.run s.workingDir "git rev-parse --show-cdup").1 = true) :
    (loadRepository w s).2.mRevCache =
      (loadReferences w (configureRepoDirectory w
        (((s.emit (Event.logInfo "Initializing Git...")).cacheClear).setLocked true)).2).mRevCache := by
  rw [loadRepository_accepted w s hl he hr]
  rfl

theorem processRevision_references (w : World) (s : Loader) (ba : QByteArray) :
    (processRevision w s ba).mRevCache.references = s.mRevCache.references := by
  unfold processRevision
  simp only [processRevisionLoop_eq, Loader.setLocked, Loader.emit]
  rw [(processRevisionBegin_same w s ba).2.2.2]

theorem processRevision_mLocked (w : World) (s : Loader) (ba : QByteArray) :
    (processRevision w s ba).mLocked = false := rfl

theorem processRevision_cache_congr (w : World) (s t : Loader) (ba : QByteArray)
    (hd : s.workingDir = t.workingDir) (hc : s.mRevCache = t.mRevCache) :
    (processRevision w s ba).mRevCache = (processRevision w t ba).mRevCache := by
  have hwip : ∀ a b : Loader, a.workingDir = b.workingDir → a.mRevCache = b.mRevCache →
      (updateWipRevision w a).mRevCache = (updateWipRevision w b).mRevCache := by
    intro a b hab hcab
    cases h : (w.run a.workingDir "git rev-parse --revs-only HEAD").1
    · rw [updateWipRevision_unresolved w a h, updateWipRevision_unresolved w b (hab ▸ h)]
      simp [Loader.emit, Loader.setUntrackedFilesList, hab, hcab]
    · rw [updateWipRevision_resolved w a h, updateWipRevision_resolved w b (hab ▸ h)]
      simp [Loader.emit, Loader.setUntrackedFilesList, Loader.updateWipCommit, hab, hcab]
  have hbegin : (processRevisionBegin w s ba).mRevCache = (processRevisionBegin w t ba).mRevCache := by
    unfold processRevisionBegin
    apply hwip
    · exact hd
    · simp [Loader.cacheConfigure, Loader.emit, hc]
  unfold processRevision
  simp only [processRevisionLoop_eq, Loader.setLocked, Loader.emit, hbegin]

theorem loadCycle_commits (w : World) (s : Loader) (ba : QByteArray)
    (hl : s.mLocked = false) (he : Qt.isEmpty s.workingDir = false) :
    (loadCycle w ba s).mRevCache.commits = ingested w (Qt.splitKeep 0 ba) 1 := by
  unfold loadCycle
  rw [processRevision_commits, (loadRepository_tail w s hl he).2.1]
  rfl

theorem loadRepository_cache_same (w : World) (s t : Loader)
    (hrun : ∀ d d' c : String, w.run d c = w.run d' c)
    (hs : (loadRepository w s).1 = true) (ht : (loadRepository w t).1 = true) :
    (loadRepository w s).2.mRevCache = (loadRepository w t).2.mRevCache := by
  obtain ⟨hl, he, hr⟩ := loadRepository_true_cases w s hs
  obtain ⟨hl', he', hr'⟩ := loadRepository_true_cases w t ht
  rw [loadRepository_accepted_cache w s hl he hr, loadRepository_accepted_cache w t hl' he' hr']
  apply loadReferences_cache_congr
  · intro c; exact hrun _ _ c
  · rw [configureRepoDirectory_mRevCache, configureRepoDirectory_mRevCache]
    rfl

theorem loadCycle_references (w : World) (s t : Loader) (ba : QByteArray)
    (hrun : ∀ d d' c : String, w.run d c = w.run d' c)
    (hs : (loadRepository w s).1 = true) (ht : (loadRepository w t).1 = true) :
    (loadCycle w ba s).mRevCache.references = (loadCycle w ba t).mRevCache.references := by
  unfold loadCycle
  rw [processRevision_references, processRevision_references,
    loadRepository_cache_same w s t hrun hs ht]

/-- C17: when the process runner answers every command the same way wherever and
whenever it is run, and both `loadRepository` calls are accepted, a second complete
load cycle (with the same history batch) leaves the commits, with their order and
sequence indices, and the reference records exactly as the first cycle left them; what
the first cycle leaves does not depend on what the cache held before it; and when the
second cycle resolves the same working directory as the first, the whole cache is the
same after both. -/
theorem loadCycle_idempotent (w : World) (s : Loader) (ba : QByteArray)
    (hrun : ∀ d d' c : String, w.run d c = w.run d' c)
    (h1 : (loadRepository w s).1 = true)
    (h2 : (loadRepository w (loadCycle w ba s)).1 = true) :
    (loadCycle w ba (loadCycle w ba s)).mRevCache.commits =
      (loadCycle w ba s).mRevCache.commits ∧
    (loadCycle w ba (loadCycle w ba s)).mRevCache.references =
      (loadCycle w ba s).mRevCache.references ∧
    (loadCycle w ba s).mRevCache.commits = ingested w (Qt.splitKeep 0 ba) 1 ∧
    (∀ c : RevisionsCache,
      (loadCycle w ba { s with mRevCache := c }).mRevCache = (loadCycle w ba s).mRevCache) ∧
    ((loadRepository w (loadCycle w ba s)).2.workingDir = (loadRepository w s).2.workingDir →
      (loadCycle w ba (loadCycle w ba s)).mRevCache = (loadCycle w ba s).mRevCache) := by
  obtain ⟨hl, he, hr⟩ := loadRepository_true_cases w s h1
  obtain ⟨hl2, he2, hr2⟩ := loadRepository_true_cases w _ h2
  refine ⟨?_, ?_, loadCycle_commits w s ba hl he, ?_, ?_⟩
  · rw [loadCycle_commits w _ ba hl2 he2, loadCycle_commits w s ba hl he]
  · exact loadCycle_references w _ s ba hrun h2 h1
  · intro c
    unfold loadCycle
    rw [loadRepository_cache_irrelevant w s c hl he]
  · intro hdir
    exact processRevision_cache_congr w _ _ ba hdir
      (loadRepository_cache_same w _ s hrun h2 h1)

/-- C17 at a concrete input: two cycles on the sample repository, starting from a
loader with a commit in its cache, with a batch of two valid records and a malformed
one. -/
theorem loadCycle_idempotent_witness :
    (loadRepository sampleWorld { unsetLoader with workingDir := "/tmp" }).1 = true ∧
    (loadRepository sampleWorld
      (loadCycle sampleWorld [1, 2, 3, 0, 4, 5, 6, 0, 7]
        { unsetLoader with workingDir := "/tmp" })).1 = true ∧
    (loadCycle sampleWorld [1, 2, 3, 0, 4, 5, 6, 0, 7]
      (loadCycle sampleWorld [1, 2, 3, 0, 4, 5, 6, 0, 7]
        { unsetLoader with workingDir := "/tmp" })).mRevCache.commits =
      [{ record := [1, 2, 3], orderIdx := 1, mIsValid := true },
       { record := [4, 5, 6], orderIdx := 2, mIsValid := true }] ∧
    (loadCycle sampleWorld [1, 2, 3, 0, 4, 5, 6, 0, 7]
      (loadCycle sampleWorld [1, 2, 3, 0, 4, 5, 6, 0, 7]
        { unsetLoader with workingDir := "/tmp" })).mRevCache.references =
      (loadCycle sampleWorld [1, 2, 3, 0, 4, 5, 6, 0, 7]
        { unsetLoader with workingDir := "/tmp" }).mRevCache.references :=
  ⟨rfl, rfl,
    ((loadCycle_idempotent sampleWorld { unsetLoader with workingDir := "/tmp" }
      [1, 2, 3, 0, 4, 5, 6, 0, 7] (fun _ _ _ => rfl) rfl rfl).1).trans rfl,
    (loadCycle_idempotent sampleWorld { unsetLoader with workingDir := "/tmp" }
      [1, 2, 3, 0, 4, 5, 6, 0, 7] (fun _ _ _ => rfl) rfl rfl).2.1⟩

theorem completed_of_appends {P : Event → Bool} {s s' : Loader} (h : Appends P s s')
    (hP : P Event.signalLoadingFinished = false) :
    completed s'.trace = completed s.trace := by
  obtain ⟨evs, ht, hp⟩ := h
  have h0 : List.count Event.signalLoadingFinished evs = 0 := by
    rw [List.count_eq_zero]
    intro hmem
    have := hp _ hmem
    rw [hP] at this
    exact Bool.false_ne_true this
  simp [completed, ht, List.count_append, h0]

theorem loadRepository_appends (w : World) (s : Loader) :
    Appends Event.isLoadRepositoryEvent s (loadRepository w s).2 := by
  cases hl : s.mLocked
  · cases he : Qt.isEmpty s.workingDir
    · have h3 : Appends Event.isLoadRepositoryEvent s
          (configureRepoDirectory w
            (((s.emit (Event.logInfo "Initializing Git...")).cacheClear).setLocked true)).2 := by
        refine Appends.trans ?_ (Appends.mono ?_ (configureRepoDirectory_appends w _))
        · exact Appends.trans ((Appends.refl _ s).emit (Event.logInfo "Initializing Git...") rfl)
            (Appends.trans (Appends.one Event.cacheClear rfl rfl)
              (Appends.one (Event.setLocked true) rfl rfl))
        · intro e h; cases e <;> simp_all [Event.isRootDiscovery, Event.isLoadRepositoryEvent]
      cases hr : (w.run s.workingDir "git rev-parse --show-cdup").1
      · have h1 : (configureRepoDirectory w
            (((s.emit (Event.logInfo "Initializing Git...")).cacheClear).setLocked true)).1 =
            false := by
          rw [configureRepoDirectory_fst]; exact hr
        unfold loadRepository
        simp only [hl, he, Bool.false_eq_true, if_false]
        rw [if_neg (by simp [h1])]
        exact h3.emit _ rfl
      · rw [loadRepository_accepted w s hl he hr]
        refine Appends.emit (Appends.trans (Appends.trans h3
          (Appends.mono ?_ (loadReferences_appends w _)))
          (Appends.one (Event.requestorRun _ _) rfl rfl))
          (Event.logInfo "... Git init finished") rfl
        intro e h; cases e <;> simp_all [Event.isQueryOrReference, Event.isRun,
          Event.isReferenceMutation, Event.isLoadRepositoryEvent]
    · unfold loadRepository
      simp only [hl, he, Bool.false_eq_true, if_false, if_true]
      exact (Appends.refl _ s).emit _ rfl
  · unfold loadRepository
    simp only [hl, if_true]
    exact (Appends.refl _ s).emit _ rfl

theorem loadRepository_dispatched (w : World) (s : Loader) :
    dispatched (loadRepository w s).2.trace =
      dispatched s.trace + (if (loadRepository w s).1 = true then 1 else 0) := by
  cases hl : s.mLocked
  · cases he : Qt.isEmpty s.workingDir
    · cases hr : (w.run s.workingDir "git rev-parse --show-cdup").1
      · simp [loadRepository, hl, he, hr, Loader.emit, configureRepoDirectory, Loader.run,
          Loader.cacheClear, Loader.setLocked, dispatched, Event.isRequestorRun]
      · have h1 := dispatched_of_appends (configureRepoDirectory_appends w
          (((s.emit (Event.logInfo "Initializing Git...")).cacheClear).setLocked true))
          (fun e he => by cases e <;> simp_all [Event.isRootDiscovery, Event.isRequestorRun])
        have h2 := dispatched_of_appends (loadReferences_appends w (configureRepoDirectory w
          (((s.emit (Event.logInfo "Initializing Git...")).cacheClear).setLocked true)).2)
          isQueryOrReference_not_requestorRun
        have h3 : dispatched
            (((s.emit (Event.logInfo "Initializing Git...")).cacheClear).setLocked true).trace
            = dispatched s.trace := by
          simp [dispatched, Loader.emit, Loader.cacheClear, Loader.setLocked,
            Event.isRequestorRun, List.countP_append]
        rw [loadRepository_accepted w s hl he hr]
        simp only [requestRevisions, Loader.emit, dispatched, List.countP_append] at h1 h2 h3 ⊢
        simp [Event.isRequestorRun]
        omega
    · simp [loadRepository, hl, he, Loader.emit, dispatched, Event.isRequestorRun]
  · simp [loadRepository, hl, Loader.emit, dispatched, Event.isRequestorRun]

theorem loadRepository_mLocked_of_true (w : World) (s : Loader)
    (h : (loadRepository w s).1 = true) : (loadRepository w s).2.mLocked = true := by
  obtain ⟨hl, he, hr⟩ := loadRepository_true_cases w s h
  rw [loadRepository_accepted w s hl he hr]
  show (loadReferences w _).mLocked = true
  rw [(loadReferences_same w _).1, configureRepoDirectory_mLocked]
  rfl

theorem loadRepository_keeps_lock (w : World) (s : Loader) (h : s.mLocked = true) :
    (loadRepository w s).2.mLocked = true := by
  simp [loadRepository, h, Loader.emit]

theorem processRevision_counts (w : World) (s : Loader) (ba : QByteArray) :
    dispatched (processRevision w s ba).trace = dispatched s.trace ∧
    completed (processRevision w s ba).trace = completed s.trace + 1 := by
  have hb := (processRevisionBegin_appends w s ba).spec
  have htr : (processRevision w s ba).trace = s.trace ++
      (newEvents s (processRevisionBegin w s ba) ++
        (ingested w (Qt.splitKeep 0 ba) 1).map Event.insertCommitInfo ++
        [Event.setLocked false, Event.signalLoadingFinished]) := by
    unfold processRevision
    simp only [processRevisionLoop_eq, Loader.setLocked, Loader.emit]
    rw [hb.1]
    simp
  have hd0 : List.countP Event.isRequestorRun (newEvents s (processRevisionBegin w s ba)) = 0 := by
    rw [List.countP_eq_zero]
    intro e he
    have := hb.2 e he
    cases e <;> simp_all [Event.isBeginEvent, Event.isRequestorRun]
  have hd1 : List.countP Event.isRequestorRun
      ((ingested w (Qt.splitKeep 0 ba) 1).map Event.insertCommitInfo) = 0 := by
    rw [List.countP_eq_zero]
    intro e he
    obtain ⟨c, -, rfl⟩ := List.mem_map.mp he
    simp [Event.isRequestorRun]
  have hc0 : List.count Event.signalLoadingFinished
      (newEvents s (processRevisionBegin w s ba)) = 0 := by
    rw [List.count_eq_zero]
    intro he
    have := hb.2 _ he
    simp [Event.isBeginEvent] at this
  have hc1 : List.count Event.signalLoadingFinished
      ((ingested w (Qt.splitKeep 0 ba) 1).map Event.insertCommitInfo) = 0 := by
    rw [List.count_eq_zero]
    intro he
    obtain ⟨c, -, hc⟩ := List.mem_map.mp he
    exact Event.noConfusion hc
  constructor
  · rw [htr]
    simp only [dispatched, List.countP_append, hd0, hd1]
    simp [Event.isRequestorRun]
  · rw [htr]
    simp only [completed, List.count_append, hc0, hc1]
    simp

theorem step_atMostOneAwaited (st : Step) (s s' : Loader) (hinv : atMostOneAwaited s)
    (h : st.apply s = some s') : atMostOneAwaited s' := by
  obtain ⟨hle, hp, hlock⟩ := hinv
  unfold pending at hp hlock
  cases st with
  | loadRepository w =>
    simp only [Step.apply, Option.some.injEq] at h
    subst h
    have hc := completed_of_appends (loadRepository_appends w s) rfl
    have hd := loadRepository_dispatched w s
    unfold atMostOneAwaited pending
    rw [hc, hd]
    by_cases hacc : (loadRepository w s).1 = true
    · have hl := (loadRepository_true_cases w s hacc).1
      have hlocked := loadRepository_mLocked_of_true w s hacc
      have hzero : ¬ 0 < dispatched s.trace - completed s.trace := by
        intro hpos
        have := hlock hpos
        rw [hl] at this
        exact Bool.false_ne_true this
      rw [if_pos hacc]
      refine ⟨by omega, by omega, fun _ => hlocked⟩
    · rw [if_neg hacc]
      refine ⟨by omega, by omega, fun hpos => ?_⟩
      exact loadRepository_keeps_lock w s (hlock (by omega))
  | cancelAll =>
    simp only [Step.apply, Option.some.injEq] at h
    subst h
    have hd : dispatched (cancelAll s).trace = dispatched s.trace := by
      simp [cancelAll, Loader.emit, dispatched, List.countP_append, Event.isRequestorRun]
    have hc : completed (cancelAll s).trace = completed s.trace := by
      simp [cancelAll, Loader.emit, completed, List.count_append]
    have hl : (cancelAll s).mLocked = s.mLocked := rfl
    unfold atMostOneAwaited pending
    rw [hd, hc, hl]
    exact ⟨hle, hp, hlock⟩
  | updateWipRevision w =>
    simp only [Step.apply, Option.some.injEq] at h
    subst h
    have hc := completed_of_appends (updateWipRevision_appends w s) rfl
    have hd := dispatched_of_appends (updateWipRevision_appends w s)
      (fun e he => by cases e <;> simp_all [Event.isBeginEvent, Event.isRequestorRun])
    unfold atMostOneAwaited pending
    rw [hc, hd, (updateWipRevision_same w s).1]
    exact ⟨hle, hp, hlock⟩
  | completion w ba =>
    simp only [Step.apply] at h
    by_cases hpos : 0 < pending s
    · rw [if_pos hpos] at h
      simp only [Option.some.injEq] at h
      subst h
      obtain ⟨hd, hc⟩ := processRevision_counts w s ba
      unfold pending at hpos
      unfold atMostOneAwaited pending
      rw [hd, hc]
      refine ⟨by omega, by omega, fun hq => ?_⟩
      omega
    · rw [if_neg hpos] at h
      exact Option.noConfusion h

theorem runSteps_atMostOneAwaited :
    ∀ (steps : List Step) (s s' : Loader), atMostOneAwaited s →
      runSteps steps s = some s' → atMostOneAwaited s' := by
  intro steps
  induction steps with
  | nil =>
    intro s s' hinv h
    simp only [runSteps, Option.some.injEq] at h
    subst h; exact hinv
  | cons st rest ih =>
    intro s s' hinv h
    simp only [runSteps] at h
    cases hst : st.apply s with
    | none => rw [hst] at h; exact Option.noConfusion h
    | some t =>
      rw [hst] at h
      exact ih t s' (step_atMostOneAwaited st s t hinv hst) h

theorem runSteps_append :
    ∀ (pre post : List Step) (s s' : Loader), runSteps (pre ++ post) s = some s' →
      ∃ t : Loader, runSteps pre s = some t ∧ runSteps post t = some s' := by
  intro pre
  induction pre with
  | nil => intro post s s' h; exact ⟨s, rfl, h⟩
  | cons st rest ih =>
    intro post s s' h
    simp only [List.cons_append, runSteps] at h ⊢
    cases hst : st.apply s with
    | none => rw [hst] at h; exact Option.noConfusion h
    | some t =>
      rw [hst] at h
      exact ih post t s' h

/-- C18: starting from a loader with no stream awaiting completion, after every
sequence of `loadRepository`, `cancelAll`, `updateWipRevision` and completion steps (a
completion being possible only while a dispatched stream awaits it), and after every
initial part of such a sequence, at most one dispatched stream awaits its completion,
and the lock is held whenever one does. -/
theorem runSteps_at_most_one_awaited (s0 : Loader)
    (hidle : dispatched s0.trace = completed s0.trace)
    (steps : List Step) (s : Loader) (hrun : runSteps steps s0 = some s) :
    pending s ≤ 1 ∧ (0 < pending s → s.mLocked = true) ∧
    completed s.trace ≤ dispatched s.trace ∧
    ∀ pre post : List Step, steps = pre ++ post →
      ∃ t : Loader, runSteps pre s0 = some t ∧ pending t ≤ 1 ∧
        (0 < pending t → t.mLocked = true) := by
  have h0 : atMostOneAwaited s0 := by
    unfold atMostOneAwaited pending
    rw [hidle]
    refine ⟨Nat.le_refl _, by omega, fun h => ?_⟩
    omega
  obtain ⟨h1, h2, h3⟩ := runSteps_atMostOneAwaited steps s0 s h0 hrun
  refine ⟨h2, h3, h1, ?_⟩
  intro pre post hsplit
  rw [hsplit] at hrun
  obtain ⟨t, ht, -⟩ := runSteps_append pre post s0 s hrun
  obtain ⟨-, h5, h6⟩ := runSteps_atMostOneAwaited pre s0 t h0 ht
  exact ⟨t, ht, h5, h6⟩

/-- C18 at a concrete input: a load, a cancellation, a rejected second load and a
working-tree refresh, after which one stream is awaited and the lock is held. -/
theorem runSteps_at_most_one_awaited_witness :
    dispatched idleLoader.trace = completed idleLoader.trace ∧
    runSteps [Step.loadRepository sampleWorld, Step.cancelAll,
        Step.loadRepository sampleWorld, Step.updateWipRevision sampleWorld] idleLoader =
      some (updateWipRevision sampleWorld (loadRepository sampleWorld
        (cancelAll (loadRepository sampleWorld idleLoader).2)).2) ∧
    pending (updateWipRevision sampleWorld (loadRepository sampleWorld
        (cancelAll (loadRepository sampleWorld idleLoader).2)).2) = 1 ∧
    (updateWipRevision sampleWorld (loadRepository sampleWorld
        (cancelAll (loadRepository sampleWorld idleLoader).2)).2).mLocked = true :=
  ⟨rfl, rfl, by decide,
    (runSteps_at_most_one_awaited idleLoader rfl
      [Step.loadRepository sampleWorld, Step.cancelAll,
        Step.loadRepository sampleWorld, Step.updateWipRevision sampleWorld]
      (updateWipRevision sampleWorld (loadRepository sampleWorld
        (cancelAll (loadRepository sampleWorld idleLoader).2)).2) rfl).2.1 (by decide)⟩

theorem updateWipRevision_appends_wip (w : World) (s : Loader) :
    Appends Event.isWipEvent s (updateWipRevision w s) := by
  cases h : (w.run s.workingDir "git rev-parse --revs-only HEAD").1
  · rw [updateWipRevision_unresolved w s h]
    exact (((Appends.refl _ s).emit _ rfl).setUntrackedFilesList _ rfl).emit _ rfl
  · rw [updateWipRevision_resolved w s h]
    exact (((((Appends.refl _ s).emit _ rfl).setUntrackedFilesList _ rfl).emit _ rfl).emit _
      rfl).emit _ rfl |>.updateWipCommit _ _ _ rfl

/-- C19: a held lock stays held through `loadRepository`, `cancelAll` and
`updateWipRevision`, none of which ever writes false to the lock, on any path;
`cancelAll` changes neither the lock nor the cache nor the working directory, its only
effect being the cancellation signal; `processRevision` is the operation that releases
the lock. -/
theorem lock_released_only_by_processRevision (w : World) (s : Loader) (ba : QByteArray) :
    (s.mLocked = true → (loadRepository w s).2.mLocked = true) ∧
    Event.setLocked false ∉ newEvents s (loadRepository w s).2 ∧
    (cancelAll s).mLocked = s.mLocked ∧
    (cancelAll s).mRevCache = s.mRevCache ∧
    (cancelAll s).workingDir = s.workingDir ∧
    newEvents s (cancelAll s) = [Event.cancelAllProcesses] ∧
    (updateWipRevision w s).mLocked = s.mLocked ∧
    Event.setLocked false ∉ newEvents s (updateWipRevision w s) ∧
    (processRevision w s ba).mLocked = false ∧
    Event.setLocked false ∈ newEvents s (processRevision w s ba) := by
  refine ⟨loadRepository_keeps_lock w s, ?_, rfl, rfl, rfl, ?_,
    (updateWipRevision_same w s).1, ?_, rfl, ?_⟩
  · intro hmem
    have := (loadRepository_appends w s).spec.2 _ hmem
    simp [Event.isLoadRepositoryEvent] at this
  · apply newEvents_of_trace
    rfl
  · intro hmem
    have := (updateWipRevision_appends_wip w s).spec.2 _ hmem
    simp [Event.isWipEvent] at this
  · rw [processRevision_trace]
    simp

/-- C19 at a concrete input: a busy loader stays locked through a `loadRepository`
call. -/
theorem lock_released_only_by_processRevision_witness :
    busyLoader.mLocked = true ∧
    (loadRepository sampleWorld busyLoader).2.mLocked = true ∧
    (cancelAll busyLoader).mLocked = true ∧
    (updateWipRevision sampleWorld busyLoader).mLocked = true ∧
    (processRevision sampleWorld busyLoader []).mLocked = false :=
  ⟨rfl, (lock_released_only_by_processRevision sampleWorld busyLoader []).1 rfl,
    (lock_released_only_by_processRevision sampleWorld busyLoader []).2.2.1,
    (lock_released_only_by_processRevision sampleWorld busyLoader []).2.2.2.2.2.2.1,
    (lock_released_only_by_processRevision sampleWorld busyLoader []).2.2.2.2.2.2.2.2.1⟩

theorem removeLast_append_newline (id : String) : Qt.removeLast (id ++ "\n") = id := by
  cases id with
  | mk data =>
    have h : (String.mk data ++ "\n").data = data ++ ['\n'] := rfl
    simp [Qt.removeLast, h]

/-- C10 (as amended): when HEAD resolution succeeds and prints the HEAD commit id
followed by a newline, then, if the reference listing succeeds, whatever the reference
list is, the last effect of `loadReferences` stores under the HEAD commit id a record
with the current-branch flag, and that is the record the cache then has for the id;
if the reference listing fails, `loadReferences` does nothing after the listing and
the cache is left as it was. -/
theorem loadReferences_marks_head_commit (w : World) (s : Loader) (id : String)
    (hhead : w.run s.workingDir "git rev-parse HEAD" = (true, id ++ "\n")) :
    ((w.run s.workingDir "git show-ref -d").1 = true →
      ∃ r : Reference,
        (loadReferences w s).mRevCache.findReference id = some r ∧
        (loadReferences w s).mRevCache.getReference id = r ∧
        r.type &&& w.CUR_BRANCH = w.CUR_BRANCH ∧
        (newEvents s (loadReferences w s)).getLast? = some (Event.insertReference id r)) ∧
    ((w.run s.workingDir "git show-ref -d").1 = false →
      loadReferences w s = s.emit (Event.run s.workingDir "git show-ref -d") ∧
      (loadReferences w s).mRevCache = s.mRevCache ∧
      newEvents s (loadReferences w s) = [Event.run s.workingDir "git show-ref -d"]) := by
  have hid : headSha w s.workingDir = id := by
    unfold headSha
    rw [hhead]
    exact removeLast_append_newline id
  constructor
  · intro hlist
    obtain ⟨evs, ht, -⟩ := loadReferencesLoop_appends w (headSha w s.workingDir)
      (Qt.splitSkipEmpty (w.run s.workingDir "git show-ref -d").2 '\n') ""
      ((s.emit (Event.run s.workingDir "git show-ref -d")).emit
        (Event.run s.workingDir "git rev-parse HEAD"))
    have ht' : (loadReferencesLoop w (headSha w s.workingDir)
        (Qt.splitSkipEmpty (w.run s.workingDir "git show-ref -d").2 '\n') ""
        ((s.emit (Event.run s.workingDir "git show-ref -d")).emit
          (Event.run s.workingDir "git rev-parse HEAD"))).trace =
        s.trace ++ (Event.run s.workingDir "git show-ref -d" ::
          Event.run s.workingDir "git rev-parse HEAD" :: evs) := by
      rw [ht]; simp [Loader.emit]
    rw [loadReferences_listed w s hlist, newEvents_insertReference ht', hid]
    refine ⟨_, findReference_insertReference _ _ _, ?_, or_and_mask _ _,
      List.getLast?_concat _⟩
    rw [RevisionsCache.getReference]
    have hf := findReference_insertReference
    simp only [Loader.insertReference] at *
    rw [hf]
    rfl
  · intro hlist
    have h : loadReferences w s = s.emit (Event.run s.workingDir "git show-ref -d") := by
      unfold loadReferences
      simp only [Loader.run, hlist]
      rfl
    refine ⟨h, ?_, ?_⟩
    · rw [h]; rfl
    · rw [h]
      apply newEvents_of_trace
      rfl

/-- C10 at a concrete input: the sample repository, whose HEAD is detached: no listed
reference has the HEAD commit id, and the record under it is flagged as current. -/
theorem loadReferences_marks_head_commit_witness :
    sampleWorld.run idleLoader.workingDir "git rev-parse HEAD" =
      (true, "dddddddddddddddddddddddddddddddddddddddd" ++ "\n") ∧
    (sampleWorld.run idleLoader.workingDir "git show-ref -d").1 = true ∧
    (∀ line ∈ Qt.splitSkipEmpty (sampleWorld.run idleLoader.workingDir "git show-ref -d").2 '\n',
      Qt.left line 40 ≠ "dddddddddddddddddddddddddddddddddddddddd") ∧
    ∃ r : Reference,
      (loadReferences sampleWorld idleLoader).mRevCache.findReference
        "dddddddddddddddddddddddddddddddddddddddd" = some r ∧
      (loadReferences sampleWorld idleLoader).mRevCache.getReference
        "dddddddddddddddddddddddddddddddddddddddd" = r ∧
      r.type &&& sampleWorld.CUR_BRANCH = sampleWorld.CUR_BRANCH ∧
      (newEvents idleLoader (loadReferences sampleWorld idleLoader)).getLast? =
        some (Event.insertReference "dddddddddddddddddddddddddddddddddddddddd" r) :=
  ⟨rfl, rfl, by decide,
    (loadReferences_marks_head_commit sampleWorld idleLoader
      "dddddddddddddddddddddddddddddddddddddddd" rfl).1 rfl⟩

/-- C10 as stated fails: when the reference listing fails while HEAD resolves to a
commit, `loadReferences` stops after the listing, and the cache has no record under
the HEAD commit id, so no record with the current-branch flag. -/
theorem loadReferences_failed_listing_marks_nothing :
    noListingWorld.run idleLoader.workingDir "git rev-parse HEAD" =
      (true, "dddddddddddddddddddddddddddddddddddddddd\n") ∧
    (noListingWorld.run idleLoader.workingDir "git show-ref -d").1 = false ∧
    newEvents idleLoader (loadReferences noListingWorld idleLoader) =
      [Event.run "/home/user/project" "git show-ref -d"] ∧
    (loadReferences noListingWorld idleLoader).mRevCache.findReference
      "dddddddddddddddddddddddddddddddddddddddd" = none ∧
    ((loadReferences noListingWorld idleLoader).mRevCache.getReference
      "dddddddddddddddddddddddddddddddddddddddd").type &&& noListingWorld.CUR_BRANCH ≠
        noListingWorld.CUR_BRANCH :=
  ⟨rfl, rfl, rfl, rfl, by decide⟩

theorem processRevisionBegin_events (w : World) (s : Loader) (ba : QByteArray) :
    processRevisionBegin w s ba = updateWipRevision w
      ((s.cacheConfigure (ba.count 0 + 1)).emit Event.signalLoadingStarted) := by
  unfold processRevisionBegin
  simp only [splitKeep_length 0 ba]

/-- C20 (as amended): the effects of `processRevision` come in this order: the expected
total is given to the cache, equal to the number of NUL-separated records of the batch
(one more than its NUL bytes); loading-started is emitted; the untracked files are
listed and stored; HEAD is resolved; when HEAD resolves, the two diff probes run and the
working-tree pseudo-commit is written with the trimmed HEAD output as parent, the
payloads of the probes that succeeded and the untracked files, and when HEAD does not
resolve no pseudo-commit is written and the cache keeps the one it had; the commits
are inserted; the lock is released; loading-finished is emitted.  The expected total
is already in the cache when the insertion loop starts, and no commit is inserted
before. -/
theorem processRevision_effects_in_order (w : World) (s : Loader) (ba : QByteArray) :
    newEvents s (processRevision w s ba) =
      [Event.cacheConfigure (ba.count 0 + 1), Event.signalLoadingStarted,
        Event.run s.workingDir (untrackedFilesCmd w s.workingDir),
        Event.setUntrackedFilesList
          (Qt.splitSkipEmpty (w.run s.workingDir (untrackedFilesCmd w s.workingDir)).2 '\n'),
        Event.run s.workingDir "git rev-parse --revs-only HEAD"] ++
      (if (w.run s.workingDir "git rev-parse --revs-only HEAD").1 = true then
        [Event.run s.workingDir ("git diff-index " ++
            Qt.trimmed (w.run s.workingDir "git rev-parse --revs-only HEAD").2),
          Event.run s.workingDir ("git diff-index --cached " ++
            Qt.trimmed (w.run s.workingDir "git rev-parse --revs-only HEAD").2),
          Event.updateWipCommit
            (Qt.trimmed (w.run s.workingDir "git rev-parse --revs-only HEAD").2)
            (if (w.run s.workingDir ("git diff-index " ++
                Qt.trimmed (w.run s.workingDir "git rev-parse --revs-only HEAD").2)).1
              then (w.run s.workingDir ("git diff-index " ++
                Qt.trimmed (w.run s.workingDir "git rev-parse --revs-only HEAD").2)).2
              else "")
            (if (w.run s.workingDir ("git diff-index --cached " ++
                Qt.trimmed (w.run s.workingDir "git rev-parse --revs-only HEAD").2)).1
              then (w.run s.workingDir ("git diff-index --cached " ++
                Qt.trimmed (w.run s.workingDir "git rev-parse --revs-only HEAD").2)).2
              else "")]
      else []) ++
      (ingested w (Qt.splitKeep 0 ba) 1).map Event.insertCommitInfo ++
      [Event.setLocked false, Event.signalLoadingFinished] ∧
    (processRevisionBegin w s ba).mRevCache.wipCommit =
      (if (w.run s.workingDir "git rev-parse --revs-only HEAD").1 = true then
        some
          { parentSha := Qt.trimmed (w.run s.workingDir "git rev-parse --revs-only HEAD").2,
            diffIndex :=
              if (w.run s.workingDir ("git diff-index " ++
                  Qt.trimmed (w.run s.workingDir "git rev-parse --revs-only HEAD").2)).1
                then (w.run s.workingDir ("git diff-index " ++
                  Qt.trimmed (w.run s.workingDir "git rev-parse --revs-only HEAD").2)).2
                else "",
            diffIndexCached :=
              if (w.run s.workingDir ("git diff-index --cached " ++
                  Qt.trimmed (w.run s.workingDir "git rev-parse --revs-only HEAD").2)).1
                then (w.run s.workingDir ("git diff-index --cached " ++
                  Qt.trimmed (w.run s.workingDir "git rev-parse --revs-only HEAD").2)).2
                else "",
            untrackedFiles :=
              Qt.splitSkipEmpty (w.run s.workingDir (untrackedFilesCmd w s.workingDir)).2 '\n' }
      else s.mRevCache.wipCommit) ∧
    (Qt.splitKeep 0 ba).length = ba.count 0 + 1 ∧
    (processRevisionBegin w s ba).mRevCache.totalCommits = ba.count 0 + 1 ∧
    (processRevisionBegin w s ba).mRevCache.commits = s.mRevCache.commits ∧
    (processRevision w s ba).mRevCache.totalCommits = ba.count 0 + 1 := by
  have hlen := splitKeep_length 0 ba
  have hbegin := processRevisionBegin_events w s ba
  have htotal : ∀ t : Loader, (updateWipRevision w t).mRevCache.totalCommits =
      t.mRevCache.totalCommits := by
    intro t
    cases h : (w.run t.workingDir "git rev-parse --revs-only HEAD").1
    · rw [updateWipRevision_unresolved w t h]; rfl
    · rw [updateWipRevision_resolved w t h]; rfl
  have hbt : (processRevisionBegin w s ba).mRevCache.totalCommits = ba.count 0 + 1 := by
    rw [hbegin, htotal]; rfl
  refine ⟨?_, ?_, hlen, hbt, (processRevisionBegin_same w s ba).2.2.1, ?_⟩
  · rw [processRevision_trace, hbegin]
    cases h : (w.run s.workingDir "git rev-parse --revs-only HEAD").1
    · have hb := updateWipRevision_unresolved w
        ((s.cacheConfigure (ba.count 0 + 1)).emit Event.signalLoadingStarted) h
      rw [hb]
      congr 2
      apply newEvents_of_trace
      simp [Loader.cacheConfigure, Loader.emit, Loader.setUntrackedFilesList]
    · have hb := updateWipRevision_resolved w
        ((s.cacheConfigure (ba.count 0 + 1)).emit Event.signalLoadingStarted) h
      rw [hb]
      congr 2
      apply newEvents_of_trace
      simp [Loader.cacheConfigure, Loader.emit, Loader.setUntrackedFilesList,
        Loader.updateWipCommit]
  · rw [hbegin]
    cases h : (w.run s.workingDir "git rev-parse --revs-only HEAD").1
    · have hb := updateWipRevision_unresolved w
        ((s.cacheConfigure (ba.count 0 + 1)).emit Event.signalLoadingStarted) h
      rw [hb]
      rfl
    · have hb := updateWipRevision_resolved w
        ((s.cacheConfigure (ba.count 0 + 1)).emit Event.signalLoadingStarted) h
      rw [hb]
      rfl
  · unfold processRevision
    simp only [processRevisionLoop_eq, Loader.setLocked, Loader.emit]
    exact hbt

/-- C20 at concrete inputs: a batch of two valid records in a working tree with two
untracked files and a resolved HEAD, where the pseudo-commit is written between the
loading-started signal and the first commit. -/
theorem processRevision_effects_in_order_witness :
    newEvents idleLoader (processRevision untrackedWorld idleLoader [1, 2, 3, 0, 4, 5, 6]) =
      [Event.cacheConfigure 2, Event.signalLoadingStarted,
        Event.run "/home/user/project"
          "git ls-files --others --exclude-per-directory=$.gitignore$",
        Event.setUntrackedFilesList ["a.txt", "b/c.txt"],
        Event.run "/home/user/project" "git rev-parse --revs-only HEAD",
        Event.run "/home/user/project"
          "git diff-index dddddddddddddddddddddddddddddddddddddddd",
        Event.run "/home/user/project"
          "git diff-index --cached dddddddddddddddddddddddddddddddddddddddd",
        Event.updateWipCommit "dddddddddddddddddddddddddddddddddddddddd" "" "",
        Event.insertCommitInfo { record := [1, 2, 3], orderIdx := 1, mIsValid := true },
        Event.insertCommitInfo { record := [4, 5, 6], orderIdx := 2, mIsValid := true },
        Event.setLocked false, Event.signalLoadingFinished] :=
  (processRevision_effects_in_order untrackedWorld idleLoader [1, 2, 3, 0, 4, 5, 6]).1.trans
    (by decide)

/-- C20 as stated fails: when HEAD resolution fails, `processRevision` injects no
pseudo-commit between the loading-started signal and the commits: no effect of the
call writes the pseudo-commit and the cache has none afterwards. -/
theorem processRevision_without_head_no_pseudo_commit :
    (noHeadWorld.run idleLoader.workingDir "git rev-parse --revs-only HEAD").1 = false ∧
    newEvents idleLoader (processRevision noHeadWorld idleLoader [1, 2, 3]) =
      [Event.cacheConfigure 1, Event.signalLoadingStarted,
        Event.run "/home/user/project"
          "git ls-files --others --exclude-per-directory=$.gitignore$",
        Event.setUntrackedFilesList ["a.txt"],
        Event.run "/home/user/project" "git rev-parse --revs-only HEAD",
        Event.insertCommitInfo { record := [1, 2, 3], orderIdx := 1, mIsValid := true },
        Event.setLocked false, Event.signalLoadingFinished] ∧
    (∀ a b c : String, Event.updateWipCommit a b c ∉
      newEvents idleLoader (processRevision noHeadWorld idleLoader [1, 2, 3])) ∧
    (processRevision noHeadWorld idleLoader [1, 2, 3]).mRevCache.wipCommit = none := by
  have he : newEvents idleLoader (processRevision noHeadWorld idleLoader [1, 2, 3]) =
      [Event.cacheConfigure 1, Event.signalLoadingStarted,
        Event.run "/home/user/project"
          "git ls-files --others --exclude-per-directory=$.gitignore$",
        Event.setUntrackedFilesList ["a.txt"],
        Event.run "/home/user/project" "git rev-parse --revs-only HEAD",
        Event.insertCommitInfo { record := [1, 2, 3], orderIdx := 1, mIsValid := true },
        Event.setLocked false, Event.signalLoadingFinished] := by decide
  refine ⟨rfl, he, ?_, by decide⟩
  intro a b c
  rw [he]
  simp

/-! ## The lines of the reference list, the untracked files and the failed HEAD -/

theorem loadReferencesLoop_append (w : World) (head : String) :
    ∀ (pre post : List String) (prev : String) (s : Loader),
      loadReferencesLoop w head (pre ++ post) prev s =
        loadReferencesLoop w head post (lastSha prev pre) (loadReferencesLoop w head pre prev s) := by
  intro pre
  induction pre with
  | nil => intro post prev s; rfl
  | cons line rest ih =>
    intro post prev s
    simp only [List.cons_append, loadReferencesLoop, lastSha]
    exact ih post _ _

theorem loadReferencesLoop_one (w : World) (head line prev : String) (s : Loader) :
    loadReferencesLoop w head [line] prev s =
      if (isDereferencedTag (Qt.mid line 41) && !Qt.isEmpty prev) = true then
        (s.insertReference (Qt.left line 40)
          (w.configure (s.mRevCache.getReference (Qt.left line 40)) (Qt.mid line 41)
            (decide (head = Qt.left line 40)) prev)).removeReference prev
      else
        s.insertReference (Qt.left line 40)
          (w.configure (s.mRevCache.getReference (Qt.left line 40)) (Qt.mid line 41)
            (decide (head = Qt.left line 40)) prev) := by
  simp only [loadReferencesLoop, isDereferencedTag]

theorem find_cons_key_ne (k : String) (kv : String × Reference)
    (l : List (String × Reference)) (h : kv.1 ≠ k) :
    (kv :: l).find? (fun kv => kv.1 == k) = l.find? (fun kv => kv.1 == k) :=
  List.find?_cons_of_neg l (by simpa using h)

theorem find_cons_key_eq (k : String) (kv : String × Reference)
    (l : List (String × Reference)) (h : kv.1 = k) :
    (kv :: l).find? (fun kv => kv.1 == k) = some kv :=
  List.find?_cons_of_pos l (by simpa using h)

theorem findReference_setKey_ne (sha k : String) (ref : Reference)
    (l : List (String × Reference)) (h : k ≠ sha) :
    (RevisionsCache.setKey sha ref l).find? (fun kv => kv.1 == k) =
      l.find? (fun kv => kv.1 == k) := by
  have h' : sha ≠ k := fun e => h e.symm
  induction l with
  | nil =>
    rw [RevisionsCache.setKey]
    exact find_cons_key_ne k (sha, ref) [] h'
  | cons kv rest ih =>
    rw [RevisionsCache.setKey]
    by_cases hk : kv.1 = sha
    · have h1 : kv.1 ≠ k := fun e => h (e.symm.trans hk)
      have hb : (kv.1 == sha) = true := by simpa using hk
      rw [if_pos hb, find_cons_key_ne k (sha, ref) rest h', find_cons_key_ne k kv rest h1]
    · have hb : ¬ (kv.1 == sha) = true := by simpa using hk
      rw [if_neg hb]
      by_cases hkk : kv.1 = k
      · rw [find_cons_key_eq k kv _ hkk, find_cons_key_eq k kv _ hkk]
      · rw [find_cons_key_ne k kv _ hkk, find_cons_key_ne k kv _ hkk, ih]

theorem findReference_insert_ne (c : RevisionsCache) (sha k : String) (ref : Reference)
    (h : k ≠ sha) : (c.insertReference sha ref).findReference k = c.findReference k := by
  simp only [RevisionsCache.findReference, RevisionsCache.insertReference]
  rw [findReference_setKey_ne sha k ref c.references h]

theorem find_filter_same (k : String) (l : List (String × Reference)) :
    (l.filter (fun kv => !(kv.1 == k))).find? (fun kv => kv.1 == k) = none := by
  rw [List.find?_eq_none]
  intro kv hkv
  have := (List.mem_filter.mp hkv).2
  simpa using this

theorem find_filter_ne (sha k : String) (l : List (String × Reference)) (h : k ≠ sha) :
    (l.filter (fun kv => !(kv.1 == sha))).find? (fun kv => kv.1 == k) =
      l.find? (fun kv => kv.1 == k) := by
  induction l with
  | nil => rfl
  | cons kv rest ih =>
    by_cases hk : kv.1 = sha
    · have h1 : kv.1 ≠ k := fun e => h (e.symm.trans hk)
      have hb : (!(kv.1 == sha)) = false := by simpa using hk
      rw [List.filter_cons_of_neg (p := fun kv : String × Reference => !(kv.1 == sha))
        (by simp [hb]), find_cons_key_ne k kv rest h1, ih]
    · have hb : (!(kv.1 == sha)) = true := by simpa using hk
      rw [List.filter_cons_of_pos (p := fun kv : String × Reference => !(kv.1 == sha)) hb]
      by_cases hkk : kv.1 = k
      · rw [find_cons_key_eq k kv _ hkk, find_cons_key_eq k kv _ hkk]
      · rw [find_cons_key_ne k kv _ hkk, find_cons_key_ne k kv _ hkk, ih]

theorem findReference_remove_same (c : RevisionsCache) (k : String) :
    (c.removeReference k).findReference k = none := by
  simp only [RevisionsCache.findReference, RevisionsCache.removeReference]
  rw [find_filter_same]
  rfl

theorem findReference_remove_ne (c : RevisionsCache) (sha k : String) (h : k ≠ sha) :
    (c.removeReference sha).findReference k = c.findReference k := by
  simp only [RevisionsCache.findReference, RevisionsCache.removeReference]
  rw [find_filter_ne sha k c.references h]

theorem findReference_remove_none (c : RevisionsCache) (sha k : String)
    (h : c.findReference k = none) : (c.removeReference sha).findReference k = none := by
  by_cases hk : k = sha
  · rw [hk]; exact findReference_remove_same c sha
  · rw [findReference_remove_ne c sha k hk]; exact h

theorem findReference_insert_same (c : RevisionsCache) (sha : String) (ref : Reference) :
    (c.insertReference sha ref).findReference sha = some ref := by
  simp [RevisionsCache.findReference, RevisionsCache.insertReference, find_setKey]

theorem findReference_insert_isSome (c : RevisionsCache) (sha k : String) (ref : Reference)
    (h : (c.findReference k).isSome = true) :
    ((c.insertReference sha ref).findReference k).isSome = true := by
  by_cases hk : k = sha
  · rw [hk, findReference_insert_same]; rfl
  · rw [findReference_insert_ne c sha k ref hk]; exact h

theorem loadReferencesLoop_absent (w : World) (head k : String) :
    ∀ (lines : List String) (prev : String) (s : Loader),
      s.mRevCache.findReference k = none → (∀ l ∈ lines, Qt.left l 40 ≠ k) →
      (loadReferencesLoop w head lines prev s).mRevCache.findReference k = none := by
  intro lines
  induction lines with
  | nil => intro prev s h _; exact h
  | cons line rest ih =>
    intro prev s h hne
    have hline : k ≠ Qt.left line 40 := fun e => hne line (by simp) e.symm
    have hrest : ∀ l ∈ rest, Qt.left l 40 ≠ k := fun l hl => hne l (by simp [hl])
    simp only [loadReferencesLoop]
    apply ih _ _ _ hrest
    split
    · apply findReference_remove_none
      show (s.mRevCache.insertReference _ _).findReference k = none
      rw [findReference_insert_ne _ _ _ _ hline]; exact h
    · show (s.mRevCache.insertReference _ _).findReference k = none
      rw [findReference_insert_ne _ _ _ _ hline]; exact h

theorem loadReferencesLoop_present (w : World) (head k : String) :
    ∀ (lines : List String) (prev : String) (s : Loader),
      (s.mRevCache.findReference k).isSome = true → keepsRecord k prev lines = true →
      ((loadReferencesLoop w head lines prev s).mRevCache.findReference k).isSome = true := by
  intro lines
  induction lines with
  | nil => intro prev s h _; exact h
  | cons line rest ih =>
    intro prev s h hkeep
    simp only [keepsRecord, Bool.and_eq_true, Bool.not_eq_true'] at hkeep
    obtain ⟨hnot, hrest⟩ := hkeep
    simp only [loadReferencesLoop]
    apply ih _ _ _ hrest
    have hins := findReference_insert_isSome s.mRevCache (Qt.left line 40) k
      (w.configure (s.mRevCache.getReference (Qt.left line 40)) (Qt.mid line 41)
        (decide (head = Qt.left line 40)) prev) h
    split
    · rename_i hcond
      have hpk : k ≠ prev := by
        intro e
        rw [← e] at hcond
        simp only [isDereferencedTag] at hnot
        rw [← e] at hnot
        simp only [Bool.and_eq_true, Bool.not_eq_true'] at hcond
        simp [hcond.1.1, hcond.1.2, hcond.2] at hnot
      show ((s.mRevCache.insertReference _ _).removeReference prev |>.findReference k).isSome = true
      rw [findReference_remove_ne _ _ _ hpk]
      exact hins
    · exact hins

theorem loadReferencesLoop_same_record (w : World) (head k : String) (r : Reference) :
    ∀ (lines : List String) (prev : String) (s : Loader),
      s.mRevCache.findReference k = some r → (∀ l ∈ lines, Qt.left l 40 ≠ k) →
      keepsRecord k prev lines = true →
      (loadReferencesLoop w head lines prev s).mRevCache.findReference k = some r := by
  intro lines
  induction lines with
  | nil => intro prev s h _ _; exact h
  | cons line rest ih =>
    intro prev s h hne hkeep
    have hline : k ≠ Qt.left line 40 := fun e => hne line (by simp) e.symm
    have hrest' : ∀ l ∈ rest, Qt.left l 40 ≠ k := fun l hl => hne l (by simp [hl])
    simp only [keepsRecord, Bool.and_eq_true, Bool.not_eq_true'] at hkeep
    obtain ⟨hnot, hrest⟩ := hkeep
    simp only [loadReferencesLoop]
    apply ih _ _ _ hrest' hrest
    have hins : (s.mRevCache.insertReference (Qt.left line 40)
        (w.configure (s.mRevCache.getReference (Qt.left line 40)) (Qt.mid line 41)
          (decide (head = Qt.left line 40)) prev)).findReference k = some r := by
      rw [findReference_insert_ne _ _ _ _ hline]; exact h
    split
    · rename_i hcond
      have hpk : k ≠ prev := by
        intro e
        rw [← e] at hcond
        simp only [isDereferencedTag] at hnot
        rw [← e] at hnot
        simp only [Bool.and_eq_true, Bool.not_eq_true'] at hcond
        simp [hcond.1.1, hcond.1.2, hcond.2] at hnot
      show ((s.mRevCache.insertReference _ _).removeReference prev |>.findReference k) = some r
      rw [findReference_remove_ne _ _ _ hpk]
      exact hins
    · exact hins

theorem splitSkipEmpty_nonempty (out : String) (sep : Char) :
    ∀ l ∈ Qt.splitSkipEmpty out sep, Qt.isEmpty l = false := by
  intro l hl
  simp only [Qt.splitSkipEmpty, List.mem_map, List.mem_filter] at hl
  obtain ⟨part, ⟨-, hne⟩, rfl⟩ := hl
  simpa [Qt.isEmpty] using hne

theorem left_nonempty (line : String) (n : Nat) (h : Qt.isEmpty line = false) :
    Qt.isEmpty (Qt.left line (n + 1)) = false := by
  cases hd : line.data with
  | nil => simp [Qt.isEmpty, hd] at h
  | cons c cs => simp [Qt.isEmpty, Qt.left, hd]

theorem loadReferences_listed_cache (w : World) (s : Loader)
    (h : (w.run s.workingDir "git show-ref -d").1 = true) :
    ∃ r : Reference, (loadReferences w s).mRevCache =
      (loadReferencesLoop w (headSha w s.workingDir)
        (Qt.splitSkipEmpty (w.run s.workingDir "git show-ref -d").2 '\n') ""
        (afterQueries s)).mRevCache.insertReference (headSha w s.workingDir) r := by
  rw [loadReferences_listed w s h]
  exact ⟨_, rfl⟩

/-- C21 (as amended): in a reference list in which a dereferenced-tag line with id `C`
directly follows a line with id `T`, where `T` differs from `C`, occurs on no later
line and is not the HEAD id, the cache after `loadReferences` has no record for `T`;
it has one for `C` when no later dereferenced-tag line directly follows a line with
id `C`, or when `C` is the HEAD id.  A line that is not a dereferenced-tag line, and a
dereferenced-tag line that is first in the list, only insert a record. -/
theorem loadReferences_dereferenced_tag (w : World) (s : Loader)
    (hok : (w.run s.workingDir "git show-ref -d").1 = true) :
    (∀ (pre post : List String) (lineT lineC : String),
      Qt.splitSkipEmpty (w.run s.workingDir "git show-ref -d").2 '\n' =
        pre ++ lineT :: lineC :: post →
      isDereferencedTag (Qt.mid lineC 41) = true →
      Qt.left lineT 40 ≠ Qt.left lineC 40 →
      (∀ l ∈ post, Qt.left l 40 ≠ Qt.left lineT 40) →
      headSha w s.workingDir ≠ Qt.left lineT 40 →
      (loadReferences w s).mRevCache.findReference (Qt.left lineT 40) = none ∧
      (keepsRecord (Qt.left lineC 40) (Qt.left lineC 40) post = true ∨
          headSha w s.workingDir = Qt.left lineC 40 →
        ((loadReferences w s).mRevCache.findReference (Qt.left lineC 40)).isSome = true)) ∧
    (∀ (pre post : List String) (line : String),
      Qt.splitSkipEmpty (w.run s.workingDir "git show-ref -d").2 '\n' = pre ++ line :: post →
      (isDereferencedTag (Qt.mid line 41) = false ∨ pre = []) →
      loadReferencesLoop w (headSha w s.workingDir) (pre ++ [line]) "" (afterQueries s) =
        (loadReferencesLoop w (headSha w s.workingDir) pre "" (afterQueries s)).insertReference
          (Qt.left line 40)
          (w.configure
            ((loadReferencesLoop w (headSha w s.workingDir) pre ""
              (afterQueries s)).mRevCache.getReference (Qt.left line 40))
            (Qt.mid line 41) (decide (headSha w s.workingDir = Qt.left line 40))
            (lastSha "" pre))) := by
  constructor
  · intro pre post lineT lineC hlines hderef hTC hlater hhead
    obtain ⟨r, hcache⟩ := loadReferences_listed_cache w s hok
    have hTne : Qt.isEmpty (Qt.left lineT 40) = false := by
      apply left_nonempty
      apply splitSkipEmpty_nonempty (w.run s.workingDir "git show-ref -d").2 '\n'
      rw [hlines]; simp
    have hdecomp : loadReferencesLoop w (headSha w s.workingDir)
        (pre ++ lineT :: lineC :: post) "" (afterQueries s) =
        loadReferencesLoop w (headSha w s.workingDir) post (Qt.left lineC 40)
          (loadReferencesLoop w (headSha w s.workingDir) [lineC] (Qt.left lineT 40)
            (loadReferencesLoop w (headSha w s.workingDir) [lineT] (lastSha "" pre)
              (loadReferencesLoop w (headSha w s.workingDir) pre "" (afterQueries s)))) := by
      have e1 : pre ++ lineT :: lineC :: post = pre ++ ([lineT] ++ ([lineC] ++ post)) := rfl
      rw [e1, loadReferencesLoop_append, loadReferencesLoop_append, loadReferencesLoop_append]
      rfl
    have hstep := loadReferencesLoop_one w (headSha w s.workingDir) lineC (Qt.left lineT 40)
      (loadReferencesLoop w (headSha w s.workingDir) [lineT] (lastSha "" pre)
        (loadReferencesLoop w (headSha w s.workingDir) pre "" (afterQueries s)))
    rw [if_pos (by simp [hderef, hTne])] at hstep
    rw [hcache, hlines, hdecomp, hstep]
    constructor
    · rw [findReference_insert_ne _ _ _ _ (fun e => hhead e.symm)]
      apply loadReferencesLoop_absent _ _ _ _ _ _ _ hlater
      exact findReference_remove_same _ _
    · intro hcase
      rcases hcase with hkeep | hhc
      · apply findReference_insert_isSome
        apply loadReferencesLoop_present _ _ _ _ _ _ _ hkeep
        show ((RevisionsCache.removeReference _ _).findReference _).isSome = true
        rw [findReference_remove_ne _ _ _ (fun e => hTC e.symm)]
        show ((RevisionsCache.insertReference _ _ _).findReference _).isSome = true
        rw [findReference_insert_same]
        rfl
      · rw [hhc, findReference_insert_same]
        rfl
  · intro pre post line _ hcase
    rw [loadReferencesLoop_append, loadReferencesLoop_one]
    have hcond : ¬ (isDereferencedTag (Qt.mid line 41) && !Qt.isEmpty (lastSha "" pre)) = true := by
      rcases hcase with hd | hp
      · simp [hd]
      · subst hp
        simp [lastSha, Qt.isEmpty]
    rw [if_neg hcond]

/-- C21 at a concrete input: the sample reference list, in which the dereferenced line
of tag v1 directly follows the line of the tag object. -/
theorem loadReferences_dereferenced_tag_witness :
    (sampleWorld.run idleLoader.workingDir "git show-ref -d").1 = true ∧
    (loadReferences sampleWorld idleLoader).mRevCache.findReference
      "bbbbbbbbbbbbbbbbbbbbbbbbbbbbbbbbbbbbbbbb" = none ∧
    ((loadReferences sampleWorld idleLoader).mRevCache.findReference
      "cccccccccccccccccccccccccccccccccccccccc").isSome = true :=
  ⟨rfl,
    ((loadReferences_dereferenced_tag sampleWorld idleLoader rfl).1
      ["aaaaaaaaaaaaaaaaaaaaaaaaaaaaaaaaaaaaaaaa refs/heads/main"] []
      "bbbbbbbbbbbbbbbbbbbbbbbbbbbbbbbbbbbbbbbb refs/tags/v1"
      "cccccccccccccccccccccccccccccccccccccccc refs/tags/v1^\x7b\x7d"
      rfl rfl (by decide) (by simp) (by decide)).1,
    ((loadReferences_dereferenced_tag sampleWorld idleLoader rfl).1
      ["aaaaaaaaaaaaaaaaaaaaaaaaaaaaaaaaaaaaaaaa refs/heads/main"] []
      "bbbbbbbbbbbbbbbbbbbbbbbbbbbbbbbbbbbbbbbb refs/tags/v1"
      "cccccccccccccccccccccccccccccccccccccccc refs/tags/v1^\x7b\x7d"
      rfl rfl (by decide) (by simp) (by decide)).2 (Or.inl rfl)⟩

/-- C21 as stated fails: when the dereferenced-tag line with id `C` is itself directly
followed by a dereferenced-tag line, the record of `C` is removed again and the cache
ends without a record for `C`. -/
theorem loadReferences_dereferenced_tag_removed_again :
    Qt.splitSkipEmpty (doubleDerefWorld.run idleLoader.workingDir "git show-ref -d").2 '\n' =
      [] ++ "bbbbbbbbbbbbbbbbbbbbbbbbbbbbbbbbbbbbbbbb refs/tags/v1" ::
        "cccccccccccccccccccccccccccccccccccccccc refs/tags/v1^\x7b\x7d" ::
        ["eeeeeeeeeeeeeeeeeeeeeeeeeeeeeeeeeeeeeeee refs/tags/v2^\x7b\x7d"] ∧
    isDereferencedTag
      (Qt.mid "cccccccccccccccccccccccccccccccccccccccc refs/tags/v1^\x7b\x7d" 41) = true ∧
    Qt.left "bbbbbbbbbbbbbbbbbbbbbbbbbbbbbbbbbbbbbbbb refs/tags/v1" 40 ≠
      Qt.left "cccccccccccccccccccccccccccccccccccccccc refs/tags/v1^\x7b\x7d" 40 ∧
    Qt.left "eeeeeeeeeeeeeeeeeeeeeeeeeeeeeeeeeeeeeeee refs/tags/v2^\x7b\x7d" 40 ≠
      Qt.left "bbbbbbbbbbbbbbbbbbbbbbbbbbbbbbbbbbbbbbbb refs/tags/v1" 40 ∧
    headSha doubleDerefWorld idleLoader.workingDir ≠
      Qt.left "bbbbbbbbbbbbbbbbbbbbbbbbbbbbbbbbbbbbbbbb refs/tags/v1" 40 ∧
    ¬ ((loadReferences doubleDerefWorld idleLoader).mRevCache.findReference
          (Qt.left "bbbbbbbbbbbbbbbbbbbbbbbbbbbbbbbbbbbbbbbb refs/tags/v1" 40) = none ∧
       ((loadReferences doubleDerefWorld idleLoader).mRevCache.findReference
          (Qt.left "cccccccccccccccccccccccccccccccccccccccc refs/tags/v1^\x7b\x7d"
            40)).isSome = true) := by
  refine ⟨rfl, rfl, by decide, by decide, by decide, ?_⟩
  rintro ⟨-, h⟩
  have hc : (loadReferences doubleDerefWorld idleLoader).mRevCache.findReference
      (Qt.left "cccccccccccccccccccccccccccccccccccccccc refs/tags/v1^\x7b\x7d" 40) = none := rfl
  rw [hc] at h
  exact Bool.false_ne_true h

theorem loadReferencesLoop_line (w : World) (head : String) (pre : List String)
    (line : String) (s : Loader) :
    loadReferencesLoop w head (pre ++ [line]) "" s =
      if (isDereferencedTag (Qt.mid line 41) && !Qt.isEmpty (lastSha "" pre)) = true then
        ((loadReferencesLoop w head pre "" s).insertReference (Qt.left line 40)
          (lineRecord w head (loadReferencesLoop w head pre "" s) line
            (lastSha "" pre))).removeReference (lastSha "" pre)
      else
        (loadReferencesLoop w head pre "" s).insertReference (Qt.left line 40)
          (lineRecord w head (loadReferencesLoop w head pre "" s) line (lastSha "" pre)) := by
  rw [loadReferencesLoop_append, loadReferencesLoop_one]
  rfl

theorem lastSha_append (prev : String) (pre : List String) (line : String) :
    lastSha prev (pre ++ [line]) = Qt.left line 40 := by
  induction pre generalizing prev with
  | nil => rfl
  | cons l rest ih => simp only [List.cons_append, lastSha]; exact ih _

theorem keepsRecord_head (sha prev line : String) (rest : List String)
    (h : keepsRecord sha prev (line :: rest) = true) :
    ¬ ((isDereferencedTag (Qt.mid line 41) && !Qt.isEmpty prev) = true ∧ prev = sha) ∧
      keepsRecord sha (Qt.left line 40) rest = true := by
  simp only [keepsRecord, Bool.and_eq_true, Bool.not_eq_true'] at h
  refine ⟨?_, h.2⟩
  rintro ⟨hc, hp⟩
  have h1 := h.1
  simp only [Bool.and_eq_true] at hc
  subst hp
  rw [hc.1, hc.2] at h1
  simp at h1

/-- C22 (as amended): for a reference line made of a 40-character id, one space and a
name, `loadReferences` takes the first 40 characters as the id and everything after
the 41st character as the name, and stores under the id the record obtained by
configuring the record the cache has for the id at that moment (a fresh one if it has
none) with the name, with the current flag equal to (HEAD id = id) and with the id of
the preceding line (the empty string for the first line); after that a
dereferenced-tag line removes the record stored under the id of the preceding line.
The record configured is the one stored by an earlier line with the same id when no
line with that id lies in between and no dereferenced-tag line directly after a line
with that id has removed it. -/
theorem loadReferences_line_configured (w : World) (s : Loader)
    (hok : (w.run s.workingDir "git show-ref -d").1 = true) :
    (∃ r : Reference, loadReferences w s =
      (loadReferencesLoop w (headSha w s.workingDir)
        (Qt.splitSkipEmpty (w.run s.workingDir "git show-ref -d").2 '\n') ""
        (afterQueries s)).insertReference (headSha w s.workingDir) r) ∧
    ∀ (pre post : List String) (A name : String),
      Qt.splitSkipEmpty (w.run s.workingDir "git show-ref -d").2 '\n' =
        pre ++ (A ++ " " ++ name) :: post →
      A.length = 40 →
      Qt.left (A ++ " " ++ name) 40 = A ∧ Qt.mid (A ++ " " ++ name) 41 = name ∧
      lastSha "" [] = "" ∧
      loadReferencesLoop w (headSha w s.workingDir) (pre ++ [A ++ " " ++ name]) ""
          (afterQueries s) =
        (if (isDereferencedTag name && !Qt.isEmpty (lastSha "" pre)) = true then
          ((loadReferencesLoop w (headSha w s.workingDir) pre "" (afterQueries s)).insertReference A
            (w.configure
              ((loadReferencesLoop w (headSha w s.workingDir) pre ""
                (afterQueries s)).mRevCache.getReference A)
              name (decide (headSha w s.workingDir = A)) (lastSha "" pre))).removeReference
            (lastSha "" pre)
        else
          (loadReferencesLoop w (headSha w s.workingDir) pre "" (afterQueries s)).insertReference A
            (w.configure
              ((loadReferencesLoop w (headSha w s.workingDir) pre ""
                (afterQueries s)).mRevCache.getReference A)
              name (decide (headSha w s.workingDir = A)) (lastSha "" pre))) ∧
      ∀ (pre1 mid : List String) (line0 : String),
        pre = pre1 ++ line0 :: mid → Qt.left line0 40 = A →
        (∀ l ∈ mid, Qt.left l 40 ≠ A) →
        keepsRecord A (lastSha "" pre1) (line0 :: mid) = true →
        (loadReferencesLoop w (headSha w s.workingDir) pre ""
            (afterQueries s)).mRevCache.getReference A =
          lineRecord w (headSha w s.workingDir)
            (loadReferencesLoop w (headSha w s.workingDir) pre1 "" (afterQueries s))
            line0 (lastSha "" pre1) := by
  refine ⟨⟨_, loadReferences_listed w s hok⟩, ?_⟩
  intro pre post A name _ hA
  have hl := left_line A name hA
  have hm := mid_line A name hA
  refine ⟨hl, hm, rfl, ?_, ?_⟩
  · rw [loadReferencesLoop_line]
    simp only [lineRecord, hl, hm]
  · intro pre1 mid line0 hpre h0 hmid hkeep
    obtain ⟨hnot, hkeep'⟩ := keepsRecord_head A _ line0 mid hkeep
    have e1 : pre = (pre1 ++ [line0]) ++ mid := by rw [hpre]; simp
    rw [e1, loadReferencesLoop_append, lastSha_append, h0]
    rw [h0] at hkeep'
    have hstored : (loadReferencesLoop w (headSha w s.workingDir) (pre1 ++ [line0]) ""
        (afterQueries s)).mRevCache.findReference A =
        some (lineRecord w (headSha w s.workingDir)
          (loadReferencesLoop w (headSha w s.workingDir) pre1 "" (afterQueries s))
          line0 (lastSha "" pre1)) := by
      rw [loadReferencesLoop_line, h0]
      split
      · rename_i hc
        have hne : A ≠ lastSha "" pre1 := fun e => hnot ⟨hc, e.symm⟩
        show (RevisionsCache.removeReference _ _).findReference A = _
        rw [findReference_remove_ne _ _ _ hne]
        exact findReference_insert_same _ _ _
      · exact findReference_insert_same _ _ _
    have hkept := loadReferencesLoop_same_record w (headSha w s.workingDir) A _ mid A _
      hstored hmid hkeep'
    rw [RevisionsCache.getReference, hkept]
    rfl

/-- C22 at a concrete input: the sample reference list; the first line, and the
dereferenced line of tag v1 after the tag object line. -/
theorem loadReferences_line_configured_witness :
    (sampleWorld.run idleLoader.workingDir "git show-ref -d").1 = true ∧
    Qt.left ("cccccccccccccccccccccccccccccccccccccccc" ++ " " ++ "refs/tags/v1^\x7b\x7d") 40 =
      "cccccccccccccccccccccccccccccccccccccccc" ∧
    Qt.mid ("cccccccccccccccccccccccccccccccccccccccc" ++ " " ++ "refs/tags/v1^\x7b\x7d") 41 =
      "refs/tags/v1^\x7b\x7d" :=
  ⟨rfl,
    ((loadReferences_line_configured sampleWorld idleLoader rfl).2
      ["aaaaaaaaaaaaaaaaaaaaaaaaaaaaaaaaaaaaaaaa refs/heads/main",
       "bbbbbbbbbbbbbbbbbbbbbbbbbbbbbbbbbbbbbbbb refs/tags/v1"] []
      "cccccccccccccccccccccccccccccccccccccccc" "refs/tags/v1^\x7b\x7d" rfl rfl).1,
    ((loadReferences_line_configured sampleWorld idleLoader rfl).2
      ["aaaaaaaaaaaaaaaaaaaaaaaaaaaaaaaaaaaaaaaa refs/heads/main",
       "bbbbbbbbbbbbbbbbbbbbbbbbbbbbbbbbbbbbbbbb refs/tags/v1"] []
      "cccccccccccccccccccccccccccccccccccccccc" "refs/tags/v1^\x7b\x7d" rfl rfl).2.1⟩

/-- C22 as stated fails in its last part: with a `configure` that adds each name to the
record, two lines with the same id separated by a dereferenced-tag line do not end in
one record holding both names: the record of the first line is removed by the
dereferenced-tag line and the second line configures a fresh one. -/
theorem loadReferences_line_names_not_kept :
    Qt.splitSkipEmpty (splitNamesWorld.run idleLoader.workingDir "git show-ref -d").2 '\n' =
      ["aaaaaaaaaaaaaaaaaaaaaaaaaaaaaaaaaaaaaaaa" ++ " " ++ "refs/heads/main",
       "cccccccccccccccccccccccccccccccccccccccc" ++ " " ++ "refs/tags/v1^\x7b\x7d",
       "aaaaaaaaaaaaaaaaaaaaaaaaaaaaaaaaaaaaaaaa" ++ " " ++ "refs/remotes/origin/main"] ∧
    ¬ ∃ r : Reference,
      (loadReferences splitNamesWorld idleLoader).mRevCache.findReference
        "aaaaaaaaaaaaaaaaaaaaaaaaaaaaaaaaaaaaaaaa" = some r ∧
      "refs/heads/main" ∈ r.names ∧ "refs/remotes/origin/main" ∈ r.names := by
  refine ⟨rfl, ?_⟩
  rintro ⟨r, hr, hmain, -⟩
  have hfound : (loadReferences splitNamesWorld idleLoader).mRevCache.findReference
      "aaaaaaaaaaaaaaaaaaaaaaaaaaaaaaaaaaaaaaaa" =
      some { type := 0, names := ["refs/remotes/origin/main"],
             precedingId := "cccccccccccccccccccccccccccccccccccccccc" } := rfl
  rw [hfound] at hr
  simp only [Option.some.injEq] at hr
  rw [← hr] at hmain
  simp at hmain

theorem splitKeep_no_sep {α : Type} [DecidableEq α] (sep : α) (l : List α) :
    ∀ part ∈ Qt.splitKeep sep l, sep ∉ part := by
  induction l with
  | nil => intro part h; simp [Qt.splitKeep] at h; simp [h]
  | cons c cs ih =>
    intro part h
    rw [Qt.splitKeep] at h
    by_cases hc : c = sep
    · rw [if_pos hc] at h
      rcases List.mem_cons.mp h with rfl | h'
      · simp
      · exact ih part h'
    · rw [if_neg hc] at h
      cases hs : Qt.splitKeep sep cs with
      | nil => exact absurd hs (splitKeep_ne_nil sep cs)
      | cons p ps =>
        rw [hs] at h ih
        rcases List.mem_cons.mp h with rfl | h'
        · intro hmem
          rcases List.mem_cons.mp hmem with e | e
          · exact hc e.symm
          · exact ih p (by simp) e
        · exact ih part (by simp [h'])

theorem splitKeep_join {α : Type} [DecidableEq α] (sep : α) (l : List α) :
    List.intercalate [sep] (Qt.splitKeep sep l) = l := by
  induction l with
  | nil => simp [Qt.splitKeep, List.intercalate]
  | cons c cs ih =>
    rw [Qt.splitKeep]
    by_cases hc : c = sep
    · rw [if_pos hc]
      cases hs : Qt.splitKeep sep cs with
      | nil => exact absurd hs (splitKeep_ne_nil sep cs)
      | cons p ps =>
        rw [hs] at ih
        simp only [List.intercalate] at ih ⊢
        simp [List.intersperse, ih, hc]
    · rw [if_neg hc]
      cases hs : Qt.splitKeep sep cs with
      | nil => exact absurd hs (splitKeep_ne_nil sep cs)
      | cons p ps =>
        rw [hs] at ih
        cases ps with
        | nil =>
          simp only [List.intercalate] at ih ⊢
          simp [List.intersperse] at ih ⊢
          exact ih
        | cons q qs =>
          simp only [List.intercalate] at ih ⊢
          simp [List.intersperse] at ih ⊢
          exact ih

theorem splitKeep_all_empty {α : Type} [DecidableEq α] (sep : α) (l : List α) :
    (∀ part ∈ Qt.splitKeep sep l, part = []) ↔ ∀ c ∈ l, c = sep := by
  induction l with
  | nil => simp [Qt.splitKeep]
  | cons c cs ih =>
    rw [Qt.splitKeep]
    by_cases hc : c = sep
    · rw [if_pos hc]
      simp only [List.mem_cons, forall_eq_or_imp, true_and, hc]
      exact ih
    · rw [if_neg hc]
      cases hs : Qt.splitKeep sep cs with
      | nil => exact absurd hs (splitKeep_ne_nil sep cs)
      | cons p ps =>
        constructor
        · intro h
          have := h (c :: p) (by simp)
          exact absurd this (by simp)
        · intro h
          exact absurd (h c (by simp)) hc

theorem splitSkipEmpty_eq_nil (out : String) (sep : Char) :
    Qt.splitSkipEmpty out sep = [] ↔ ∀ c ∈ out.data, c = sep := by
  rw [← splitKeep_all_empty]
  simp only [Qt.splitSkipEmpty, List.map_eq_nil_iff, List.filter_eq_nil_iff]
  constructor
  · intro h part hp
    have := h part hp
    simpa using this
  · intro h part hp
    simp [h part hp]

theorem splitSkipEmpty_no_sep (out : String) (sep : Char) :
    ∀ f ∈ Qt.splitSkipEmpty out sep, sep ∉ f.data := by
  intro f hf
  simp only [Qt.splitSkipEmpty, List.mem_map, List.mem_filter] at hf
  obtain ⟨part, ⟨hp, -⟩, rfl⟩ := hf
  exact splitKeep_no_sep sep out.data part hp

/-- C23: the command `getUntrackedFiles` runs is `git ls-files --others`, then the
exclude-from option for `.git/info/exclude` exactly when that file exists under the
working directory, then the per-directory option for `.gitignore`; the list returned
is made of the non-empty parts, in order, of the output cut at its newlines (the parts
joined by newlines give the output back), so no entry is empty or holds a newline. -/
theorem getUntrackedFiles_command (w : World) (s : Loader) :
    (getUntrackedFiles w s).2 =
      s.emit (Event.run s.workingDir (untrackedFilesCmd w s.workingDir)) ∧
    (w.fileExists (s.workingDir ++ "/" ++ ".git/info/exclude") = true →
      untrackedFilesCmd w s.workingDir =
        "git ls-files --others --exclude-from=$.git/info/exclude$" ++
          " --exclude-per-directory=$.gitignore$") ∧
    (w.fileExists (s.workingDir ++ "/" ++ ".git/info/exclude") = false →
      untrackedFilesCmd w s.workingDir =
        "git ls-files --others --exclude-per-directory=$.gitignore$") ∧
    Qt.startsWith (untrackedFilesCmd w s.workingDir) "git ls-files --others" = true ∧
    Qt.endsWith (untrackedFilesCmd w s.workingDir)
      " --exclude-per-directory=$.gitignore$" = true ∧
    Qt.contains (untrackedFilesCmd w s.workingDir) " --exclude-from=$.git/info/exclude$" =
      w.fileExists (s.workingDir ++ "/" ++ ".git/info/exclude") ∧
    (getUntrackedFiles w s).1 =
      ((Qt.splitKeep '\n' (w.run s.workingDir (untrackedFilesCmd w s.workingDir)).2.data).filter
        (fun part => !part.isEmpty)).map String.mk ∧
    List.intercalate ['\n']
        (Qt.splitKeep '\n' (w.run s.workingDir (untrackedFilesCmd w s.workingDir)).2.data) =
      (w.run s.workingDir (untrackedFilesCmd w s.workingDir)).2.data ∧
    ∀ f ∈ (getUntrackedFiles w s).1, Qt.isEmpty f = false ∧ '\n' ∉ f.data := by
  have hcmd : ∀ b : Bool, w.fileExists (s.workingDir ++ "/" ++ ".git/info/exclude") = b →
      untrackedFilesCmd w s.workingDir =
        if b then "git ls-files --others --exclude-from=$.git/info/exclude$" ++
          " --exclude-per-directory=$.gitignore$"
        else "git ls-files --others --exclude-per-directory=$.gitignore$" := by
    intro b hb
    unfold untrackedFilesCmd
    simp only [hb]
    cases b <;> rfl
  rw [getUntrackedFiles_eq]
  refine ⟨rfl, fun h => hcmd true h, fun h => hcmd false h, ?_, ?_, ?_, rfl,
    splitKeep_join _ _, ?_⟩
  · cases hb : w.fileExists (s.workingDir ++ "/" ++ ".git/info/exclude") <;>
      rw [hcmd _ hb] <;> decide
  · cases hb : w.fileExists (s.workingDir ++ "/" ++ ".git/info/exclude") <;>
      rw [hcmd _ hb] <;> decide
  · cases hb : w.fileExists (s.workingDir ++ "/" ++ ".git/info/exclude") <;>
      rw [hcmd _ hb] <;> decide
  · intro f hf
    exact ⟨splitSkipEmpty_nonempty _ _ f hf, splitSkipEmpty_no_sep _ _ f hf⟩

/-- C24: the untracked-file list the cache gets from `updateWipRevision` is made of the
non-empty lines of the listing's output, whether the listing (or HEAD resolution)
succeeded or not; two runners that print the same output give the same list whatever
their success flags; and the list is empty exactly when the output has no character
other than newlines. -/
theorem getUntrackedFiles_ignores_success (w : World) (s : Loader) :
    (getUntrackedFiles w s).1 =
      Qt.splitSkipEmpty (w.run s.workingDir (untrackedFilesCmd w s.workingDir)).2 '\n' ∧
    (updateWipRevision w s).mRevCache.untrackedFiles = (getUntrackedFiles w s).1 ∧
    (∀ w' : World,
      w'.fileExists (s.workingDir ++ "/" ++ ".git/info/exclude") =
        w.fileExists (s.workingDir ++ "/" ++ ".git/info/exclude") →
      (w'.run s.workingDir (untrackedFilesCmd w s.workingDir)).2 =
        (w.run s.workingDir (untrackedFilesCmd w s.workingDir)).2 →
      (getUntrackedFiles w' s).1 = (getUntrackedFiles w s).1) ∧
    ((getUntrackedFiles w s).1 = [] ↔
      ∀ c ∈ (w.run s.workingDir (untrackedFilesCmd w s.workingDir)).2.data, c = '\n') := by
  refine ⟨by rw [getUntrackedFiles_eq], ?_, ?_, ?_⟩
  · rw [getUntrackedFiles_eq]
    cases h : (w.run s.workingDir "git rev-parse --revs-only HEAD").1
    · rw [updateWipRevision_unresolved w s h]; rfl
    · rw [updateWipRevision_resolved w s h]; rfl
  · intro w' hf hout
    have hc : untrackedFilesCmd w' s.workingDir = untrackedFilesCmd w s.workingDir := by
      unfold untrackedFilesCmd
      simp only [hf]
    rw [getUntrackedFiles_eq, getUntrackedFiles_eq, hc, hout]
  · rw [getUntrackedFiles_eq]
    exact splitSkipEmpty_eq_nil _ _

/-- C24 at a concrete input: a listing that fails after printing two paths. -/
theorem getUntrackedFiles_ignores_success_witness :
    (failedListingWorld.run idleLoader.workingDir
      (untrackedFilesCmd failedListingWorld idleLoader.workingDir)) =
        (false, "a.txt\n\nb/c.txt\n") ∧
    (updateWipRevision failedListingWorld idleLoader).mRevCache.untrackedFiles =
      ["a.txt", "b/c.txt"] :=
  ⟨rfl, ((getUntrackedFiles_ignores_success failedListingWorld idleLoader).2.1).trans rfl⟩

end GitRepoLoader

/-! ## The arithmetic of `int`: lemmas -/

namespace Cpp

theorem wrapInt_of_fits (x : Int) (h1 : -2147483648 ≤ x) (h2 : x ≤ 2147483647) :
    wrapInt x = x := by
  unfold wrapInt
  omega

theorem wrapInt_fits (x : Int) : -2147483648 ≤ wrapInt x ∧ wrapInt x ≤ 2147483647 := by
  unfold wrapInt
  omega

theorem wrapInt_step (blockNumber k lineCorrection c : Int) :
    wrapInt (intAdd blockNumber 1 + k + 1 + lineCorrection - c) =
      wrapInt (blockNumber + (k + 1) + 1 + lineCorrection - c) := by
  unfold intAdd wrapInt
  omega

theorem wrapInt_step_skip (blockNumber k lineCorrection c : Int) :
    wrapInt (intAdd blockNumber 1 + k + 1 + intSub lineCorrection 1 - c) =
      wrapInt (blockNumber + (k + 1) + 1 + lineCorrection - (c + 1)) := by
  unfold intAdd intSub wrapInt
  omega

theorem intAdd_intAdd (blockNumber lineCorrection : Int) :
    intAdd (intAdd blockNumber 1) lineCorrection =
      wrapInt (blockNumber + 0 + 1 + lineCorrection - 0) := by
  unfold intAdd wrapInt
  omega

end Cpp

/-! ## The pagination of `GitHubRestApi`: lemmas and claim -/

namespace GitHubRestApi

theorem splitStrAux_ne_nil (sep : List Char) :
    ∀ (l : List Char) (skip : Nat) (acc : List Char), Qt.splitStrAux sep l skip acc ≠ [] := by
  intro l
  induction l with
  | nil => intro skip acc; simp [Qt.splitStrAux]
  | cons c cs ih =>
    intro skip acc
    cases skip with
    | zero =>
      rw [Qt.splitStrAux]
      split
      · simp
      · exact ih _ _
    | succ k => rw [Qt.splitStrAux]; exact ih _ _

theorem splitStrAux_skip (sep : List Char) :
    ∀ (x t acc : List Char), Qt.splitStrAux sep (x ++ t) x.length acc =
      Qt.splitStrAux sep t 0 acc := by
  intro x
  induction x with
  | nil => intro t acc; rfl
  | cons c cs ih =>
    intro t acc
    simp only [List.cons_append, List.length_cons, Qt.splitStrAux]
    exact ih t acc

theorem isPrefixOf_overlap (p : Char) :
    ∀ (u rest x : List Char), rest.isPrefixOf (u ++ p :: x) = true → u.length < rest.length →
      p ∈ rest := by
  intro u
  induction u with
  | nil =>
    intro rest x h hlen
    cases rest with
    | nil => simp at hlen
    | cons r rs =>
      simp only [List.nil_append, List.isPrefixOf_cons₂, Bool.and_eq_true, beq_iff_eq] at h
      simp [h.1]
  | cons a u ih =>
    intro rest x h hlen
    cases rest with
    | nil => simp at hlen
    | cons r rs =>
      simp only [List.cons_append, List.isPrefixOf_cons₂, Bool.and_eq_true, beq_iff_eq] at h
      have := ih rs x h.2 (by simpa using hlen)
      simp [this]

theorem getLast?_cons_of_ne_nil {α : Type} (a : α) (l : List α) (h : l ≠ []) :
    (a :: l).getLast? = l.getLast? := by
  cases l with
  | nil => exact absurd rfl h
  | cons b bs => simp [List.getLast?_cons_cons]

/-- The last part of a split at a separator whose first character does not occur again
in it is what the split leaves of the text after an occurrence of the separator. -/
theorem splitStrAux_last (p : Char) (rest t : List Char) (hp : p ∉ rest) :
    ∀ (u : List Char) (skip : Nat) (acc : List Char), skip ≤ u.length →
      (Qt.splitStrAux (p :: rest) (u ++ (p :: rest) ++ t) skip acc).getLast? =
        (Qt.splitStrAux (p :: rest) t 0 []).getLast? := by
  intro u
  induction u with
  | nil =>
    intro skip acc hskip
    have h0 : skip = 0 := by simpa using hskip
    subst h0
    have hpre : (p :: rest).isPrefixOf (p :: (rest ++ t)) = true := by
      simp [List.isPrefixOf_cons₂]
    simp only [List.nil_append, List.cons_append]
    rw [Qt.splitStrAux, if_pos hpre]
    simp only [List.length_cons, Nat.add_sub_cancel]
    rw [getLast?_cons_of_ne_nil _ _ (splitStrAux_ne_nil _ _ _ _), splitStrAux_skip]
  | cons c u ih =>
    intro skip acc hskip
    cases skip with
    | succ k =>
      simp only [List.cons_append]
      rw [Qt.splitStrAux]
      have := ih k acc (by simpa using hskip)
      simpa using this
    | zero =>
      simp only [List.cons_append]
      rw [Qt.splitStrAux]
      split
      · rename_i hmatch
        simp only [List.isPrefixOf_cons₂, Bool.and_eq_true, beq_iff_eq] at hmatch
        have hlen : rest.length ≤ u.length := by
          by_contra hlt
          have hlt' : u.length < rest.length := by omega
          have := isPrefixOf_overlap p u rest (rest ++ t)
            (by simpa using hmatch.2) hlt'
          exact hp this
        rw [getLast?_cons_of_ne_nil _ _ (splitStrAux_ne_nil _ _ _ _)]
        simp only [List.length_cons, Nat.add_sub_cancel]
        have := ih rest.length [] hlen
        simpa using this
      · have := ih 0 (c :: acc) (Nat.zero_le _)
        simpa using this

theorem splitStr_page_tail (u : String) :
    (Qt.splitStr (u ++ "page=2&per_page=100") "page=").getLastD "" = "100" := by
  have hsep : "page=".data = 'p' :: ['a', 'g', 'e', '='] := rfl
  have hdata : (u ++ "page=2&per_page=100").data =
      (u.data ++ "page=2&per_".data) ++ ('p' :: ['a', 'g', 'e', '=']) ++ "100".data := by
    rw [String.data_append]
    simp
  have hlast := splitStrAux_last 'p' ['a', 'g', 'e', '='] "100".data (by decide)
    (u.data ++ "page=2&per_".data) 0 [] (Nat.zero_le _)
  have htail : (Qt.splitStrAux ('p' :: ['a', 'g', 'e', '=']) "100".data 0 []).getLast? =
      some "100".data := by decide
  rw [htail] at hlast
  unfold Qt.splitStr
  rw [hsep, hdata, List.getLastD_eq_getLast?, List.getLast?_map, hlast]
  rfl

theorem toInt_range (s : String) : -2147483648 ≤ Qt.toInt s ∧ Qt.toInt s ≤ 2147483647 := by
  have key : ∀ v : Int,
      -2147483648 ≤ (if -2147483648 ≤ v ∧ v ≤ 2147483647 then v else 0) ∧
      (if -2147483648 ≤ v ∧ v ≤ 2147483647 then v else 0) ≤ 2147483647 := by
    intro v
    split
    · assumption
    · decide
  unfold Qt.toInt
  simp only
  split
  · decide
  · split
    · decide
    · exact key _

theorem isEmpty_eq_true (s : String) (h : Qt.isEmpty s = true) : s = "" := by
  cases s with
  | mk data =>
    cases data with
    | nil => rfl
    | cons c cs => simp [Qt.isEmpty] at h

theorem foldl_pageStep (pages : List String) (p : Pagination) :
    (pages.foldl pageStep p).next =
      (match (pages.filter isNextPart).getLast? with
        | none => p.next
        | some q => pageNumber (linkValues q)) ∧
    (pages.foldl pageStep p).current =
      (match (pages.filter isNextPart).getLast? with
        | none => p.current
        | some q => Cpp.intSub (pageNumber (linkValues q)) 1) ∧
    (pages.foldl pageStep p).total =
      (match (pages.filter isLastPart).getLast? with
        | none => p.total
        | some q => pageNumber (linkValues q)) := by
  induction pages using List.reverseRecOn with
  | nil => exact ⟨rfl, rfl, rfl⟩
  | append_singleton l a ih =>
    obtain ⟨h1, h2, h3⟩ := ih
    rw [List.foldl_append, List.filter_append, List.filter_append]
    simp only [List.foldl_cons, List.foldl_nil, List.filter_cons, List.filter_nil]
    by_cases hn : isNextPart a = true
    · have hl : isLastPart a = false := by simp [isLastPart, hn]
      have hstep : pageStep (l.foldl pageStep p) a =
          { (l.foldl pageStep p) with next := pageNumber (linkValues a),
                                      current := Cpp.intSub (pageNumber (linkValues a)) 1 } := by
        unfold pageStep
        unfold isNextPart at hn
        simp only [hn, if_true]
      rw [hstep, hn, hl]
      simp only [if_true, List.getLast?_concat, List.append_nil, Bool.false_eq_true, if_false]
      exact ⟨trivial, trivial, h3⟩
    · have hn' : isNextPart a = false := by simpa using hn
      by_cases hl : isLastPart a = true
      · have hc : Qt.contains ((linkValues a).getLastD "") "last" = true := by
          simp only [isLastPart, Bool.and_eq_true] at hl
          exact hl.2
        have hstep : pageStep (l.foldl pageStep p) a =
            { (l.foldl pageStep p) with total := pageNumber (linkValues a) } := by
          unfold pageStep
          unfold isNextPart at hn'
          simp only [hn', hc, if_true, Bool.false_eq_true, if_false]
        rw [hstep, hn', hl]
        simp only [if_true, List.getLast?_concat, List.append_nil, Bool.false_eq_true, if_false]
        exact ⟨h1, h2, trivial⟩
      · have hl' : isLastPart a = false := by simpa using hl
        have hc : Qt.contains ((linkValues a).getLastD "") "last" = false := by
          simp only [isLastPart, hn', Bool.not_false, Bool.true_and] at hl'
          exact hl'
        have hstep : pageStep (l.foldl pageStep p) a = l.foldl pageStep p := by
          unfold pageStep
          unfold isNextPart at hn'
          simp only [hn', hc, Bool.false_eq_true, if_false]
        rw [hstep, hn', hl']
        simp only [List.append_nil, Bool.false_eq_true, if_false]
        exact ⟨h1, h2, h3⟩

/-- C26 (as amended): both handlers emit the same triple.  `next` is the number read
after the last `page=` of the first field of the last part of the header whose last
field contains `next` (0 when there is no such part, and 0 when the text is not an
integer that fits an `int`); `current` is `next - 1` computed on `int` (0 when there
is no such part): it is the number before `next` unless `next` is the least `int`,
where it is the greatest `int`; `total` is read the same way from the last part
whose last field contains `last` and not `next`.  A next URL ending in
`page=2&per_page=100` gives next = 100 and current = 99; a header without a next part
gives current = 0 and next = 0; a missing header gives (0, 0, 0).  All three numbers
fit an `int`. -/
theorem paginationPresent_link_header (header : String) :
    onIssuesReceived header = paginationPresent header ∧
    onPullRequestReceived header = paginationPresent header ∧
    (paginationPresent header).2.1 =
      (match ((Qt.split header ',').filter isNextPart).getLast? with
        | none => 0
        | some q => pageNumber (linkValues q)) ∧
    (paginationPresent header).1 =
      (match ((Qt.split header ',').filter isNextPart).getLast? with
        | none => 0
        | some q => Cpp.intSub (pageNumber (linkValues q)) 1) ∧
    (paginationPresent header).2.2 =
      (match ((Qt.split header ',').filter isLastPart).getLast? with
        | none => 0
        | some q => pageNumber (linkValues q)) ∧
    (∀ values : List String,
      pageNumber values =
          Qt.toInt ((Qt.splitStr (values.headD "") "page=").getLastD "") ∧
        -2147483648 ≤ pageNumber values ∧ pageNumber values ≤ 2147483647 ∧
        (-2147483648 < pageNumber values →
          Cpp.intSub (pageNumber values) 1 = pageNumber values - 1) ∧
        (pageNumber values = -2147483648 →
          Cpp.intSub (pageNumber values) 1 = 2147483647)) ∧
    ((∃ q, ((Qt.split header ',').filter isNextPart).getLast? = some q ∧
        -2147483648 < pageNumber (linkValues q)) →
      (paginationPresent header).1 = (paginationPresent header).2.1 - 1) ∧
    (-2147483648 ≤ (paginationPresent header).1 ∧ (paginationPresent header).1 ≤ 2147483647) ∧
    (∀ u : String, (Qt.splitStr (u ++ "page=2&per_page=100") "page=").getLastD "" = "100") ∧
    (∀ (page : String) (p : Pagination) (u : String),
      (linkValues page).headD "" = u ++ "page=2&per_page=100" → isNextPart page = true →
      (pageStep p page).next = 100 ∧ (pageStep p page).current = 99) ∧
    ((∀ page ∈ Qt.split header ',', isNextPart page = false) →
      (paginationPresent header).1 = 0 ∧ (paginationPresent header).2.1 = 0) ∧
    paginationPresent "" = (0, 0, 0) ∧
    paginationPresent sampleLinkHeader = (99, 100, 100) := by
  have hform : (paginationPresent header).2.1 =
      (match ((Qt.split header ',').filter isNextPart).getLast? with
        | none => 0
        | some q => pageNumber (linkValues q)) ∧
    (paginationPresent header).1 =
      (match ((Qt.split header ',').filter isNextPart).getLast? with
        | none => 0
        | some q => Cpp.intSub (pageNumber (linkValues q)) 1) ∧
    (paginationPresent header).2.2 =
      (match ((Qt.split header ',').filter isLastPart).getLast? with
        | none => 0
        | some q => pageNumber (linkValues q)) := by
    cases he : Qt.isEmpty header
    · obtain ⟨h1, h2, h3⟩ := foldl_pageStep (Qt.split header ',')
        { current := 0, next := 0, total := 0 }
      unfold paginationPresent
      simp only [he, Bool.not_false, if_true]
      exact ⟨h1, h2, h3⟩
    · rw [isEmpty_eq_true header he]
      decide
  have hpage : ∀ (page : String) (p : Pagination) (u : String),
      (linkValues page).headD "" = u ++ "page=2&per_page=100" → isNextPart page = true →
      (pageStep p page).next = 100 ∧ (pageStep p page).current = 99 := by
    intro page p u hu hn
    have hnum : pageNumber (linkValues page) = 100 := by
      unfold pageNumber
      rw [hu, splitStr_page_tail]
      decide
    unfold pageStep
    unfold isNextPart at hn
    simp only [hn, if_true, hnum]
    decide
  have hsub : ∀ x : Int, -2147483648 < x → x ≤ 2147483647 → Cpp.intSub x 1 = x - 1 := by
    intro x h1 h2
    exact Cpp.wrapInt_of_fits (x - 1) (by omega) (by omega)
  refine ⟨rfl, rfl, hform.1, hform.2.1, hform.2.2, ?_, ?_, ?_, splitStr_page_tail, hpage, ?_,
    by decide, by decide⟩
  · intro values
    refine ⟨rfl, (toInt_range _).1, (toInt_range _).2, ?_, ?_⟩
    · intro h
      exact hsub _ h (toInt_range _).2
    · intro h
      rw [h]
      decide
  · rintro ⟨q, hq, hlt⟩
    rw [hform.1, hform.2.1, hq]
    exact hsub _ hlt (toInt_range _).2
  · rw [hform.2.1]
    cases ((Qt.split header ',').filter isNextPart).getLast? with
    | none => decide
    | some q => exact Cpp.wrapInt_fits _
  · intro hno
    have hfilter : (Qt.split header ',').filter isNextPart = [] := by
      rw [List.filter_eq_nil_iff]
      intro page hp
      simp [hno page hp]
    rw [hform.1, hform.2.1, hfilter]
    exact ⟨rfl, rfl⟩

/-- C26 at a concrete input: a part for the next page whose URL ends in
`page=2&per_page=100`. -/
theorem paginationPresent_link_header_witness :
    (linkValues "<https://api.github.com/repositories/1/issues?page=2&per_page=100>; rel=\"next\"").headD "" =
      "https://api.github.com/repositories/1/issues?" ++ "page=2&per_page=100" ∧
    isNextPart
      "<https://api.github.com/repositories/1/issues?page=2&per_page=100>; rel=\"next\"" = true ∧
    (pageStep {}
      "<https://api.github.com/repositories/1/issues?page=2&per_page=100>; rel=\"next\"").next
        = 100 ∧
    (pageStep {}
      "<https://api.github.com/repositories/1/issues?page=2&per_page=100>; rel=\"next\"").current
        = 99 :=
  ⟨by decide, by decide,
    (paginationPresent_link_header "").2.2.2.2.2.2.2.2.2.1
      "<https://api.github.com/repositories/1/issues?page=2&per_page=100>; rel=\"next\"" {}
      "https://api.github.com/repositories/1/issues?" (by decide) (by decide)⟩

/-- C26 as stated fails: for a next part whose page number is the least `int`, `next`
is that number and `current` is not `next - 1`, which no `int` holds, but the greatest
`int`. -/
theorem paginationPresent_least_page :
    (Qt.split leastPageHeader ',').filter isNextPart = [leastPageHeader] ∧
    pageNumber (linkValues leastPageHeader) = -2147483648 ∧
    paginationPresent leastPageHeader = (2147483647, -2147483648, 0) ∧
    onIssuesReceived leastPageHeader = (2147483647, -2147483648, 0) ∧
    onPullRequestReceived leastPageHeader = (2147483647, -2147483648, 0) ∧
    (paginationPresent leastPageHeader).1 ≠ (paginationPresent leastPageHeader).2.1 - 1 := by
  have h : paginationPresent leastPageHeader = (2147483647, -2147483648, 0) := by decide
  refine ⟨by decide, by decide, h, h, h, ?_⟩
  rw [h]
  decide

end GitHubRestApi

/-! ## The numbers and the width of the line-number area -/

namespace FileDiffView

theorem digitLoop_digits (n : Nat) :
    1 ≤ n → ∀ d : Int, digitLoop (n : Int) d = d + ((Nat.digits 10 n).length : Int) - 1 := by
  induction n using Nat.strong_induction_on with
  | _ n ih =>
    intro hn d
    rw [digitLoop]
    split
    · rename_i h
      have h10 : 10 ≤ n := by omega
      have hdiv : ((n : Int) / 10) = ((n / 10 : Nat) : Int) := by norm_cast
      rw [hdiv, ih (n / 10) (by omega) (by omega)]
      rw [Nat.digits_def' (by norm_num) (by omega : 0 < n)]
      simp only [List.length_cons]
      push_cast
      ring
    · rename_i h
      have hlt : n < 10 := by omega
      rw [Nat.digits_of_lt 10 n (by omega) hlt]
      simp

theorem lineNumberDigits_eq (blockCount mStartingLine : Int) :
    lineNumberDigits blockCount mStartingLine =
      5 + ((Nat.digits 10 (max 1 (Cpp.intAdd blockCount mStartingLine)).toNat).length : Int) := by
  have h1 : (1 : Int) ≤ max 1 (Cpp.intAdd blockCount mStartingLine) := le_max_left _ _
  have hcast : ((max 1 (Cpp.intAdd blockCount mStartingLine)).toNat : Int) =
      max 1 (Cpp.intAdd blockCount mStartingLine) := Int.toNat_of_nonneg (by omega)
  have h := digitLoop_digits (max 1 (Cpp.intAdd blockCount mStartingLine)).toNat (by omega) 6
  rw [hcast] at h
  unfold lineNumberDigits
  simp only
  rw [h]
  ring

theorem lineNumberDigits_bounds (blockCount mStartingLine : Int) :
    6 ≤ lineNumberDigits blockCount mStartingLine ∧
      lineNumberDigits blockCount mStartingLine ≤ 15 := by
  rw [lineNumberDigits_eq]
  have h1 : (1 : Int) ≤ max 1 (Cpp.intAdd blockCount mStartingLine) := le_max_left _ _
  have h2 : max 1 (Cpp.intAdd blockCount mStartingLine) ≤ 2147483647 :=
    max_le (by decide) (Cpp.wrapInt_fits _).2
  have hpos : 0 < (max 1 (Cpp.intAdd blockCount mStartingLine)).toNat := by omega
  have hle : (max 1 (Cpp.intAdd blockCount mStartingLine)).toNat ≤ 2147483647 := by omega
  have hlen : 0 < (Nat.digits 10 (max 1 (Cpp.intAdd blockCount mStartingLine)).toNat).length := by
    rw [Nat.digits_def' (by norm_num) hpos]
    simp
  have hmax := Nat.le_digits_len_le 10 _ _ hle
  have hten : (Nat.digits 10 2147483647).length = 10 := by norm_num
  rw [hten] at hmax
  omega

theorem lineNumberDigits_mono (blockCount more mStartingLine : Int)
    (hlow : -2147483648 ≤ blockCount + mStartingLine) (hle : blockCount ≤ more)
    (hhigh : more + mStartingLine ≤ 2147483647) :
    lineNumberDigits blockCount mStartingLine ≤ lineNumberDigits more mStartingLine := by
  rw [lineNumberDigits_eq, lineNumberDigits_eq]
  have ha : Cpp.intAdd blockCount mStartingLine = blockCount + mStartingLine :=
    Cpp.wrapInt_of_fits _ hlow (by omega)
  have hb : Cpp.intAdd more mStartingLine = more + mStartingLine :=
    Cpp.wrapInt_of_fits _ (by omega) hhigh
  rw [ha, hb]
  have hm : max 1 (blockCount + mStartingLine) ≤ max 1 (more + mStartingLine) :=
    max_le_max le_rfl (by omega)
  have ht : (max 1 (blockCount + mStartingLine)).toNat ≤
      (max 1 (more + mStartingLine)).toNat := Int.toNat_le_toNat hm
  have hl := Nat.le_digits_len_le 10 _ _ ht
  omega

theorem lineNumberAreaWidth_fits (blockCount mStartingLine width : Int)
    (h0 : 0 ≤ width) (h1 : width ≤ 143165576) :
    lineNumberAreaWidth blockCount mStartingLine width =
      width * lineNumberDigits blockCount mStartingLine := by
  obtain ⟨h6, h15⟩ := lineNumberDigits_bounds blockCount mStartingLine
  unfold lineNumberAreaWidth Cpp.intMul
  apply Cpp.wrapInt_of_fits
  · nlinarith
  · nlinarith

theorem paintLoop_sound {R : Type} (inp : PaintInput R) :
    ∀ (blocks : List (Block R)) (index : Nat) (blockNumber : Int) (top : R)
      (lineCorrection : Int) (p : Painted R),
      p ∈ paintLoop inp blocks index blockNumber top lineCorrection →
      ∃ k block, (withTops inp.add top blocks)[k]? = some (block, p.top) ∧
        p.blockIndex = index + k ∧ block.isVisible = true ∧
        inp.le p.top inp.rectBottom = true ∧
        inp.le inp.rectTop (inp.add p.top block.height) = true ∧
        (inp.mUnified = true →
          Qt.startsWith block.text "-" = false ∧ Qt.startsWith block.text "@" = false) ∧
        p.number = Cpp.wrapInt (blockNumber + (k : Int) + 1 + lineCorrection -
          (((withTops inp.add top blocks).take k).countP (isSkipped inp) : Nat)) := by
  intro blocks
  induction blocks with
  | nil => intro index blockNumber top lineCorrection p hp; simp [paintLoop] at hp
  | cons block rest ih =>
    intro index blockNumber top lineCorrection p hp
    rw [paintLoop] at hp
    by_cases hbot : inp.le top inp.rectBottom = true
    · rw [if_pos hbot] at hp
      simp only at hp
      by_cases hvis : (block.isVisible && inp.le inp.rectTop (inp.add top block.height)) = true
      · rw [if_pos hvis] at hp
        have hv := hvis
        rw [Bool.and_eq_true] at hv
        by_cases hshow : (!inp.mUnified || (inp.mUnified && !Qt.startsWith block.text "-" &&
            !Qt.startsWith block.text "@")) = true
        · rw [if_pos hshow] at hp
          have hns : isSkipped inp (block, top) = false := by
            unfold isSkipped
            revert hshow
            cases inp.mUnified <;> cases Qt.startsWith block.text "-" <;>
              cases Qt.startsWith block.text "@" <;> simp
          rcases List.mem_cons.mp hp with h0 | htl
          · refine ⟨0, block, ?_, ?_, hv.1, ?_, ?_, ?_, ?_⟩
            · subst h0; simp [withTops]
            · subst h0; simp
            · subst h0; exact hbot
            · subst h0; exact hv.2
            · intro hu
              revert hshow
              rw [hu]
              cases Qt.startsWith block.text "-" <;>
                cases Qt.startsWith block.text "@" <;> simp
            · subst h0
              simp only [List.take_zero, List.countP_nil, Nat.cast_zero]
              exact Cpp.intAdd_intAdd blockNumber lineCorrection
          · obtain ⟨k, b, hk, hi, hbv, hb1, hb2, hu, hn⟩ := ih _ _ _ _ p htl
            refine ⟨k + 1, b, ?_, ?_, hbv, hb1, hb2, hu, ?_⟩
            · simpa [withTops] using hk
            · omega
            · rw [hn]
              simp only [withTops, List.take_succ_cons, List.countP_cons, hns]
              push_cast
              simp only [Bool.false_eq_true, if_false, add_zero]
              exact Cpp.wrapInt_step _ _ _ _
        · rw [if_neg hshow] at hp
          have hs : isSkipped inp (block, top) = true := by
            unfold isSkipped
            revert hshow
            simp only [hv.1, hv.2]
            cases inp.mUnified <;> cases Qt.startsWith block.text "-" <;>
              cases Qt.startsWith block.text "@" <;> simp
          obtain ⟨k, b, hk, hi, hbv, hb1, hb2, hu, hn⟩ := ih _ _ _ _ p hp
          refine ⟨k + 1, b, ?_, ?_, hbv, hb1, hb2, hu, ?_⟩
          · simpa [withTops] using hk
          · omega
          · rw [hn]
            simp only [withTops, List.take_succ_cons, List.countP_cons, hs]
            push_cast
            exact Cpp.wrapInt_step_skip _ _ _ _
      · rw [if_neg hvis] at hp
        have hns : isSkipped inp (block, top) = false := by
          unfold isSkipped
          revert hvis
          cases inp.mUnified <;> cases block.isVisible <;>
            cases inp.le inp.rectTop (inp.add top block.height) <;> simp
        obtain ⟨k, b, hk, hi, hbv, hb1, hb2, hu, hn⟩ := ih _ _ _ _ p hp
        refine ⟨k + 1, b, ?_, ?_, hbv, hb1, hb2, hu, ?_⟩
        · simpa [withTops] using hk
        · omega
        · rw [hn]
          simp only [withTops, List.take_succ_cons, List.countP_cons, hns]
          push_cast
          simp only [Bool.false_eq_true, if_false, add_zero]
          exact Cpp.wrapInt_step _ _ _ _
    · rw [if_neg hbot] at hp
      simp at hp

theorem paintLoop_complete {R : Type} (inp : PaintInput R) :
    ∀ (blocks : List (Block R)) (index : Nat) (blockNumber : Int) (top : R)
      (lineCorrection : Int) (k : Nat) (block : Block R) (t : R),
      (withTops inp.add top blocks)[k]? = some (block, t) →
      (∀ j bt, j ≤ k → (withTops inp.add top blocks)[j]? = some bt →
        inp.le bt.2 inp.rectBottom = true) →
      block.isVisible = true →
      inp.le inp.rectTop (inp.add t block.height) = true →
      (inp.mUnified = true →
        Qt.startsWith block.text "-" = false ∧ Qt.startsWith block.text "@" = false) →
      Painted.mk (index + k)
        (Cpp.wrapInt (blockNumber + (k : Int) + 1 + lineCorrection -
          (((withTops inp.add top blocks).take k).countP (isSkipped inp) : Nat)))
        t ∈ paintLoop inp blocks index blockNumber top lineCorrection := by
  intro blocks
  induction blocks with
  | nil => intro index blockNumber top lineCorrection k block t hk; simp [withTops] at hk
  | cons b rest ih =>
    intro index blockNumber top lineCorrection k block t hk hbots hvis hreach hu
    have hbot : inp.le top inp.rectBottom = true :=
      hbots 0 (b, top) (Nat.zero_le _) (by simp [withTops])
    rw [paintLoop, if_pos hbot]
    simp only
    cases k with
    | zero =>
      simp only [withTops, List.getElem?_cons_zero, Option.some.injEq, Prod.mk.injEq] at hk
      obtain ⟨hb, ht⟩ := hk
      subst hb
      subst ht
      have hv : (b.isVisible && inp.le inp.rectTop (inp.add top b.height)) = true := by
        rw [hvis, hreach]; rfl
      rw [if_pos hv]
      have hshow : (!inp.mUnified || (inp.mUnified && !Qt.startsWith b.text "-" &&
          !Qt.startsWith b.text "@")) = true := by
        revert hu
        cases inp.mUnified <;> simp
      rw [if_pos hshow]
      simp only [List.take_zero, List.countP_nil, Nat.cast_zero, add_zero]
      have hnum : Cpp.wrapInt (blockNumber + 1 + lineCorrection - 0) =
          Cpp.intAdd (Cpp.intAdd blockNumber 1) lineCorrection := by
        unfold Cpp.intAdd Cpp.wrapInt
        omega
      rw [hnum]
      exact List.mem_cons_self _ _
    | succ k =>
      have hk2 : (withTops inp.add (inp.add top b.height) rest)[k]? = some (block, t) := by
        simpa [withTops] using hk
      have hbots2 : ∀ j bt, j ≤ k →
          (withTops inp.add (inp.add top b.height) rest)[j]? = some bt →
          inp.le bt.2 inp.rectBottom = true := by
        intro j bt hj hbt
        exact hbots (j + 1) bt (by omega) (by simpa [withTops] using hbt)
      by_cases hv : (b.isVisible && inp.le inp.rectTop (inp.add top b.height)) = true
      · rw [if_pos hv]
        have hv2 := hv
        rw [Bool.and_eq_true] at hv2
        by_cases hshow : (!inp.mUnified || (inp.mUnified && !Qt.startsWith b.text "-" &&
            !Qt.startsWith b.text "@")) = true
        · rw [if_pos hshow]
          have hns : isSkipped inp (b, top) = false := by
            unfold isSkipped
            revert hshow
            cases inp.mUnified <;> cases Qt.startsWith b.text "-" <;>
              cases Qt.startsWith b.text "@" <;> simp
          have h := ih (index + 1) (Cpp.intAdd blockNumber 1) (inp.add top b.height)
            lineCorrection k block t hk2 hbots2 hvis hreach hu
          refine List.mem_cons_of_mem _ ?_
          have he : Painted.mk (index + (k + 1))
              (Cpp.wrapInt (blockNumber + ((k + 1 : Nat) : Int) + 1 + lineCorrection -
                (((withTops inp.add top (b :: rest)).take (k + 1)).countP (isSkipped inp) : Nat)))
              t =
              { blockIndex := index + 1 + k,
                number := Cpp.wrapInt (Cpp.intAdd blockNumber 1 + (k : Int) + 1 + lineCorrection -
                  (((withTops inp.add (inp.add top b.height) rest).take k).countP
                    (isSkipped inp) : Nat)),
                top := t } := by
            congr 1
            · omega
            · simp only [withTops, List.take_succ_cons, List.countP_cons, hns]
              push_cast
              simp only [Bool.false_eq_true, if_false, add_zero]
              exact (Cpp.wrapInt_step _ _ _ _).symm
          rw [he]
          exact h
        · rw [if_neg hshow]
          have hs : isSkipped inp (b, top) = true := by
            unfold isSkipped
            revert hshow
            simp only [hv2.1, hv2.2]
            cases inp.mUnified <;> cases Qt.startsWith b.text "-" <;>
              cases Qt.startsWith b.text "@" <;> simp
          have h := ih (index + 1) (Cpp.intAdd blockNumber 1) (inp.add top b.height)
            (Cpp.intSub lineCorrection 1) k block t hk2 hbots2 hvis hreach hu
          have he : Painted.mk (index + (k + 1))
              (Cpp.wrapInt (blockNumber + ((k + 1 : Nat) : Int) + 1 + lineCorrection -
                (((withTops inp.add top (b :: rest)).take (k + 1)).countP (isSkipped inp) : Nat)))
              t =
              { blockIndex := index + 1 + k,
                number := Cpp.wrapInt (Cpp.intAdd blockNumber 1 + (k : Int) + 1 +
                  Cpp.intSub lineCorrection 1 -
                  (((withTops inp.add (inp.add top b.height) rest).take k).countP
                    (isSkipped inp) : Nat)),
                top := t } := by
            congr 1
            · omega
            · simp only [withTops, List.take_succ_cons, List.countP_cons, hs]
              push_cast
              exact (Cpp.wrapInt_step_skip _ _ _ _).symm
          rw [he]
          exact h
      · rw [if_neg hv]
        have hns : isSkipped inp (b, top) = false := by
          unfold isSkipped
          revert hv
          cases inp.mUnified <;> cases b.isVisible <;>
            cases inp.le inp.rectTop (inp.add top b.height) <;> simp
        have h := ih (index + 1) (Cpp.intAdd blockNumber 1) (inp.add top b.height)
          lineCorrection k block t hk2 hbots2 hvis hreach hu
        have he : Painted.mk (index + (k + 1))
            (Cpp.wrapInt (blockNumber + ((k + 1 : Nat) : Int) + 1 + lineCorrection -
              (((withTops inp.add top (b :: rest)).take (k + 1)).countP (isSkipped inp) : Nat)))
            t =
            { blockIndex := index + 1 + k,
              number := Cpp.wrapInt (Cpp.intAdd blockNumber 1 + (k : Int) + 1 + lineCorrection -
                (((withTops inp.add (inp.add top b.height) rest).take k).countP
                  (isSkipped inp) : Nat)),
              top := t } := by
          congr 1
          · omega
          · simp only [withTops, List.take_succ_cons, List.countP_cons, hns]
            push_cast
            simp only [Bool.false_eq_true, if_false, add_zero]
            exact (Cpp.wrapInt_step _ _ _ _).symm
        rw [he]
        exact h

theorem withTops_fst {R : Type} (add : R → R → R) :
    ∀ (blocks : List (Block R)) (top : R) (k : Nat) (bt : Block R × R),
      (withTops add top blocks)[k]? = some bt → blocks[k]? = some bt.1 := by
  intro blocks
  induction blocks with
  | nil => intro top k bt h; simp [withTops] at h
  | cons b rest ih =>
    intro top k bt h
    cases k with
    | zero =>
      simp only [withTops, List.getElem?_cons_zero, Option.some.injEq] at h
      subst h
      simp
    | succ k =>
      simp only [withTops, List.getElem?_cons_succ] at h
      simpa using ih _ k bt h

theorem isSkipped_not_unified {R : Type} (inp : PaintInput R) (h : inp.mUnified = false)
    (l : List (Block R × R)) : l.countP (isSkipped inp) = 0 := by
  rw [List.countP_eq_zero]
  intro bt _
  simp [isSkipped, h]

theorem skippedBefore_le {R : Type} (inp : PaintInput R) (k : Nat) : skippedBefore inp k ≤ k := by
  unfold skippedBefore
  exact (List.countP_le_length _).trans (List.length_take_le _ _)

/-- C27 (as amended): the numbers `lineNumberAreaPaintEvent` paints.  Every painted
number belongs to a visible block from the first visible one on; in unified mode that
block does not start with `-` or `@`.  The number is, as an `int`, the block index plus
the starting line plus 1 minus the number of skipped blocks between the first visible
block and it (skipped: unified mode, visible, reaching the top of the rectangle, text
starting with `-` or `@`); it is exactly that value when the starting line plus and
minus the number of blocks fits an `int`.  Outside unified mode the number is, as an
`int`, the block index plus the starting line plus 1.  Conversely every block that the
loop reaches, that is visible, reaches the top of the rectangle and is not a `-` or `@`
block in unified mode is painted with that number.  On the sample view the number of
the third block is 1 when painting starts at the first block, and 3 when the first
visible block is the third one or when the rectangle starts below the first two
blocks. -/
theorem lineNumberAreaPaintEvent_numbers {R : Type} (inp : PaintInput R) :
    (∀ p ∈ lineNumberAreaPaintEvent inp, ∃ block,
      inp.blocks[p.blockIndex]? = some block ∧ inp.firstVisibleBlock ≤ p.blockIndex ∧
      block.isVisible = true ∧
      (inp.mUnified = true →
        Qt.startsWith block.text "-" = false ∧ Qt.startsWith block.text "@" = false) ∧
      p.number = Cpp.wrapInt ((p.blockIndex : Int) + inp.mStartingLine + 1 -
        (skippedBefore inp (p.blockIndex - inp.firstVisibleBlock) : Nat)) ∧
      (numbersFit inp → p.number = (p.blockIndex : Int) + inp.mStartingLine + 1 -
        (skippedBefore inp (p.blockIndex - inp.firstVisibleBlock) : Nat))) ∧
    (inp.mUnified = false → ∀ p ∈ lineNumberAreaPaintEvent inp,
      p.number = Cpp.wrapInt ((p.blockIndex : Int) + inp.mStartingLine + 1) ∧
      (numbersFit inp → p.number = (p.blockIndex : Int) + inp.mStartingLine + 1)) ∧
    (∀ (k : Nat) (block : Block R) (t : R),
      (withTops inp.add inp.firstTop (inp.blocks.drop inp.firstVisibleBlock))[k]? =
        some (block, t) →
      (∀ j bt, j ≤ k →
        (withTops inp.add inp.firstTop (inp.blocks.drop inp.firstVisibleBlock))[j]? = some bt →
        inp.le bt.2 inp.rectBottom = true) →
      block.isVisible = true →
      inp.le inp.rectTop (inp.add t block.height) = true →
      (inp.mUnified = true →
        Qt.startsWith block.text "-" = false ∧ Qt.startsWith block.text "@" = false) →
      Painted.mk (inp.firstVisibleBlock + k)
        (Cpp.wrapInt (((inp.firstVisibleBlock + k : Nat) : Int) + inp.mStartingLine + 1 -
          (skippedBefore inp k : Nat))) t ∈ lineNumberAreaPaintEvent inp) ∧
    lineNumberAreaPaintEvent sampleView = [⟨2, 1, 20⟩] ∧
    lineNumberAreaPaintEvent { sampleView with firstVisibleBlock := 2 } = [⟨2, 3, 0⟩] ∧
    lineNumberAreaPaintEvent { sampleView with rectTop := 25 } = [⟨2, 3, 20⟩] := by
  have hsound : ∀ p ∈ lineNumberAreaPaintEvent inp, ∃ block,
      inp.blocks[p.blockIndex]? = some block ∧ inp.firstVisibleBlock ≤ p.blockIndex ∧
      block.isVisible = true ∧
      (inp.mUnified = true →
        Qt.startsWith block.text "-" = false ∧ Qt.startsWith block.text "@" = false) ∧
      p.number = Cpp.wrapInt ((p.blockIndex : Int) + inp.mStartingLine + 1 -
        (skippedBefore inp (p.blockIndex - inp.firstVisibleBlock) : Nat)) ∧
      (numbersFit inp → p.number = (p.blockIndex : Int) + inp.mStartingLine + 1 -
        (skippedBefore inp (p.blockIndex - inp.firstVisibleBlock) : Nat)) := by
    intro p hp
    obtain ⟨k, block, hk, hi, hv, _, _, hu, hn⟩ := paintLoop_sound inp _ _ _ _ _ p hp
    have hget : inp.blocks[p.blockIndex]? = some block := by
      have h := withTops_fst inp.add _ _ _ _ hk
      rw [List.getElem?_drop] at h
      rw [hi]
      exact h
    have hk2 : p.blockIndex - inp.firstVisibleBlock = k := by omega
    have hnum : p.number = Cpp.wrapInt ((p.blockIndex : Int) + inp.mStartingLine + 1 -
        (skippedBefore inp (p.blockIndex - inp.firstVisibleBlock) : Nat)) := by
      rw [hn, hk2, hi]
      unfold skippedBefore Cpp.intAdd Cpp.wrapInt
      push_cast
      omega
    refine ⟨block, hget, by omega, hv, hu, hnum, ?_⟩
    intro hfit
    have hlt : p.blockIndex < inp.blocks.length := by
      obtain ⟨h, -⟩ := List.getElem?_eq_some_iff.mp hget
      exact h
    have hsk := skippedBefore_le inp (p.blockIndex - inp.firstVisibleBlock)
    unfold numbersFit at hfit
    rw [hnum]
    apply Cpp.wrapInt_of_fits <;> omega
  refine ⟨hsound, ?_, ?_, by decide, by decide, by decide⟩
  · intro hu p hp
    obtain ⟨_, _, _, _, _, hn, hfit⟩ := hsound p hp
    have h0 : skippedBefore inp (p.blockIndex - inp.firstVisibleBlock) = 0 := by
      unfold skippedBefore
      exact isSkipped_not_unified inp hu _
    rw [h0] at hn hfit
    simp only [Nat.cast_zero, sub_zero] at hn hfit
    exact ⟨hn, hfit⟩
  · intro k block t hk hbots hv hr hu
    have h := paintLoop_complete inp _ inp.firstVisibleBlock
      (Cpp.intAdd (inp.firstVisibleBlock : Int) inp.mStartingLine) inp.firstTop 0 k block t
      hk hbots hv hr hu
    have he : Painted.mk (inp.firstVisibleBlock + k)
        (Cpp.wrapInt (((inp.firstVisibleBlock + k : Nat) : Int) + inp.mStartingLine + 1 -
          (skippedBefore inp k : Nat))) t =
        Painted.mk (inp.firstVisibleBlock + k)
          (Cpp.wrapInt (Cpp.intAdd (inp.firstVisibleBlock : Int) inp.mStartingLine +
            (k : Int) + 1 + 0 -
            (((withTops inp.add inp.firstTop (inp.blocks.drop inp.firstVisibleBlock)).take
              k).countP (isSkipped inp) : Nat))) t := by
      congr 1
      unfold skippedBefore Cpp.intAdd Cpp.wrapInt
      push_cast
      omega
    rw [he]
    exact h

/-- C27 at a concrete input: the sample view, whose numbers fit an `int`; the number
painted is the block index plus the starting line plus 1 minus the skipped blocks. -/
theorem lineNumberAreaPaintEvent_numbers_witness :
    numbersFit sampleView ∧
    ∀ p ∈ lineNumberAreaPaintEvent sampleView,
      p.number = (p.blockIndex : Int) + sampleView.mStartingLine + 1 -
        (skippedBefore sampleView (p.blockIndex - sampleView.firstVisibleBlock) : Nat) :=
  ⟨⟨by decide, by decide⟩, fun p hp =>
    Exists.elim ((lineNumberAreaPaintEvent_numbers sampleView).1 p hp)
      (fun _ h => h.2.2.2.2.2 ⟨by decide, by decide⟩)⟩

/-- C27 as stated fails: outside unified mode, in a view whose starting line is the
greatest `int`, the numbers painted are not the block index plus the starting line
plus 1, which no `int` holds, but the least `int` and its successors. -/
theorem lineNumberAreaPaintEvent_greatest_start :
    greatestStartView.mUnified = false ∧
    greatestStartView.mStartingLine = 2147483647 ∧
    lineNumberAreaPaintEvent greatestStartView =
      [⟨0, -2147483648, 0⟩, ⟨1, -2147483647, 10⟩, ⟨2, -2147483646, 20⟩] ∧
    ¬ (∀ p ∈ lineNumberAreaPaintEvent greatestStartView,
      p.number = (p.blockIndex : Int) + greatestStartView.mStartingLine + 1) := by
  have h : lineNumberAreaPaintEvent greatestStartView =
      [⟨0, -2147483648, 0⟩, ⟨1, -2147483647, 10⟩, ⟨2, -2147483646, 20⟩] := by decide
  refine ⟨rfl, rfl, h, ?_⟩
  intro hall
  have h0 := hall ⟨0, -2147483648, 0⟩ (by rw [h]; simp)
  revert h0
  decide

/-- C28 (as amended): the digit loop of `lineNumberAreaWidth` ends for every block count
and starting line (the function is total); the number of digits counted is 5 plus the
number of decimal digits of the greater of 1 and the `int` sum of the block count and
the starting line, and lies between 6 and 15; the result is the `int` product of the
width of the character `9` and that number.  When the sum of the block count and the
starting line fits an `int`, the number of digits is 5 plus the number of decimal
digits of `max 1 (blockCount + mStartingLine)`; when moreover the width is not negative
and 15 widths fit an `int`, the result is the width times that number, it is at least
6 widths, and it does not decrease when the block count grows, as long as the sum
still fits an `int`. -/
theorem lineNumberAreaWidth_digits (blockCount mStartingLine width : Int) :
    lineNumberDigits blockCount mStartingLine =
      5 + ((Nat.digits 10
        (max 1 (Cpp.intAdd blockCount mStartingLine)).toNat).length : Int) ∧
    6 ≤ lineNumberDigits blockCount mStartingLine ∧
    lineNumberDigits blockCount mStartingLine ≤ 15 ∧
    lineNumberAreaWidth blockCount mStartingLine width =
      Cpp.intMul width (lineNumberDigits blockCount mStartingLine) ∧
    (-2147483648 ≤ blockCount + mStartingLine → blockCount + mStartingLine ≤ 2147483647 →
      lineNumberDigits blockCount mStartingLine =
        5 + ((Nat.digits 10 (max 1 (blockCount + mStartingLine)).toNat).length : Int) ∧
      (∀ more : Int, blockCount ≤ more → more + mStartingLine ≤ 2147483647 →
        lineNumberDigits blockCount mStartingLine ≤ lineNumberDigits more mStartingLine) ∧
      (0 ≤ width → width ≤ 143165576 →
        lineNumberAreaWidth blockCount mStartingLine width =
          width * (5 + ((Nat.digits 10
            (max 1 (blockCount + mStartingLine)).toNat).length : Int)) ∧
        6 * width ≤ lineNumberAreaWidth blockCount mStartingLine width ∧
        ∀ more : Int, blockCount ≤ more → more + mStartingLine ≤ 2147483647 →
          lineNumberAreaWidth blockCount mStartingLine width ≤
            lineNumberAreaWidth more mStartingLine width)) := by
  obtain ⟨h6, h15⟩ := lineNumberDigits_bounds blockCount mStartingLine
  refine ⟨lineNumberDigits_eq _ _, h6, h15, rfl, ?_⟩
  intro hlow hhigh
  have ha : Cpp.intAdd blockCount mStartingLine = blockCount + mStartingLine :=
    Cpp.wrapInt_of_fits _ hlow hhigh
  have hd : lineNumberDigits blockCount mStartingLine =
      5 + ((Nat.digits 10 (max 1 (blockCount + mStartingLine)).toNat).length : Int) := by
    rw [lineNumberDigits_eq, ha]
  refine ⟨hd, ?_, ?_⟩
  · intro more hle hm
    exact lineNumberDigits_mono blockCount more mStartingLine hlow hle hm
  · intro hw0 hw1
    have hfit := lineNumberAreaWidth_fits blockCount mStartingLine width hw0 hw1
    refine ⟨?_, ?_, ?_⟩
    · rw [hfit, hd]
    · rw [hfit]
      nlinarith
    · intro more hle hm
      rw [hfit, lineNumberAreaWidth_fits more mStartingLine width hw0 hw1]
      exact mul_le_mul_of_nonneg_left
        (lineNumberDigits_mono blockCount more mStartingLine hlow hle hm) hw0

/-- C28 at a concrete input: 1234 blocks from starting line 0 with a character 7 units
wide: 9 digits, 63 units. -/
theorem lineNumberAreaWidth_digits_witness :
    lineNumberDigits 1234 0 = 9 ∧ lineNumberAreaWidth 1234 0 7 = 63 ∧
    6 * 7 ≤ lineNumberAreaWidth 1234 0 7 ∧
    lineNumberAreaWidth 1234 0 7 ≤ lineNumberAreaWidth 99999 0 7 := by
  obtain ⟨hd, -, h⟩ := (lineNumberAreaWidth_digits 1234 0 7).2.2.2.2 (by decide) (by decide)
  obtain ⟨hw, h6, hmono⟩ := h (by decide) (by decide)
  have hm : (max 1 ((1234 : Int) + 0)).toNat = 1234 := by decide
  have hlen : (Nat.digits 10 1234).length = 4 := by norm_num
  rw [hm, hlen] at hd hw
  exact ⟨hd, hw, h6, hmono 99999 (by decide) (by decide)⟩

/-- C28 as stated fails: for 2147483647 blocks and starting line 1 the sum does not fit
an `int`; the result is 6 widths and not the width times 5 plus the 10 digits of
2147483648, and it is less than the result for 2147483646 blocks. -/
theorem lineNumberAreaWidth_sum_overflow :
    lineNumberAreaWidth 2147483647 1 7 = 42 ∧
    (7 : Int) * (5 + ((Nat.digits 10 (max 1 ((2147483647 : Int) + 1)).toNat).length : Int)) = 105 ∧
    lineNumberAreaWidth 2147483646 1 7 = 105 ∧
    ¬ (lineNumberAreaWidth 2147483646 1 7 ≤ lineNumberAreaWidth 2147483647 1 7) := by
  have h1 : lineNumberAreaWidth 2147483647 1 7 = 42 := by
    simp [lineNumberAreaWidth, lineNumberDigits, digitLoop, Cpp.intAdd, Cpp.intMul, Cpp.wrapInt]
  have h2 : lineNumberAreaWidth 2147483646 1 7 = 105 := by
    simp [lineNumberAreaWidth, lineNumberDigits, digitLoop, Cpp.intAdd, Cpp.intMul, Cpp.wrapInt]
  have hm : (max 1 ((2147483647 : Int) + 1)).toNat = 2147483648 := by decide
  have hlen : (Nat.digits 10 2147483648).length = 10 := by norm_num
  refine ⟨h1, ?_, h2, ?_⟩
  · rw [hm, hlen]
    decide
  · rw [h1, h2]
    decide

end FileDiffView
